import Mathlib

/-!
# A shallow embedding of the sudoku-go solver

The development follows `main.go`: the bitmap type `set`, the grid type
`sudoku` (81 cells, each holding a number and references to the sets of its
column, row and 3x3 square), the statistics record `log`, and the recursive
solver `sudoku.solve` (naked-single propagation followed by branching on the
last ambiguous cell).

Modelling decisions:

* Go `uint` is a 64 bit machine word.  Values are natural numbers; the three
  operations that can leave the word (`<<`, unary `^`, `num-1`) reduce modulo
  `2^64` explicitly (`shl64`, `not64`, `dec64`).
* A `*set` reference is the position of the set inside the family it was taken
  from (`new9set` allocates one family of nine sets for the columns, one for
  the rows and one for the squares).  A position outside `0..8` stands for
  `nil`.  Reading through such a reference yields `0` and writing through it is
  dropped; `NewSudoku` wires every cell, so the solver never meets one.
* `solve` mutates the receiver and the log.  The embedding passes both
  explicitly and returns them.  The unbounded `for` loop and the recursion are
  driven by a fuel argument; `none` means the fuel ran out.
* `log.sol` is a pointer to the solved grid.  The grid is not written to after
  `solution` was called, so a snapshot of it is stored.
* The wall-clock fields of `log` are left out.
* `log.trace` is a ghost field: the history of the notification calls and of
  the `assign` calls that `solve` makes.  No modelled function reads it.
-/

namespace Sudoku

/-! ## Machine words -/

/-- Go `x << k` for a 64 bit unsigned `x`: bits shifted out are lost and a
shift count of 64 or more gives 0. -/
def shl64 (x k : Nat) : Nat := if k < 64 then (x <<< k) % 2 ^ 64 else 0

/-- Go unary `^x` (bitwise complement) on a 64 bit unsigned word. -/
def not64 (x : Nat) : Nat := (2 ^ 64 - 1) ^^^ x

/-- Go `num - 1` on a 64 bit unsigned word (wraps around at 0). -/
def dec64 (num : Nat) : Nat := (num + (2 ^ 64 - 1)) % 2 ^ 64

/-- Library function `bits.OnesCount` on a 64 bit word: the number of one bits. -/
def onesCount (x : Nat) : Nat := ((List.range 64).filter (fun e => x.testBit e)).length

/-! ## The bitmap `set` -/

/-- Set of 1..9 numbers represented as a bitmap (`type set uint`). -/
abbrev set := Nat

/-- Go `set.remove`: `*s &= ^(1 << (num-1))`. -/
def set.remove (s : set) (num : Nat) : set := s &&& not64 (shl64 1 (dec64 num))

/-- Go `set.asSlice`: the numbers `e+1` for the bits `e = 0..8` that are set, in
loop order. -/
def set.asSlice (s : set) : List Nat :=
  ((List.range 9).filter (fun e => s &&& (1 <<< e) > 0)).map (fun e => e + 1)

/-- Go `bitAsNum`: the first set bit among bits 0..8, as a number 1..9, or 0. -/
def bitAsNum (i : Nat) : Nat :=
  match (List.range 9).find? (fun e => i &&& (1 <<< e) > 0) with
  | some e => e + 1
  | none => 0

/-- Go `new9set`: nine sets all containing the numbers 1..9. -/
def new9set : List set := List.replicate 9 0x1ff

/-! ## Cells and grids -/

/-- Go `cell`: the number (0 for none) and the references to the column, row and
square set. -/
structure cell where
  num : Nat
  col : Nat
  row : Nat
  sq : Nat
deriving DecidableEq, Repr

/-- The position that stands for a `nil` set reference. -/
def nilRef : Nat := 9

/-- The zero value of `cell`. -/
def cell.zero : cell := { num := 0, col := nilRef, row := nilRef, sq := nilRef }

/-- Go `sudoku` (`[9*9]cell`) together with the three families of sets its cells
refer to. -/
structure sudoku where
  cells : List cell
  cs : List set
  rs : List set
  sqs : List set
deriving DecidableEq, Repr

/-- The cell `s[i]`. -/
def sudoku.cell (s : sudoku) (i : Nat) : cell := s.cells.getD i cell.zero

/-- The set `*c.col` of cell `i`. -/
def sudoku.colSet (s : sudoku) (i : Nat) : set := s.cs.getD (s.cell i).col 0

/-- The set `*c.row` of cell `i`. -/
def sudoku.rowSet (s : sudoku) (i : Nat) : set := s.rs.getD (s.cell i).row 0

/-- The set `*c.sq` of cell `i`. -/
def sudoku.sqSet (s : sudoku) (i : Nat) : set := s.sqs.getD (s.cell i).sq 0

/-- One pointer store `s[k].f = ...` into the cell array. -/
def wire (s : List cell) (k : Nat) (f : cell → cell) : List cell :=
  s.set k (f (s.getD k cell.zero))

/-- Go `NewSudoku`: a blank grid, wired by the three loops of the source. -/
def NewSudoku : sudoku :=
  let s : List cell := List.replicate (9 * 9) cell.zero
  let s := (List.range 9).foldl (fun s i =>
    (List.range 9).foldl (fun s r => wire s (r * 9 + i) (fun c => { c with col := i })) s) s
  let s := (List.range 9).foldl (fun s i =>
    (List.range 9).foldl (fun s r => wire s (i * 9 + r) (fun c => { c with row := i })) s) s
  let s := ([0, 3, 6, 27, 30, 33, 54, 57, 60].enum).foldl (fun s p =>
    [0, 1, 2, 9, 10, 11, 18, 19, 20].foldl
      (fun s n => wire s (p.2 + n) (fun c => { c with sq := p.1 })) s) s
  { cells := s, cs := new9set, rs := new9set, sqs := new9set }

/-- Go `cell.hasNum` on cell `i` of `s`. -/
def cell.hasNum (s : sudoku) (i : Nat) : Bool := decide ((s.cell i).num > 0)

/-- Go `cell.assign` on cell `i` of `s`: store the number and remove it from the
three sets of the cell. -/
def cell.assign (s : sudoku) (i : Nat) (num : Nat) : sudoku :=
  let c := s.cell i
  { cells := s.cells.set i { c with num := num }
    cs := s.cs.set c.col (set.remove (s.cs.getD c.col 0) num)
    rs := s.rs.set c.row (set.remove (s.rs.getD c.row 0) num)
    sqs := s.sqs.set c.sq (set.remove (s.sqs.getD c.sq 0) num) }

/-- Go `cell.fails` on cell `i` of `s`. -/
def cell.fails (s : sudoku) (i : Nat) : Bool :=
  (s.cell i).num == 0 && (s.colSet i &&& s.rowSet i &&& s.sqSet i) == 0

/-- Go `cell.possibilities` on cell `i` of `s`: `(all, single, num)`. -/
def cell.possibilities (s : sudoku) (i : Nat) : set × Nat × Nat :=
  if (s.cell i).num != 0 then (0, 0, 0)
  else
    let all := s.colSet i &&& s.rowSet i &&& s.sqSet i
    let num := onesCount all
    let single := if num == 1 then bitAsNum all else 0
    (all, single, num)

/-- Go `sudoku.copy`: a fresh grid in which every number of the receiver is
assigned again. -/
def sudoku.copy (s : sudoku) : sudoku :=
  (List.range (9 * 9)).foldl (fun c i =>
    let n := (s.cell i).num
    if n > 0 then cell.assign c i n else c) NewSudoku

/-! ## Reading a puzzle -/

/-- The replacer `strings.NewReplacer("\n", "", "\r\n", "")` applied to a text: the
old strings are tried in argument order at each position, so every line feed and
every carriage return followed by a line feed is deleted.  Texts are lists of
characters (the puzzles are ASCII). -/
def eolReplace : List Char → List Char
  | [] => []
  | c :: rest =>
    if c = Char.ofNat 10 then eolReplace rest
    else match rest with
      | [] => [c]
      | c2 :: rest2 =>
        if c = Char.ofNat 13 ∧ c2 = Char.ofNat 10 then eolReplace rest2
        else c :: eolReplace (c2 :: rest2)

/-- Library function `strings.Split(s, sep)` for a separator of one character. -/
def split (sep : Char) : List Char → List (List Char)
  | [] => [[]]
  | c :: rest =>
    if c = sep then [] :: split sep rest
    else match split sep rest with
      | [] => [[c]]
      | t :: ts => (c :: t) :: ts

/-- Library function `strconv.Atoi` with the error dropped (`n,_ :=`): an optional
sign and decimal digits give their value, cut off at the 64 bit `int` range;
anything else gives 0. -/
def Atoi (s : List Char) : Int :=
  let neg := s.head? = some (Char.ofNat 45)
  let ds := if s.head? = some (Char.ofNat 45) ∨ s.head? = some (Char.ofNat 43) then s.tail else s
  if ds = [] ∨ ¬ ds.all (fun c => decide (48 ≤ c.toNat ∧ c.toNat ≤ 57)) then 0
  else
    let v : Nat := ds.foldl (fun acc c => 10 * acc + (c.toNat - 48)) 0
    if neg then (if v > 2 ^ 63 then -(2 ^ 63 : Int) else -(v : Int))
    else (if v ≥ 2 ^ 63 then (2 ^ 63 - 1 : Int) else (v : Int))

/-- Go conversion `uint(n)` of a 64 bit `int`. -/
def toUint (n : Int) : Nat := (n % (2 ^ 64 : Int)).toNat

/-- Go `sudoku.read`.  `none` is the run-time panic of `s[i]` for an index outside
the array. -/
def sudoku.read (s : sudoku) (input : List Char) : Option sudoku :=
  ((split (Char.ofNat 32) (eolReplace input)).enum).foldl (fun acc p =>
    match acc with
    | none => none
    | some g =>
      if p.2 = [Char.ofNat 46] then some g
      else if p.1 < 9 * 9 then some (cell.assign g p.1 (toUint (Atoi (eolReplace p.2))))
      else none) (some s)

/-! ## The log -/

/-- One entry of the ghost history kept in `log.trace`. -/
inductive event where
  | solveEnter
  | solveExit
  | iterate
  | solution (s : sudoku)
  | noSolution (ci : Nat) (s : sudoku)
  | assign (ci : Nat) (num : Nat) (hadNum : Bool)
deriving DecidableEq, Repr

/-- Go `log` without its two time stamps, with the ghost field `trace`. -/
structure log where
  depth : Int
  iter : Int
  solve : Int
  sol : Option sudoku
  solDepth : Int
  trace : List event
deriving DecidableEq, Repr

/-- Go `NewLog`. -/
def NewLog : log := { depth := 0, iter := 0, solve := 0, sol := none, solDepth := 0, trace := [] }

/-- Go `log.solveEnter`. -/
def log.solveEnter (l : log) : log :=
  { l with solve := l.solve + 1, depth := l.depth + 1, trace := l.trace ++ [event.solveEnter] }

/-- Go `log.solveExit`. -/
def log.solveExit (l : log) : log :=
  { l with depth := l.depth - 1, trace := l.trace ++ [event.solveExit] }

/-- Go `log.iterate`. -/
def log.iterate (l : log) : log :=
  { l with iter := l.iter + 1, trace := l.trace ++ [event.iterate] }

/-- Go `log.solution`. -/
def log.solution (l : log) (s : sudoku) : log :=
  { l with sol := some s, solDepth := l.depth, trace := l.trace ++ [event.solution s] }

/-- Go `log.noSolution` (its body is commented out in the source). -/
def log.noSolution (l : log) (ci : Nat) (s : sudoku) : log :=
  { l with trace := l.trace ++ [event.noSolution ci s] }

/-- Go `log.isDone`. -/
def log.isDone (l : log) : Bool := l.sol.isSome

/-- Ghost: note an `assign` call made by `solve` on cell `ci` of `s`. -/
def log.noteAssign (l : log) (s : sudoku) (ci num : Nat) : log :=
  { l with trace := l.trace ++ [event.assign ci num (cell.hasNum s ci)] }

/-! ## The solver -/

/-- The receiver and the local variables of one `solve` frame, with the log. -/
structure frame where
  s : sudoku
  l : log
  tryCandidates : set
  tryCell : Nat
  progress : Bool
  allCellsHaveNumbers : Bool
deriving DecidableEq, Repr

/-- The inner loop `for i := 0; i < 9*9; i++` of `solve`, run over the indices
still to visit.  `Except.error` is the early `return` after `noSolution`. -/
def scan : List Nat → frame → Except frame frame
  | [], f => .ok f
  | i :: rest, f =>
    if cell.hasNum f.s i then scan rest f
    else
      let f := { f with allCellsHaveNumbers := false }
      if cell.fails f.s i then .error { f with l := f.l.noSolution i f.s }
      else
        let p := cell.possibilities f.s i
        if p.2.2 == 1 then
          scan rest { f with l := f.l.noteAssign f.s i p.2.1
                             s := cell.assign f.s i p.2.1
                             progress := true }
        else
          scan rest { f with tryCandidates := p.1, tryCell := i }

/-- How the propagation loop of `solve` ends. -/
inductive outcome where
  | returned (f : frame)
  | broke (f : frame)
deriving DecidableEq, Repr

/-- The outer loop `for { ... }` of `solve`. -/
def propagate : Nat → sudoku → log → Nat → Option outcome
  | 0, _, _, _ => none
  | fuel + 1, s, l, tryCell =>
    match scan (List.range (9 * 9))
        { s := s, l := l.iterate, tryCandidates := 0, tryCell := tryCell,
          progress := false, allCellsHaveNumbers := true } with
    | .error f => some (.returned f)
    | .ok f =>
      if f.allCellsHaveNumbers then some (.broke { f with l := f.l.solution f.s })
      else if !f.progress then some (.broke f)
      else propagate fuel f.s f.l f.tryCell

/-- The loop `for _,i := range tryCandidates.asSlice()` of `solve`; `rec` is the
recursive call `s1.solve(l)`. -/
def branch (rec : sudoku → log → Option (sudoku × log)) (s : sudoku) (tryCell : Nat) :
    List Nat → log → Option log
  | [], l => some l
  | i :: rest, l =>
    let s1 := s.copy
    let l := l.noteAssign s1 tryCell i
    let s1 := cell.assign s1 tryCell i
    match rec s1 l with
    | none => none
    | some r => if r.2.isDone then some r.2 else branch rec s tryCell rest r.2

/-- Go `sudoku.solve`.  Returns the receiver and the log as they are when the
call returns. -/
def sudoku.solve : Nat → sudoku → log → Option (sudoku × log)
  | 0, _, _ => none
  | fuel + 1, s, l =>
    match propagate (fuel + 1) s l.solveEnter 0 with
    | none => none
    | some (.returned f) => some (f.s, f.l)
    | some (.broke f) =>
      match branch (sudoku.solve fuel) f.s f.tryCell f.tryCandidates.asSlice f.l with
      | none => none
      | some l => some (f.s, l.solveExit)

/-! ## Vocabulary of the statements -/

/-- The number held by cell `i`. -/
def sudoku.num (s : sudoku) (i : Nat) : Nat := (s.cell i).num

/-- Row of cell `i` in the layout drawn above `type sudoku`. -/
def rowOf (i : Nat) : Nat := i / 9

/-- Column of cell `i`. -/
def colOf (i : Nat) : Nat := i % 9

/-- The 3x3 square of cell `i`, squares numbered row-major. -/
def boxOf (i : Nat) : Nat := 3 * (i / 27) + (i % 9) / 3

/-- Cells `i` and `j` lie in a common row, column or square. -/
def sameUnit (i j : Nat) : Prop := rowOf i = rowOf j ∨ colOf i = colOf j ∨ boxOf i = boxOf j

instance (i j : Nat) : Decidable (sameUnit i j) := by unfold sameUnit; infer_instance

/-- The candidate bitmap of cell `i`: `*c.col & *c.row & *c.sq`. -/
def sudoku.cand (s : sudoku) (i : Nat) : set := s.colSet i &&& s.rowSet i &&& s.sqSet i

/-- How many cells of row `u` hold `d`. -/
def countRow (g : sudoku) (u d : Nat) : Nat :=
  ((List.range 81).filter (fun i => decide (rowOf i = u) && decide (g.num i = d))).length

/-- How many cells of column `u` hold `d`. -/
def countCol (g : sudoku) (u d : Nat) : Nat :=
  ((List.range 81).filter (fun i => decide (colOf i = u) && decide (g.num i = d))).length

/-- How many cells of square `u` hold `d`. -/
def countBox (g : sudoku) (u d : Nat) : Nat :=
  ((List.range 81).filter (fun i => decide (boxOf i = u) && decide (g.num i = d))).length

/-- All 81 cells have a number. -/
def sudoku.full (g : sudoku) : Prop := ∀ i, i < 81 → cell.hasNum g i = true

instance (g : sudoku) : Decidable g.full := by unfold sudoku.full; infer_instance

/-- All 81 cells have a number and every row, column and square contains each of
the digits 1..9 exactly once. -/
def sudoku.isSolved (g : sudoku) : Prop :=
  g.full ∧ ∀ u, u < 9 → ∀ d, d < 10 → 1 ≤ d →
    countRow g u d = 1 ∧ countCol g u d = 1 ∧ countBox g u d = 1

instance (g : sudoku) : Decidable g.isSolved := by unfold sudoku.isSolved; infer_instance

/-- No row, column or square holds the same number in two cells. -/
def sudoku.noRepeat (g : sudoku) : Prop :=
  ∀ i, i < 81 → ∀ j, j < 81 → (i ≠ j ∧ sameUnit i j ∧ g.num i ≠ 0) → g.num i ≠ g.num j

instance (g : sudoku) : Decidable g.noRepeat := by unfold sudoku.noRepeat; infer_instance

/-- Grid `t` agrees with `g` on every cell that has a number in `g`. -/
def sudoku.keeps (g t : sudoku) : Prop := ∀ i, i < 81 → g.num i ≠ 0 → t.num i = g.num i

instance (g t : sudoku) : Decidable (g.keeps t) := by unfold sudoku.keeps; infer_instance

/-- Every number on the grid is at most 9 and no row, column or square holds the
same number twice. -/
def sudoku.consistent (g : sudoku) : Prop := (∀ i, i < 81 → g.num i ≤ 9) ∧ g.noRepeat

instance (g : sudoku) : Decidable g.consistent := by unfold sudoku.consistent; infer_instance

/-- Grid `t` is a full valid grid that agrees with `g` on the cells `g` has
assigned. -/
def sudoku.completes (g t : sudoku) : Prop := t.isSolved ∧ g.keeps t

instance (g t : sudoku) : Decidable (g.completes t) := by
  unfold sudoku.completes; infer_instance

/-- The number of cells without a number. -/
def sudoku.unassigned (g : sudoku) : Nat :=
  ((List.range 81).filter (fun i => !cell.hasNum g i)).length

/-- A grid built from a blank grid by assigning the clues `(cell, digit)` in order. -/
def seeded (clues : List (Nat × Nat)) : sudoku :=
  clues.foldl (fun g c => cell.assign g c.1 c.2) NewSudoku

/-- The clues name distinct cells of the grid and carry digits 1..9. -/
def goodClues (clues : List (Nat × Nat)) : Prop :=
  (clues.map Prod.fst).Nodup ∧ ∀ c ∈ clues, c.1 < 81 ∧ 1 ≤ c.2 ∧ c.2 ≤ 9

instance (clues : List (Nat × Nat)) : Decidable (goodClues clues) := by
  unfold goodClues; infer_instance

/-- Grids reachable from a blank grid by `assign` calls, each made on a cell
that has no number at that moment. -/
inductive reachable : sudoku → Prop
  | blank : reachable NewSudoku
  | step {g : sudoku} (i d : Nat) : reachable g → i < 81 → cell.hasNum g i = false →
      d < 2 ^ 64 → reachable (cell.assign g i d)

/-- Digit `d` of 1..9 is a member of bitmap `s`. -/
def set.has (s : set) (d : Nat) : Prop := 1 ≤ d ∧ d ≤ 9 ∧ s.testBit (d - 1) = true

instance (s : set) (d : Nat) : Decidable (set.has s d) := by unfold set.has; infer_instance

/-- The number of digits 1..9 that are members of bitmap `s`. -/
def set.count (s : set) : Nat := ((List.range 10).filter (fun d => decide (set.has s d))).length

/-- Bitmap `a` is a subset of bitmap `b`. -/
def set.subset (a b : set) : Prop := a &&& b = a

instance (a b : set) : Decidable (set.subset a b) := by unfold set.subset; infer_instance

/-- The sets of a grid follow its numbers: the cell array and the three families
have the lengths and the wiring of `NewSudoku`, and a set holds digit `e+1`
exactly when `e < 9` and no cell of its unit holds `e+1`. -/
structure tracked (g : sudoku) : Prop where
  len : g.cells.length = 81
  lcs : g.cs.length = 9
  lrs : g.rs.length = 9
  lsqs : g.sqs.length = 9
  wcol : ∀ i, i < 81 → (g.cell i).col = colOf i
  wrow : ∀ i, i < 81 → (g.cell i).row = rowOf i
  wsq : ∀ i, i < 81 → (g.cell i).sq = boxOf i
  wnum : ∀ i, i < 81 → g.num i < 2 ^ 64
  tcs : ∀ u, u < 9 → ∀ e, (g.cs.getD u 0).testBit e = true ↔
    (e < 9 ∧ ∀ j, j < 81 → colOf j = u → g.num j ≠ e + 1)
  trs : ∀ u, u < 9 → ∀ e, (g.rs.getD u 0).testBit e = true ↔
    (e < 9 ∧ ∀ j, j < 81 → rowOf j = u → g.num j ≠ e + 1)
  tsqs : ∀ u, u < 9 → ∀ e, (g.sqs.getD u 0).testBit e = true ↔
    (e < 9 ∧ ∀ j, j < 81 → boxOf j = u → g.num j ≠ e + 1)

/-- The entry is a call of `log.solution`. -/
def event.isSolution : event → Bool
  | .solution _ => true
  | _ => false

/-- The entry is a call of `log.solveEnter`. -/
def event.isEnter : event → Bool
  | .solveEnter => true
  | _ => false

/-- The entry is a call of `log.noSolution`. -/
def event.isNoSolution : event → Bool
  | .noSolution _ _ => true
  | _ => false

/-- The trace holds one `solution` call, for grid `t`, and after it nothing but
`solveExit` calls. -/
def solvedTrace (T : List event) (t : sudoku) : Prop :=
  ∃ pre post, T = pre ++ event.solution t :: post ∧
    (∀ e ∈ pre, e.isSolution = false) ∧ (∀ e ∈ post, e = event.solveExit)

/-- The log agrees with its history: `solve` counts the `solveEnter` calls, every
noted `assign` was made on a cell without a number, and `sol` is set exactly when
the history holds a `solution` call, which then is the only one and is followed by
`solveExit` calls only. -/
structure log.coherent (l : log) : Prop where
  enters : l.solve = ((l.trace.filter event.isEnter).length : Int)
  fresh : ∀ ci n had, event.assign ci n had ∈ l.trace → had = false
  unsolved : l.sol = none → ∀ e ∈ l.trace, e.isSolution = false
  solved : ∀ t, l.sol = some t → solvedTrace l.trace t

/-- Specification of the branching step in the words of the claim: recurse, in list
order, on a copy of `s` with cell `tryCell` assigned each digit of the list. -/
def recurseAll (rec : sudoku → log → Option (sudoku × log)) (s : sudoku) (tryCell : Nat) :
    List Nat → log → Option log
  | [], l => some l
  | i :: rest, l =>
    match rec (cell.assign s.copy tryCell i) (l.noteAssign s.copy tryCell i) with
    | none => none
    | some r => recurseAll rec s tryCell rest r.2

/-- Grid `a` is at most grid `b` in the lexicographic order that compares the numbers
of the cells from index 80 down to index 0. -/
def sudoku.lexLE (a b : sudoku) : Prop :=
  (∀ j, j < 81 → a.num j = b.num j) ∨
  ∃ k, k < 81 ∧ a.num k < b.num k ∧ ∀ j, j < 81 → k < j → a.num j = b.num j

/-- The entry is a call of `log.solveExit`. -/
def event.isExit : event → Bool
  | .solveExit => true
  | _ => false

/-! ## Sample grids -/

/-- The clues `(cell, digit)` of a puzzle given as 81 digits in row-major order,
0 standing for the blank marker `.` of the source. -/
def cluesOf (digits : List Nat) : List (Nat × Nat) :=
  digits.enum.filter (fun p => decide (p.2 ≠ 0))

/-- The built-in puzzle 0 of `main.go`. -/
def puzzle0 : List (Nat × Nat) := cluesOf
  [0, 9, 1, 0, 5, 0, 2, 7, 0,
   0, 0, 0, 2, 0, 4, 6, 0, 1,
   2, 7, 0, 6, 9, 1, 0, 5, 8,
   0, 0, 3, 1, 0, 5, 7, 4, 0,
   0, 8, 5, 0, 0, 0, 9, 6, 0,
   0, 0, 2, 9, 6, 0, 1, 8, 5,
   0, 0, 6, 0, 3, 0, 4, 0, 0,
   0, 3, 9, 0, 2, 0, 0, 1, 0,
   4, 2, 0, 0, 0, 0, 8, 3, 9]

/-- The completed grid of puzzle 0. -/
def solution0 : List (Nat × Nat) := cluesOf
  [6, 9, 1, 3, 5, 8, 2, 7, 4,
   3, 5, 8, 2, 7, 4, 6, 9, 1,
   2, 7, 4, 6, 9, 1, 3, 5, 8,
   9, 6, 3, 1, 8, 5, 7, 4, 2,
   1, 8, 5, 7, 4, 2, 9, 6, 3,
   7, 4, 2, 9, 6, 3, 1, 8, 5,
   5, 1, 6, 8, 3, 9, 4, 2, 7,
   8, 3, 9, 4, 2, 7, 5, 1, 6,
   4, 2, 7, 5, 1, 6, 8, 3, 9]

/-- The completed grid of puzzle 0 with cells 0, 1, 27 and 28 blanked: a puzzle
with two valid completions. -/
def twoWay : List (Nat × Nat) := cluesOf
  [0, 0, 1, 3, 5, 8, 2, 7, 4,
   3, 5, 8, 2, 7, 4, 6, 9, 1,
   2, 7, 4, 6, 9, 1, 3, 5, 8,
   0, 0, 3, 1, 8, 5, 7, 4, 2,
   1, 8, 5, 7, 4, 2, 9, 6, 3,
   7, 4, 2, 9, 6, 3, 1, 8, 5,
   5, 1, 6, 8, 3, 9, 4, 2, 7,
   8, 3, 9, 4, 2, 7, 5, 1, 6,
   4, 2, 7, 5, 1, 6, 8, 3, 9]

/-- The built-in puzzle 5 of `main.go`. -/
def puzzle5 : List (Nat × Nat) := cluesOf
  [2, 0, 0, 0, 9, 0, 0, 0, 1,
   3, 0, 9, 0, 0, 7, 0, 0, 0,
   0, 0, 1, 0, 4, 0, 0, 7, 0,
   0, 6, 0, 0, 0, 0, 0, 0, 0,
   0, 0, 0, 0, 0, 3, 0, 0, 0,
   0, 0, 8, 6, 0, 0, 7, 9, 0,
   6, 0, 0, 7, 0, 0, 8, 0, 0,
   1, 2, 3, 0, 0, 8, 0, 0, 0,
   0, 8, 7, 0, 0, 4, 3, 0, 0]

/-- The text of the built-in puzzle 0 of `main.go`: every line but the last ends in
a space. -/
def puzzle0Text : String :=
  "\n. 9 1 . 5 . 2 7 . \n. . . 2 . 4 6 . 1 \n2 7 . 6 9 1 . 5 8 \n. . 3 1 . 5 7 4 . \n. 8 5 . . . 9 6 . \n. . 2 9 6 . 1 8 5 \n. . 6 . 3 . 4 . . \n. 3 9 . 2 . . 1 . \n4 2 . . . . 8 3 9\n"

/-- The text of the built-in puzzle 4 of `main.go`: no line ends in a space. -/
def puzzle4Text : String :=
  "\n. . . . . . . . .\n. . . . . 3 . 8 5\n. . 1 . 2 . . . .\n. . . 5 . 7 . . .\n. . 4 . . . 1 . .\n. 9 . . . . . . .\n5 . . . . . . 7 3\n. . 2 . 1 . . . .\n. . . . 4 . . . 9\n"

/-- Digit 1 seeded into the first 80 cells, the last cell left blank. -/
def onesBlank : List (Nat × Nat) := cluesOf (List.replicate 80 1 ++ [0])

/-! ## Invariants of the solver loops -/

/-- What holds of a frame during one pass of the inner loop over the cells `is`,
on a tracked grid; `g0` and `l0` are the grid and the log at the start of the
pass. -/
def scanInv (g0 : sudoku) (l0 : log) (is : List Nat) (f : frame) : Prop :=
  tracked f.s ∧ f.s.unassigned ≤ g0.unassigned ∧
  (f.progress = true → f.s.unassigned < g0.unassigned) ∧
  (g0.consistent → f.s.consistent) ∧
  (∀ t, g0.completes t → f.s.completes t) ∧
  (∀ e ∈ l0.trace, e ∈ f.l.trace) ∧ f.l.sol = l0.sol ∧
  (f.progress = false → f.allCellsHaveNumbers = false →
    f.tryCell ∈ is ∧ cell.hasNum f.s f.tryCell = false ∧
    f.tryCandidates = f.s.cand f.tryCell ∧ f.tryCandidates ≠ 0)

/-- What holds when the inner loop returns early: `noSolution` was called and the
grid has no valid completion. -/
def scanFail (g0 : sudoku) (l0 : log) (f : frame) : Prop :=
  (∃ e ∈ f.l.trace, e.isNoSolution = true) ∧ (∀ t, ¬ g0.completes t) ∧
  (∀ e ∈ l0.trace, e ∈ f.l.trace) ∧ f.l.sol = l0.sol

/-- What holds when the propagation loop, started on grid `s` with log `l`, ends. -/
def propPost (s : sudoku) (l : log) : outcome → Prop
  | .returned f => scanFail s l f
  | .broke f =>
    tracked f.s ∧ f.s.unassigned ≤ s.unassigned ∧ (s.consistent → f.s.consistent) ∧
    (∀ t, s.completes t → f.s.completes t) ∧ (∀ e ∈ l.trace, e ∈ f.l.trace) ∧
    ((f.s.full ∧ f.l.sol = some f.s ∧ f.tryCandidates = 0) ∨
     (f.l.sol = l.sol ∧ f.tryCell < 81 ∧ cell.hasNum f.s f.tryCell = false ∧
      f.tryCandidates = f.s.cand f.tryCell ∧ f.tryCandidates ≠ 0))

/-- What holds when `solve`, called on a tracked grid `g` with log `l`, returns
the pair `r`. -/
def solvePost (g : sudoku) (l : log) (r : sudoku × log) : Prop :=
  (∀ e ∈ l.trace, e ∈ r.2.trace) ∧
  (l.sol = none →
    (r.2.sol = none → ∃ e ∈ r.2.trace, e.isNoSolution = true) ∧
    (∀ t, r.2.sol = some t → tracked t ∧ t.full ∧ (g.consistent → t.consistent)) ∧
    ((∃ t, g.completes t) → r.2.sol ≠ none))

/-- Specification of one row-major naked-single pass over the cells `is`: each
cell without a number that has exactly one candidate is assigned it.  The flag
tells whether the pass assigned anything. -/
def nakedSinglePass : List Nat → sudoku → Bool → sudoku × Bool
  | [], g, b => (g, b)
  | i :: rest, g, b =>
    if !cell.hasNum g i && (cell.possibilities g i).2.2 == 1 then
      nakedSinglePass rest (cell.assign g i (cell.possibilities g i).2.1) true
    else nakedSinglePass rest g b

/-- Specification of naked-single propagation: passes are repeated until one
assigns nothing; at most `k` passes are run. -/
def nakedSingles : Nat → sudoku → Option sudoku
  | 0, _ => none
  | k + 1, g =>
    let r := nakedSinglePass (List.range 81) g false
    if r.2 then nakedSingles k r.1 else some r.1

/-! ## Lists -/

theorem getD_set_eq {α : Type} (l : List α) (i j : Nat) (v d : α) :
    (l.set i v).getD j d = if j = i ∧ i < l.length then v else l.getD j d := by
  rw [List.getD_eq_getElem?_getD, List.getD_eq_getElem?_getD, List.getElem?_set]
  by_cases h : i = j
  · subst h
    by_cases hl : i < l.length
    · simp [hl]
    · have hn : l[i]? = none := List.getElem?_eq_none (by omega)
      simp [hl, hn]
  · have h2 : ¬ (j = i) := fun e => h e.symm
    simp [h, h2]

theorem length_filter_le_of_imp {α : Type} (p q : α → Bool) (l : List α)
    (h : ∀ a, p a = true → q a = true) : (l.filter p).length ≤ (l.filter q).length :=
  (List.monotone_filter_right l h).length_le

/-! ## Machine words and bitmaps -/

theorem testBit_shl64_one (k e : Nat) :
    (shl64 1 k).testBit e = decide (k < 64 ∧ e = k) := by
  unfold shl64
  split
  · rename_i h
    rw [Nat.testBit_mod_two_pow, Nat.testBit_shiftLeft]
    by_cases hek : e = k
    · subst hek; simp [h]
    · by_cases hge : e ≥ k
      · have : e - k ≠ 0 := by omega
        obtain ⟨m, hm⟩ := Nat.exists_eq_succ_of_ne_zero this
        simp [hek, hm, Nat.testBit_succ]
      · simp [hek, hge]
  · rename_i h
    simp [h]

theorem testBit_not64 (x e : Nat) :
    (not64 x).testBit e = (decide (e < 64) ^^ x.testBit e) := by
  unfold not64
  rw [Nat.testBit_xor, Nat.testBit_two_pow_sub_one]

theorem dec64_eq (d : Nat) (hd : d < 2 ^ 64) :
    dec64 d = if d = 0 then 2 ^ 64 - 1 else d - 1 := by
  unfold dec64
  split
  · rename_i h; subst h; norm_num
  · rename_i h
    have : d + (2 ^ 64 - 1) = (d - 1) + 2 ^ 64 := by omega
    rw [this, Nat.add_mod_right, Nat.mod_eq_of_lt]; omega

theorem testBit_remove (s d e : Nat) (hd : d < 2 ^ 64) :
    (set.remove s d).testBit e = (decide (e < 64) && s.testBit e && decide (e + 1 ≠ d)) := by
  unfold set.remove
  rw [Nat.testBit_land, testBit_not64, testBit_shl64_one, dec64_eq d hd]
  by_cases h64 : e < 64
  · by_cases hd0 : d = 0
    · subst hd0; simp [h64]
    · by_cases hed : e + 1 = d
      · subst hed; simp [h64]
      · have : ¬ (e = d - 1) := by omega
        simp [h64, hd0, hed, this]
  · simp [h64]
    cases s.testBit e <;> simp
    split <;> omega

theorem testBit_remove_imp (s d e : Nat) (h : (set.remove s d).testBit e = true) :
    s.testBit e = true := by
  unfold set.remove at h
  rw [Nat.testBit_land] at h
  simp at h
  exact h.1

theorem land_shl_pos (s e : Nat) : decide (s &&& (1 <<< e) > 0) = s.testBit e := by
  rw [Nat.one_shiftLeft]
  cases hb : s.testBit e
  · have : s &&& 2 ^ e = 0 := by
      apply Nat.eq_of_testBit_eq
      intro k
      rw [Nat.testBit_land, Nat.testBit_two_pow, Nat.zero_testBit]
      by_cases hk : e = k
      · subst hk; simp [hb]
      · simp [hk]
    simp [this]
  · have h1 : (s &&& 2 ^ e).testBit e = true := by
      rw [Nat.testBit_land, Nat.testBit_two_pow]; simp [hb]
    have : s &&& 2 ^ e ≠ 0 := by
      intro h0; rw [h0, Nat.zero_testBit] at h1; exact Bool.noConfusion h1
    simp; omega

theorem asSlice_eq (s : Nat) :
    set.asSlice s = ((List.range 9).filter (fun e => s.testBit e)).map (fun e => e + 1) := by
  unfold set.asSlice
  congr 1
  apply List.filter_congr
  intro e _
  exact land_shl_pos s e

theorem mem_asSlice (s d : Nat) :
    d ∈ set.asSlice s ↔ (1 ≤ d ∧ d ≤ 9 ∧ s.testBit (d - 1) = true) := by
  rw [asSlice_eq]
  simp only [List.mem_map, List.mem_filter, List.mem_range]
  constructor
  · rintro ⟨e, ⟨he, hb⟩, rfl⟩
    refine ⟨by omega, by omega, ?_⟩
    simpa using hb
  · rintro ⟨h1, h9, hb⟩
    exact ⟨d - 1, ⟨by omega, hb⟩, by omega⟩

theorem testBit_of_lt_512 (s e : Nat) (hs : s < 512) (he : 9 ≤ e) : s.testBit e = false := by
  apply Nat.testBit_lt_two_pow
  calc s < 2 ^ 9 := by simpa using hs
    _ ≤ 2 ^ e := Nat.pow_le_pow_right (by norm_num) he

theorem onesCount_eq_of_lt (s : Nat) (hs : s < 512) :
    onesCount s = ((List.range 9).filter (fun e => s.testBit e)).length := by
  unfold onesCount
  have h : List.range 64 = List.range 9 ++ (List.range' 9 55) := by decide
  rw [h, List.filter_append, List.length_append]
  have : (List.range' 9 55).filter (fun e => s.testBit e) = [] := by
    rw [List.filter_eq_nil_iff]
    intro e he
    rw [List.mem_range'_1] at he
    simp [testBit_of_lt_512 s e hs he.1]
  rw [this]; simp

theorem onesCount_eq_length_asSlice (s : Nat) (hs : s < 512) :
    onesCount s = (set.asSlice s).length := by
  rw [onesCount_eq_of_lt s hs, asSlice_eq, List.length_map]

theorem find_succ_eq_headD (p : Nat → Bool) (l : List Nat) :
    (match l.find? p with
      | some e => e + 1
      | none => 0) = ((l.filter p).map (fun e => e + 1)).headD 0 := by
  induction l with
  | nil => rfl
  | cons a t ih =>
    by_cases h : p a = true
    · simp [List.find?, List.filter, h]
    · have h2 : p a = false := by simpa using h
      simp only [List.find?, List.filter, h2]
      exact ih

theorem bitAsNum_eq_headD (s : Nat) : bitAsNum s = (set.asSlice s).headD 0 := by
  unfold bitAsNum set.asSlice
  exact find_succ_eq_headD _ _

theorem onesCount_mono (a b : Nat) (h : ∀ e, a.testBit e = true → b.testBit e = true) :
    onesCount a ≤ onesCount b :=
  length_filter_le_of_imp _ _ _ (fun e he => h e he)

theorem subset_iff (a b : Nat) :
    set.subset a b ↔ ∀ e, a.testBit e = true → b.testBit e = true := by
  unfold set.subset
  constructor
  · intro h e he
    rw [← h, Nat.testBit_land] at he
    simp at he
    exact he.2
  · intro h
    apply Nat.eq_of_testBit_eq
    intro e
    rw [Nat.testBit_land]
    cases ha : a.testBit e
    · simp
    · simp [h e ha]

/-! ## Cells, `assign` and the candidate bitmap -/

theorem cell_assign (g : sudoku) (i d j : Nat) :
    (cell.assign g i d).cell j =
      if j = i ∧ i < g.cells.length then { g.cell i with num := d } else g.cell j := by
  unfold cell.assign sudoku.cell
  simp only []
  rw [getD_set_eq]

theorem cell_assign_ne (g : sudoku) (i d j : Nat) (h : j ≠ i) :
    (cell.assign g i d).cell j = g.cell j := by
  rw [cell_assign]; simp [h]

theorem num_assign_ne (g : sudoku) (i d j : Nat) (h : j ≠ i) :
    (cell.assign g i d).num j = g.num j := by
  unfold sudoku.num; rw [cell_assign_ne g i d j h]

theorem num_assign_self (g : sudoku) (i d : Nat) (h : i < g.cells.length) :
    (cell.assign g i d).num i = d := by
  unfold sudoku.num; rw [cell_assign]; simp [h]

theorem col_assign (g : sudoku) (i d j : Nat) :
    ((cell.assign g i d).cell j).col = (g.cell j).col := by
  rw [cell_assign]; split
  · rename_i h; rw [h.1]
  · rfl

theorem row_assign (g : sudoku) (i d j : Nat) :
    ((cell.assign g i d).cell j).row = (g.cell j).row := by
  rw [cell_assign]; split
  · rename_i h; rw [h.1]
  · rfl

theorem sq_assign (g : sudoku) (i d j : Nat) :
    ((cell.assign g i d).cell j).sq = (g.cell j).sq := by
  rw [cell_assign]; split
  · rename_i h; rw [h.1]
  · rfl

theorem cs_assign (g : sudoku) (i d k : Nat) :
    (cell.assign g i d).cs.getD k 0 =
      if k = (g.cell i).col ∧ (g.cell i).col < g.cs.length
      then set.remove (g.cs.getD (g.cell i).col 0) d else g.cs.getD k 0 := by
  unfold cell.assign; simp only []; rw [getD_set_eq]

theorem rs_assign (g : sudoku) (i d k : Nat) :
    (cell.assign g i d).rs.getD k 0 =
      if k = (g.cell i).row ∧ (g.cell i).row < g.rs.length
      then set.remove (g.rs.getD (g.cell i).row 0) d else g.rs.getD k 0 := by
  unfold cell.assign; simp only []; rw [getD_set_eq]

theorem sqs_assign (g : sudoku) (i d k : Nat) :
    (cell.assign g i d).sqs.getD k 0 =
      if k = (g.cell i).sq ∧ (g.cell i).sq < g.sqs.length
      then set.remove (g.sqs.getD (g.cell i).sq 0) d else g.sqs.getD k 0 := by
  unfold cell.assign; simp only []; rw [getD_set_eq]

theorem length_cells_assign (g : sudoku) (i d : Nat) :
    (cell.assign g i d).cells.length = g.cells.length := by
  unfold cell.assign; simp

theorem length_cs_assign (g : sudoku) (i d : Nat) :
    (cell.assign g i d).cs.length = g.cs.length := by
  unfold cell.assign; simp

theorem length_rs_assign (g : sudoku) (i d : Nat) :
    (cell.assign g i d).rs.length = g.rs.length := by
  unfold cell.assign; simp

theorem length_sqs_assign (g : sudoku) (i d : Nat) :
    (cell.assign g i d).sqs.length = g.sqs.length := by
  unfold cell.assign; simp

theorem cs_assign_imp (g : sudoku) (i d k e : Nat)
    (h : ((cell.assign g i d).cs.getD k 0).testBit e = true) :
    (g.cs.getD k 0).testBit e = true := by
  rw [cs_assign] at h
  split at h
  · rename_i hk; rw [hk.1]; exact testBit_remove_imp _ _ _ h
  · exact h

theorem rs_assign_imp (g : sudoku) (i d k e : Nat)
    (h : ((cell.assign g i d).rs.getD k 0).testBit e = true) :
    (g.rs.getD k 0).testBit e = true := by
  rw [rs_assign] at h
  split at h
  · rename_i hk; rw [hk.1]; exact testBit_remove_imp _ _ _ h
  · exact h

theorem sqs_assign_imp (g : sudoku) (i d k e : Nat)
    (h : ((cell.assign g i d).sqs.getD k 0).testBit e = true) :
    (g.sqs.getD k 0).testBit e = true := by
  rw [sqs_assign] at h
  split at h
  · rename_i hk; rw [hk.1]; exact testBit_remove_imp _ _ _ h
  · exact h

theorem testBit_cand (g : sudoku) (i e : Nat) :
    (g.cand i).testBit e =
      ((g.cs.getD (g.cell i).col 0).testBit e && (g.rs.getD (g.cell i).row 0).testBit e
        && (g.sqs.getD (g.cell i).sq 0).testBit e) := by
  unfold sudoku.cand sudoku.colSet sudoku.rowSet sudoku.sqSet
  rw [Nat.testBit_land, Nat.testBit_land]

theorem cand_assign_imp (g : sudoku) (i d j e : Nat)
    (h : ((cell.assign g i d).cand j).testBit e = true) : (g.cand j).testBit e = true := by
  rw [testBit_cand] at h ⊢
  rw [col_assign, row_assign, sq_assign] at h
  simp only [Bool.and_eq_true] at h ⊢
  exact ⟨⟨cs_assign_imp _ _ _ _ _ h.1.1, rs_assign_imp _ _ _ _ _ h.1.2⟩,
    sqs_assign_imp _ _ _ _ _ h.2⟩

theorem possibilities_eq (g : sudoku) (i : Nat) :
    cell.possibilities g i =
      if g.num i ≠ 0 then (0, 0, 0)
      else (g.cand i, (if onesCount (g.cand i) = 1 then bitAsNum (g.cand i) else 0),
        onesCount (g.cand i)) := by
  unfold cell.possibilities sudoku.num sudoku.cand
  by_cases h : (g.cell i).num = 0
  · simp [h]
  · simp [h]

theorem hasNum_eq (g : sudoku) (i : Nat) : cell.hasNum g i = decide (g.num i ≠ 0) := by
  unfold cell.hasNum sudoku.num
  by_cases h : (g.cell i).num = 0
  · simp [h]
  · simp [h]; omega

theorem fails_eq (g : sudoku) (i : Nat) :
    cell.fails g i = (decide (g.num i = 0) && decide (g.cand i = 0)) := by
  unfold cell.fails sudoku.num sudoku.cand
  by_cases h : (g.cell i).num = 0 <;> by_cases h2 : (g.colSet i &&& g.rowSet i &&& g.sqSet i) = 0 <;>
    simp [h, h2]

theorem count_eq_length_asSlice (s : Nat) : set.count s = (set.asSlice s).length := by
  unfold set.count
  rw [asSlice_eq, List.length_map]
  have h : List.range 10 = 0 :: (List.range 9).map (fun e => e + 1) := by decide
  rw [h, List.filter_cons]
  have h0 : decide (set.has s 0) = false := by unfold set.has; simp
  rw [h0]
  simp only [Bool.false_eq_true, if_false]
  rw [List.filter_map, List.length_map]
  congr 1
  apply List.filter_congr
  intro e he
  rw [List.mem_range] at he
  unfold set.has
  simp only [Function.comp]
  have h2 : e + 1 ≤ 9 := by omega
  simp [h2]

theorem has_iff_mem_asSlice (s d : Nat) : set.has s d ↔ d ∈ set.asSlice s := by
  rw [mem_asSlice]; rfl

/-! ## The invariant `tracked` -/

theorem track_step (uf num num' : Nat → Nat) (i d u S S' : Nat) (hi : i < 81)
    (h0 : num i = 0) (hne : ∀ j, j ≠ i → num' j = num j) (hself : num' i = d)
    (hd : d < 2 ^ 64)
    (hS : ∀ e, S.testBit e = true ↔ (e < 9 ∧ ∀ j, j < 81 → uf j = u → num j ≠ e + 1))
    (hS' : S' = if u = uf i then set.remove S d else S) :
    ∀ e, S'.testBit e = true ↔ (e < 9 ∧ ∀ j, j < 81 → uf j = u → num' j ≠ e + 1) := by
  intro e
  by_cases hu : u = uf i
  · rw [hS', if_pos hu, testBit_remove _ _ _ hd]
    simp only [Bool.and_eq_true, decide_eq_true_eq]
    constructor
    · rintro ⟨⟨_, hb⟩, hed⟩
      have := (hS e).1 hb
      refine ⟨this.1, ?_⟩
      intro j hj hju
      by_cases hji : j = i
      · rw [hji, hself]; exact fun h => hed h.symm
      · rw [hne j hji]; exact this.2 j hj hju
    · rintro ⟨he, hall⟩
      refine ⟨⟨by omega, ?_⟩, ?_⟩
      · apply (hS e).2
        refine ⟨he, ?_⟩
        intro j hj hju
        by_cases hji : j = i
        · rw [hji, h0]; omega
        · rw [← hne j hji]; exact hall j hj hju
      · have := hall i hi hu.symm
        rw [hself] at this
        exact fun h => this h.symm
  · rw [hS', if_neg hu, hS e]
    constructor
    · rintro ⟨he, hall⟩
      refine ⟨he, ?_⟩
      intro j hj hju
      have hji : j ≠ i := by intro h; apply hu; rw [← hju, h]
      rw [hne j hji]; exact hall j hj hju
    · rintro ⟨he, hall⟩
      refine ⟨he, ?_⟩
      intro j hj hju
      have hji : j ≠ i := by intro h; apply hu; rw [← hju, h]
      rw [← hne j hji]; exact hall j hj hju

theorem colOf_lt (i : Nat) : colOf i < 9 := by unfold colOf; omega
theorem rowOf_lt (i : Nat) (h : i < 81) : rowOf i < 9 := by unfold rowOf; omega
theorem boxOf_lt (i : Nat) (h : i < 81) : boxOf i < 9 := by unfold boxOf; omega

theorem tracked_assign (g : sudoku) (i d : Nat) (hg : tracked g) (hi : i < 81)
    (h0 : g.num i = 0) (hd : d < 2 ^ 64) : tracked (cell.assign g i d) := by
  have hlen := hg.len
  have hne : ∀ j, j ≠ i → (cell.assign g i d).num j = g.num j :=
    fun j hj => num_assign_ne g i d j hj
  have hself : (cell.assign g i d).num i = d := num_assign_self g i d (by omega)
  refine ⟨?_, ?_, ?_, ?_, ?_, ?_, ?_, ?_, ?_, ?_, ?_⟩
  · rw [length_cells_assign]; exact hg.len
  · rw [length_cs_assign]; exact hg.lcs
  · rw [length_rs_assign]; exact hg.lrs
  · rw [length_sqs_assign]; exact hg.lsqs
  · intro j hj; rw [col_assign]; exact hg.wcol j hj
  · intro j hj; rw [row_assign]; exact hg.wrow j hj
  · intro j hj; rw [sq_assign]; exact hg.wsq j hj
  · intro j hj
    by_cases hji : j = i
    · rw [hji, hself]; exact hd
    · rw [hne j hji]; exact hg.wnum j hj
  · intro u hu
    apply track_step colOf g.num _ i d u (g.cs.getD u 0) _ hi h0 hne hself hd (hg.tcs u hu)
    rw [cs_assign, hg.wcol i hi, hg.lcs]
    have := colOf_lt i
    by_cases h : u = colOf i
    · simp [h, this]
    · simp [h]
  · intro u hu
    apply track_step rowOf g.num _ i d u (g.rs.getD u 0) _ hi h0 hne hself hd (hg.trs u hu)
    rw [rs_assign, hg.wrow i hi, hg.lrs]
    have := rowOf_lt i hi
    by_cases h : u = rowOf i
    · simp [h, this]
    · simp [h]
  · intro u hu
    apply track_step boxOf g.num _ i d u (g.sqs.getD u 0) _ hi h0 hne hself hd (hg.tsqs u hu)
    rw [sqs_assign, hg.wsq i hi, hg.lsqs]
    have := boxOf_lt i hi
    by_cases h : u = boxOf i
    · simp [h, this]
    · simp [h]

set_option maxRecDepth 100000 in
theorem NewSudoku_layout :
    NewSudoku.cells.length = 81 ∧ NewSudoku.cs = List.replicate 9 511 ∧
    NewSudoku.rs = List.replicate 9 511 ∧ NewSudoku.sqs = List.replicate 9 511 ∧
    ∀ i, i < 81 → NewSudoku.cell i = ⟨0, colOf i, rowOf i, boxOf i⟩ := by
  decide

theorem NewSudoku_num (i : Nat) : NewSudoku.num i = 0 := by
  by_cases h : i < 81
  · unfold sudoku.num; rw [NewSudoku_layout.2.2.2.2 i h]
  · unfold sudoku.num sudoku.cell
    rw [List.getD_eq_getElem?_getD, List.getElem?_eq_none (by rw [NewSudoku_layout.1]; omega)]
    rfl

theorem testBit_511 (e : Nat) : Nat.testBit 511 e = decide (e < 9) := by
  have : (511 : Nat) = 2 ^ 9 - 1 := by norm_num
  rw [this, Nat.testBit_two_pow_sub_one]

theorem getD_replicate_511 (u : Nat) (hu : u < 9) : (List.replicate 9 511).getD u 0 = 511 := by
  interval_cases u <;> rfl

theorem tracked_NewSudoku : tracked NewSudoku := by
  obtain ⟨h1, h2, h3, h4, h5⟩ := NewSudoku_layout
  refine ⟨h1, ?_, ?_, ?_, ?_, ?_, ?_, ?_, ?_, ?_, ?_⟩
  · rw [h2]; rfl
  · rw [h3]; rfl
  · rw [h4]; rfl
  · intro i hi; rw [h5 i hi]
  · intro i hi; rw [h5 i hi]
  · intro i hi; rw [h5 i hi]
  · intro i _; rw [NewSudoku_num]; norm_num
  · intro u hu e
    rw [h2, getD_replicate_511 u hu, testBit_511]
    simp only [decide_eq_true_eq]
    constructor
    · intro he; exact ⟨he, fun j _ _ => by rw [NewSudoku_num]; omega⟩
    · intro h; exact h.1
  · intro u hu e
    rw [h3, getD_replicate_511 u hu, testBit_511]
    simp only [decide_eq_true_eq]
    constructor
    · intro he; exact ⟨he, fun j _ _ => by rw [NewSudoku_num]; omega⟩
    · intro h; exact h.1
  · intro u hu e
    rw [h4, getD_replicate_511 u hu, testBit_511]
    simp only [decide_eq_true_eq]
    constructor
    · intro he; exact ⟨he, fun j _ _ => by rw [NewSudoku_num]; omega⟩
    · intro h; exact h.1

theorem tracked_of_reachable (g : sudoku) (h : reachable g) : tracked g := by
  induction h with
  | blank => exact tracked_NewSudoku
  | step i d _ hi h0 hd ih =>
    apply tracked_assign _ i d ih hi _ hd
    rw [hasNum_eq] at h0
    simpa using h0

/-- Under `tracked` the candidate bitmap of a cell holds exactly the digits that no
cell sharing a unit with it holds. -/
theorem testBit_cand_tracked (g : sudoku) (hg : tracked g) (i e : Nat) (hi : i < 81) :
    (g.cand i).testBit e = true ↔
      (e < 9 ∧ ∀ j, j < 81 → sameUnit j i → g.num j ≠ e + 1) := by
  rw [testBit_cand, hg.wcol i hi, hg.wrow i hi, hg.wsq i hi]
  simp only [Bool.and_eq_true]
  rw [hg.tcs _ (colOf_lt i), hg.trs _ (rowOf_lt i hi), hg.tsqs _ (boxOf_lt i hi)]
  unfold sameUnit
  constructor
  · rintro ⟨⟨⟨he, hc⟩, ⟨_, hr⟩⟩, ⟨_, hb⟩⟩
    refine ⟨he, ?_⟩
    intro j hj hu
    rcases hu with h | h | h
    · exact hr j hj h
    · exact hc j hj h
    · exact hb j hj h
  · rintro ⟨he, hall⟩
    exact ⟨⟨⟨he, fun j hj h => hall j hj (Or.inr (Or.inl h))⟩,
      ⟨he, fun j hj h => hall j hj (Or.inl h)⟩⟩,
      ⟨he, fun j hj h => hall j hj (Or.inr (Or.inr h))⟩⟩

theorem cand_lt (g : sudoku) (hg : tracked g) (i : Nat) (hi : i < 81) : g.cand i < 512 := by
  have : g.cand i < 2 ^ 9 := by
    apply Nat.lt_pow_two_of_testBit
    intro e he
    cases hb : (g.cand i).testBit e
    · rfl
    · have := ((testBit_cand_tracked g hg i e hi).1 hb).1
      omega
  simpa using this

/-! ## The inner loop `scan` -/

theorem scan_nil (f : frame) : scan [] f = .ok f := rfl

theorem scan_cons_has (i : Nat) (r : List Nat) (f : frame) (h : cell.hasNum f.s i = true) :
    scan (i :: r) f = scan r f := by
  rw [scan]; simp [h]

theorem scan_cons_fail (i : Nat) (r : List Nat) (f : frame) (h : cell.hasNum f.s i = false)
    (hc : f.s.cand i = 0) :
    scan (i :: r) f =
      .error ⟨f.s, f.l.noSolution i f.s, f.tryCandidates, f.tryCell, f.progress, false⟩ := by
  have hf : cell.fails f.s i = true := by
    rw [fails_eq, hc]
    rw [hasNum_eq] at h
    simpa using h
  rw [scan]; simp [h, hf]

theorem scan_cons_single (i : Nat) (r : List Nat) (f : frame) (h : cell.hasNum f.s i = false)
    (hc : f.s.cand i ≠ 0) (h1 : onesCount (f.s.cand i) = 1) :
    scan (i :: r) f =
      scan r ⟨cell.assign f.s i (bitAsNum (f.s.cand i)),
        f.l.noteAssign f.s i (bitAsNum (f.s.cand i)),
        f.tryCandidates, f.tryCell, true, false⟩ := by
  have hf : cell.fails f.s i = false := by
    rw [fails_eq]; simp [hc]
  have hn : f.s.num i = 0 := by
    rw [hasNum_eq] at h; simpa using h
  rw [scan]
  simp [h, hf, possibilities_eq, hn, h1]

theorem scan_cons_try (i : Nat) (r : List Nat) (f : frame) (h : cell.hasNum f.s i = false)
    (hc : f.s.cand i ≠ 0) (h1 : onesCount (f.s.cand i) ≠ 1) :
    scan (i :: r) f =
      scan r ⟨f.s, f.l, f.s.cand i, i, f.progress, false⟩ := by
  have hf : cell.fails f.s i = false := by
    rw [fails_eq]; simp [hc]
  have hn : f.s.num i = 0 := by
    rw [hasNum_eq] at h; simpa using h
  rw [scan]
  simp [h, hf, possibilities_eq, hn, h1]

/-- Invariant rule for the inner loop: `I` is kept by the two kinds of loop step
and `Qe` holds at the early return. -/
theorem scan_rule (I Qe : frame → Prop) (is : List Nat)
    (hfail : ∀ f i, i ∈ is → I f → cell.hasNum f.s i = false → f.s.cand i = 0 →
      Qe ⟨f.s, f.l.noSolution i f.s, f.tryCandidates, f.tryCell, f.progress, false⟩)
    (hsingle : ∀ f i, i ∈ is → I f → cell.hasNum f.s i = false → f.s.cand i ≠ 0 →
      onesCount (f.s.cand i) = 1 →
      I ⟨cell.assign f.s i (bitAsNum (f.s.cand i)),
        f.l.noteAssign f.s i (bitAsNum (f.s.cand i)),
        f.tryCandidates, f.tryCell, true, false⟩)
    (htry : ∀ f i, i ∈ is → I f → cell.hasNum f.s i = false → f.s.cand i ≠ 0 →
      onesCount (f.s.cand i) ≠ 1 →
      I ⟨f.s, f.l, f.s.cand i, i, f.progress, false⟩)
    (f : frame) (hI : I f) :
    match scan is f with
    | .ok f' => I f'
    | .error f' => Qe f' := by
  induction is generalizing f with
  | nil => rw [scan_nil]; exact hI
  | cons i r ih =>
    have ih' := ih (fun f j hj => hfail f j (List.mem_cons_of_mem _ hj))
      (fun f j hj => hsingle f j (List.mem_cons_of_mem _ hj))
      (fun f j hj => htry f j (List.mem_cons_of_mem _ hj))
    by_cases h : cell.hasNum f.s i = true
    · rw [scan_cons_has i r f h]; exact ih' f hI
    · have h : cell.hasNum f.s i = false := by simpa using h
      by_cases hc : f.s.cand i = 0
      · rw [scan_cons_fail i r f h hc]
        exact hfail f i (List.mem_cons_self _ _) hI h hc
      · by_cases h1 : onesCount (f.s.cand i) = 1
        · rw [scan_cons_single i r f h hc h1]
          exact ih' _ (hsingle f i (List.mem_cons_self _ _) hI h hc h1)
        · rw [scan_cons_try i r f h hc h1]
          exact ih' _ (htry f i (List.mem_cons_self _ _) hI h hc h1)

/-! ## The log and its history -/

theorem coherent_NewLog : NewLog.coherent := by
  refine ⟨rfl, ?_, ?_, ?_⟩
  · intro ci n had h; simp [NewLog] at h
  · intro _ e h; simp [NewLog] at h
  · intro t h; simp [NewLog] at h

/-- Appending an entry that is neither a `solution` nor a `solveEnter` call. -/
theorem coherent_append (l : log) (x : event) (hl : l.coherent) (hs : l.sol = none)
    (hx : x.isSolution = false) (he : x.isEnter = false)
    (hf : ∀ ci n had, x = event.assign ci n had → had = false) :
    log.coherent { l with trace := l.trace ++ [x] } := by
  refine ⟨?_, ?_, ?_, ?_⟩
  · show l.solve = _
    rw [List.filter_append, List.length_append, hl.enters]
    simp [List.filter, he]
  · intro ci n had h
    rw [List.mem_append] at h
    rcases h with h | h
    · exact hl.fresh ci n had h
    · simp at h; exact hf ci n had h.symm
  · intro _ e h
    rw [List.mem_append] at h
    rcases h with h | h
    · exact hl.unsolved hs e h
    · simp at h; rw [h]; exact hx
  · intro t h
    have : l.sol = some t := h
    rw [hs] at this; exact Option.noConfusion this

theorem coherent_iterate (l : log) (hl : l.coherent) (hs : l.sol = none) :
    l.iterate.coherent := by
  have := coherent_append { l with iter := l.iter + 1 } event.iterate
    ⟨hl.enters, hl.fresh, hl.unsolved, hl.solved⟩ hs rfl rfl (fun _ _ _ h => by cases h)
  exact this

theorem coherent_noSolution (l : log) (ci : Nat) (s : sudoku) (hl : l.coherent)
    (hs : l.sol = none) : (l.noSolution ci s).coherent :=
  coherent_append l (event.noSolution ci s) hl hs rfl rfl (fun _ _ _ h => by cases h)

theorem coherent_noteAssign (l : log) (s : sudoku) (ci n : Nat) (hl : l.coherent)
    (hs : l.sol = none) (h : cell.hasNum s ci = false) : (l.noteAssign s ci n).coherent := by
  apply coherent_append l (event.assign ci n (cell.hasNum s ci)) hl hs rfl rfl
  intro _ _ _ he
  cases he; exact h

theorem coherent_solveEnter (l : log) (hl : l.coherent) (hs : l.sol = none) :
    l.solveEnter.coherent := by
  refine ⟨?_, ?_, ?_, ?_⟩
  · show l.solve + 1 = _
    have : l.solveEnter.trace = l.trace ++ [event.solveEnter] := rfl
    rw [this, List.filter_append, List.length_append, hl.enters]
    simp [List.filter, event.isEnter]
  · intro ci n had h
    have h : event.assign ci n had ∈ l.trace ++ [event.solveEnter] := h
    rw [List.mem_append] at h
    rcases h with h | h
    · exact hl.fresh ci n had h
    · simp at h
  · intro _ e h
    have h : e ∈ l.trace ++ [event.solveEnter] := h
    rw [List.mem_append] at h
    rcases h with h | h
    · exact hl.unsolved hs e h
    · simp at h; rw [h]; rfl
  · intro t h
    have : l.sol = some t := h
    rw [hs] at this; exact Option.noConfusion this

theorem coherent_solution (l : log) (s : sudoku) (hl : l.coherent) (hs : l.sol = none) :
    (l.solution s).coherent := by
  refine ⟨?_, ?_, ?_, ?_⟩
  · show l.solve = _
    have : (l.solution s).trace = l.trace ++ [event.solution s] := rfl
    rw [this, List.filter_append, List.length_append, hl.enters]
    simp [List.filter, event.isEnter]
  · intro ci n had h
    have h : event.assign ci n had ∈ l.trace ++ [event.solution s] := h
    rw [List.mem_append] at h
    rcases h with h | h
    · exact hl.fresh ci n had h
    · simp at h
  · intro h
    have : some s = none := h
    exact Option.noConfusion this
  · intro t h
    have h : some s = some t := h
    cases h
    exact ⟨l.trace, [], rfl, hl.unsolved hs, fun e he => by simp at he⟩

theorem coherent_solveExit (l : log) (hl : l.coherent) : l.solveExit.coherent := by
  refine ⟨?_, ?_, ?_, ?_⟩
  · show l.solve = _
    have : l.solveExit.trace = l.trace ++ [event.solveExit] := rfl
    rw [this, List.filter_append, List.length_append, hl.enters]
    simp [List.filter, event.isEnter]
  · intro ci n had h
    have h : event.assign ci n had ∈ l.trace ++ [event.solveExit] := h
    rw [List.mem_append] at h
    rcases h with h | h
    · exact hl.fresh ci n had h
    · simp at h
  · intro hs e h
    have hs : l.sol = none := hs
    have h : e ∈ l.trace ++ [event.solveExit] := h
    rw [List.mem_append] at h
    rcases h with h | h
    · exact hl.unsolved hs e h
    · simp at h; rw [h]; rfl
  · intro t h
    have h : l.sol = some t := h
    obtain ⟨pre, post, h1, h2, h3⟩ := hl.solved t h
    refine ⟨pre, post ++ [event.solveExit], ?_, h2, ?_⟩
    · show l.trace ++ [event.solveExit] = _
      rw [h1]; simp
    · intro e he
      rw [List.mem_append] at he
      rcases he with he | he
      · exact h3 e he
      · simpa using he

/-! ## Numbers are kept -/

theorem keeps_refl (g : sudoku) : g.keeps g := fun _ _ _ => rfl

theorem keeps_trans (a b c : sudoku) (h1 : a.keeps b) (h2 : b.keeps c) : a.keeps c := by
  intro i hi h
  have hb := h1 i hi h
  rw [← hb]
  apply h2 i hi
  rw [hb]; exact h

theorem keeps_assign (g : sudoku) (i d : Nat) (h : cell.hasNum g i = false) :
    g.keeps (cell.assign g i d) := by
  intro j _ hj
  apply num_assign_ne
  intro hji
  rw [hasNum_eq] at h
  rw [hji] at hj
  simp at h
  exact hj h

/-! ## `copy` -/

/-- The grid `copy` has built after the first `k` rounds of its loop. -/
theorem copy_upto (s : sudoku) (k : Nat) (hk : k ≤ 81) :
    ((List.range k).foldl (fun c i =>
        if (s.cell i).num > 0 then cell.assign c i (s.cell i).num else c) NewSudoku).cells.length
      = 81 ∧
    ∀ j, ((List.range k).foldl (fun c i =>
        if (s.cell i).num > 0 then cell.assign c i (s.cell i).num else c) NewSudoku).num j
      = if j < k then (if j < 81 then s.num j else 0) else 0 := by
  induction k with
  | zero =>
    refine ⟨NewSudoku_layout.1, ?_⟩
    intro j; simp [NewSudoku_num]
  | succ k ih =>
    obtain ⟨hl, hn⟩ := ih (by omega)
    rw [List.range_succ, List.foldl_append]
    simp only [List.foldl_cons, List.foldl_nil]
    by_cases hpos : (s.cell k).num > 0
    · rw [if_pos hpos]
      refine ⟨by rw [length_cells_assign]; exact hl, ?_⟩
      intro j
      by_cases hjk : j = k
      · subst hjk
        rw [num_assign_self _ _ _ (by omega)]
        have h1 : j < j + 1 := by omega
        have h2 : j < 81 := by omega
        simp [h1, h2, sudoku.num]
      · rw [num_assign_ne _ _ _ _ hjk, hn j]
        by_cases h : j < k
        · have : j < k + 1 := by omega
          simp [h, this]
        · have : ¬ j < k + 1 := by omega
          simp [h, this]
    · rw [if_neg hpos]
      refine ⟨hl, ?_⟩
      intro j
      rw [hn j]
      by_cases hjk : j = k
      · subst hjk
        have h0 : s.num j = 0 := by unfold sudoku.num; omega
        simp [h0]
      · by_cases h : j < k
        · have : j < k + 1 := by omega
          simp [h, this]
        · have : ¬ j < k + 1 := by omega
          simp [h, this]

theorem copy_unfold (s : sudoku) :
    s.copy = (List.range 81).foldl (fun c i =>
        if (s.cell i).num > 0 then cell.assign c i (s.cell i).num else c) NewSudoku := rfl

theorem num_copy (s : sudoku) (j : Nat) :
    s.copy.num j = if j < 81 then s.num j else 0 := by
  rw [copy_unfold, (copy_upto s 81 (le_refl _)).2 j]
  by_cases h : j < 81 <;> simp [h]

theorem keeps_copy (s : sudoku) : s.keeps s.copy := by
  intro j hj _
  rw [num_copy]; simp [hj]

theorem hasNum_copy (s : sudoku) (j : Nat) (h : cell.hasNum s j = false) :
    cell.hasNum s.copy j = false := by
  rw [hasNum_eq] at h ⊢
  rw [num_copy]
  simp at h
  by_cases hj : j < 81 <;> simp [hj, h]

/-! ## Facts about `solve` that hold for every grid -/

/-- What one pass of the inner loop keeps, whatever the grid. -/
theorem scan_any (g0 : sudoku) (is : List Nat) (f : frame)
    (hk : g0.keeps f.s) (hl : f.l.coherent) (hs : f.l.sol = none)
    (ha : f.allCellsHaveNumbers = true → f.tryCandidates = 0)
    (hp : f.progress = false → (f.tryCandidates = 0 ∨ cell.hasNum f.s f.tryCell = false)) :
    match scan is f with
    | .ok f' => g0.keeps f'.s ∧ f'.l.coherent ∧ f'.l.sol = none ∧
        (f'.allCellsHaveNumbers = true → f'.tryCandidates = 0) ∧
        (f'.progress = false → (f'.tryCandidates = 0 ∨ cell.hasNum f'.s f'.tryCell = false))
    | .error f' => g0.keeps f'.s ∧ f'.l.coherent ∧ f'.l.sol = none := by
  apply scan_rule
    (fun f => g0.keeps f.s ∧ f.l.coherent ∧ f.l.sol = none ∧
        (f.allCellsHaveNumbers = true → f.tryCandidates = 0) ∧
        (f.progress = false → (f.tryCandidates = 0 ∨ cell.hasNum f.s f.tryCell = false)))
    (fun f => g0.keeps f.s ∧ f.l.coherent ∧ f.l.sol = none)
  · rintro f i _ ⟨h1, h2, h3, _, _⟩ _ _
    exact ⟨h1, coherent_noSolution _ _ _ h2 h3, h3⟩
  · rintro f i _ ⟨h1, h2, h3, _, _⟩ hn _ _
    refine ⟨keeps_trans _ _ _ h1 (keeps_assign _ _ _ hn), coherent_noteAssign _ _ _ _ h2 h3 hn,
      h3, ?_, ?_⟩
    · intro h; exact Bool.noConfusion h
    · intro h; exact Bool.noConfusion h
  · rintro f i _ ⟨h1, h2, h3, _, _⟩ hn _ _
    refine ⟨h1, h2, h3, ?_, ?_⟩
    · intro h; exact Bool.noConfusion h
    · intro _; exact Or.inr hn
  · exact ⟨hk, hl, hs, ha, hp⟩

theorem propagate_any (fuel : Nat) : ∀ (s : sudoku) (l : log) (tc : Nat) (o : outcome),
    propagate fuel s l tc = some o → l.coherent → l.sol = none →
    match o with
    | .returned f => s.keeps f.s ∧ f.l.coherent ∧ f.l.sol = none
    | .broke f => s.keeps f.s ∧ f.l.coherent ∧
        ((f.l.sol = none ∧ (f.tryCandidates = 0 ∨ cell.hasNum f.s f.tryCell = false)) ∨
         (f.l.sol = some f.s ∧ f.tryCandidates = 0)) := by
  induction fuel with
  | zero => intro s l tc o h; simp [propagate] at h
  | succ n ih =>
    intro s l tc o h hl hs
    have hsc := scan_any s (List.range (9 * 9))
      ⟨s, l.iterate, 0, tc, false, true⟩ (keeps_refl s) (coherent_iterate l hl hs) hs
      (fun _ => rfl) (fun _ => Or.inl rfl)
    rw [propagate] at h
    cases hres : scan (List.range (9 * 9)) ⟨s, l.iterate, 0, tc, false, true⟩ with
    | error f =>
      rw [hres] at h hsc
      simp only [Option.some.injEq] at h
      subst h
      exact hsc
    | ok f =>
      rw [hres] at h hsc
      simp only at h hsc
      obtain ⟨h1, h2, h3, h4, h5⟩ := hsc
      by_cases ha : f.allCellsHaveNumbers = true
      · rw [if_pos ha] at h
        simp only [Option.some.injEq] at h
        subst h
        exact ⟨h1, coherent_solution _ _ h2 h3, Or.inr ⟨rfl, h4 ha⟩⟩
      · rw [if_neg ha] at h
        by_cases hp : f.progress = true
        · have : ¬ ((!f.progress) = true) := by simp [hp]
          rw [if_neg this] at h
          have := ih f.s f.l f.tryCell o h h2 h3
          cases o with
          | returned f' => exact ⟨keeps_trans _ _ _ h1 this.1, this.2⟩
          | broke f' => exact ⟨keeps_trans _ _ _ h1 this.1, this.2⟩
        · have hp' : f.progress = false := by simpa using hp
          have : (!f.progress) = true := by simp [hp']
          rw [if_pos this] at h
          simp only [Option.some.injEq] at h
          subst h
          exact ⟨h1, h2, Or.inl ⟨h3, h5 hp'⟩⟩

theorem branch_any (rec : sudoku → log → Option (sudoku × log)) (s : sudoku) (tc : Nat)
    (hrec : ∀ g l r, rec g l = some r → l.coherent → l.sol = none →
      g.keeps r.1 ∧ r.2.coherent ∧ (∀ t, r.2.sol = some t → g.keeps t)) :
    ∀ (ds : List Nat) (l l' : log), branch rec s tc ds l = some l' → l.coherent →
      l.sol = none → (ds = [] ∨ cell.hasNum s tc = false) →
      l'.coherent ∧ (∀ t, l'.sol = some t → s.keeps t) := by
  intro ds
  induction ds with
  | nil =>
    intro l l' h hl hs _
    simp only [branch, Option.some.injEq] at h
    subst h
    exact ⟨hl, fun t ht => by rw [hs] at ht; exact Option.noConfusion ht⟩
  | cons d rest ih =>
    intro l l' h hl hs htc
    have hn : cell.hasNum s tc = false := by
      rcases htc with h0 | h0
      · exact List.noConfusion h0
      · exact h0
    have hcn := hasNum_copy s tc hn
    rw [branch] at h
    cases hr : rec (cell.assign s.copy tc d) (l.noteAssign s.copy tc d) with
    | none => rw [hr] at h; exact Option.noConfusion h
    | some r =>
      rw [hr] at h
      simp only at h
      have hrr := hrec _ _ r hr (coherent_noteAssign l s.copy tc d hl hs hcn) hs
      have hks : s.keeps (cell.assign s.copy tc d) :=
        keeps_trans _ _ _ (keeps_copy s) (keeps_assign _ _ _ hcn)
      by_cases hd : r.2.isDone = true
      · rw [if_pos hd] at h
        simp only [Option.some.injEq] at h
        subst h
        exact ⟨hrr.2.1, fun t ht => keeps_trans _ _ _ hks (hrr.2.2 t ht)⟩
      · rw [if_neg hd] at h
        have hsn : r.2.sol = none := by
          unfold log.isDone at hd
          cases hx : r.2.sol with
          | none => rfl
          | some x => rw [hx] at hd; simp at hd
        exact ih r.2 l' h hrr.2.1 hsn (Or.inr hn)

theorem solve_any (fuel : Nat) : ∀ (g : sudoku) (l : log) (r : sudoku × log),
    sudoku.solve fuel g l = some r → l.coherent → l.sol = none →
    g.keeps r.1 ∧ r.2.coherent ∧ (∀ t, r.2.sol = some t → g.keeps t) := by
  induction fuel with
  | zero => intro g l r h; simp [sudoku.solve] at h
  | succ n ih =>
    intro g l r h hl hs
    rw [sudoku.solve] at h
    cases hp : propagate (n + 1) g l.solveEnter 0 with
    | none => rw [hp] at h; exact Option.noConfusion h
    | some o =>
      rw [hp] at h
      have hpa := propagate_any (n + 1) g l.solveEnter 0 o hp (coherent_solveEnter l hl hs) hs
      cases o with
      | returned f =>
        simp only [Option.some.injEq] at h
        subst h
        simp only at hpa
        exact ⟨hpa.1, hpa.2.1, fun t ht => by
          rw [hpa.2.2] at ht; exact Option.noConfusion ht⟩
      | broke f =>
        simp only at h hpa
        obtain ⟨hk, hc, hcase⟩ := hpa
        rcases hcase with ⟨hsn, htc⟩ | ⟨hss, h0⟩
        · cases hb : branch (sudoku.solve n) f.s f.tryCell f.tryCandidates.asSlice f.l with
          | none => rw [hb] at h; exact Option.noConfusion h
          | some l' =>
            rw [hb] at h
            simp only [Option.some.injEq] at h
            subst h
            have htc' : f.tryCandidates.asSlice = [] ∨ cell.hasNum f.s f.tryCell = false := by
              rcases htc with h0 | h1
              · left; rw [h0]; rfl
              · right; exact h1
            have := branch_any (sudoku.solve n) f.s f.tryCell ih _ f.l l' hb hc hsn htc'
            exact ⟨hk, coherent_solveExit _ this.1,
              fun t ht => keeps_trans _ _ _ hk (this.2 t ht)⟩
        · rw [h0] at h
          have : set.asSlice 0 = [] := rfl
          rw [this] at h
          simp only [branch, Option.some.injEq] at h
          subst h
          refine ⟨hk, coherent_solveExit _ hc, ?_⟩
          intro t ht
          have ht : f.l.sol = some t := ht
          rw [hss] at ht
          cases ht
          exact hk

/-! ## Naked singles -/

/-- On a tracked grid a cell with candidate count 1 has a digit 1..9 as its only
candidate, and `bitAsNum` finds it. -/
theorem single_candidate (g : sudoku) (hg : tracked g) (i : Nat) (hi : i < 81)
    (h1 : onesCount (g.cand i) = 1) :
    1 ≤ bitAsNum (g.cand i) ∧ bitAsNum (g.cand i) ≤ 9 ∧
    (g.cand i).testBit (bitAsNum (g.cand i) - 1) = true ∧
    ∀ e, (g.cand i).testBit e = true → e + 1 = bitAsNum (g.cand i) := by
  have hlt := cand_lt g hg i hi
  rw [onesCount_eq_length_asSlice _ hlt] at h1
  obtain ⟨x, hx⟩ := List.length_eq_one.1 h1
  have hb : bitAsNum (g.cand i) = x := by rw [bitAsNum_eq_headD, hx]; rfl
  have hm : x ∈ set.asSlice (g.cand i) := by rw [hx]; simp
  rw [mem_asSlice] at hm
  rw [hb]
  refine ⟨hm.1, hm.2.1, hm.2.2, ?_⟩
  intro e he
  have he9 : e < 9 := ((testBit_cand_tracked g hg i e hi).1 he).1
  have : e + 1 ∈ set.asSlice (g.cand i) := by
    rw [mem_asSlice]; exact ⟨by omega, by omega, by simpa using he⟩
  rw [hx] at this
  simpa using this

theorem asSlice_ne_nil (s : Nat) (h0 : s ≠ 0) (hs : s < 512) : set.asSlice s ≠ [] := by
  intro h
  apply h0
  apply Nat.eq_of_testBit_eq
  intro e
  rw [Nat.zero_testBit]
  by_cases he : e < 9
  · cases hb : s.testBit e
    · rfl
    · have : e + 1 ∈ set.asSlice s := by
        rw [mem_asSlice]; exact ⟨by omega, by omega, by simpa using hb⟩
      rw [h] at this; simp at this
  · exact testBit_of_lt_512 s e hs (by omega)

/-! ## Counting the cells without a number -/

theorem filter_length_flip (p q : Nat → Bool) (i : Nat) (l : List Nat) (hnd : l.Nodup)
    (hi : i ∈ l) (hp : p i = true) (hq : q i = false)
    (hne : ∀ j, j ∈ l → j ≠ i → q j = p j) :
    (l.filter q).length + 1 = (l.filter p).length := by
  induction l with
  | nil => simp at hi
  | cons a t ih =>
    rw [List.nodup_cons] at hnd
    by_cases hai : a = i
    · subst hai
      have : t.filter q = t.filter p := by
        apply List.filter_congr
        intro j hj
        apply hne j (List.mem_cons_of_mem _ hj)
        intro h; subst h; exact hnd.1 hj
      simp [List.filter, hp, hq, this]
    · have hit : i ∈ t := by
        rcases List.mem_cons.1 hi with h | h
        · exact absurd h.symm hai
        · exact h
      have ih' := ih hnd.2 hit (fun j hj => hne j (List.mem_cons_of_mem _ hj))
      have hqa : q a = p a := hne a (List.mem_cons_self _ _) hai
      cases hpa : p a
      · rw [hpa] at hqa; simp [List.filter, hpa, hqa]; exact ih'
      · rw [hpa] at hqa; simp [List.filter, hpa, hqa]; omega

theorem unassigned_assign (g : sudoku) (i d : Nat) (hl : g.cells.length = 81) (hi : i < 81)
    (h0 : cell.hasNum g i = false) (hd : d ≠ 0) :
    (cell.assign g i d).unassigned + 1 = g.unassigned := by
  unfold sudoku.unassigned
  apply filter_length_flip _ _ i _ (List.nodup_range 81) (List.mem_range.2 hi)
  · simp [h0]
  · rw [hasNum_eq, num_assign_self g i d (by omega)]; simp [hd]
  · intro j _ hji
    rw [hasNum_eq, hasNum_eq, num_assign_ne g i d j hji]

/-! ## Consistency -/

theorem sameUnit_symm (i j : Nat) (h : sameUnit i j) : sameUnit j i := by
  unfold sameUnit at h ⊢
  rcases h with h | h | h
  · exact Or.inl h.symm
  · exact Or.inr (Or.inl h.symm)
  · exact Or.inr (Or.inr h.symm)

theorem consistent_assign (g : sudoku) (hg : tracked g) (hc : g.consistent) (i d : Nat)
    (hi : i < 81) (_h0 : g.num i = 0) (hd1 : 1 ≤ d) (hd9 : d ≤ 9)
    (hb : (g.cand i).testBit (d - 1) = true) : (cell.assign g i d).consistent := by
  have hfree := ((testBit_cand_tracked g hg i (d - 1) hi).1 hb).2
  have hdd : d - 1 + 1 = d := by omega
  rw [hdd] at hfree
  have hself : (cell.assign g i d).num i = d := num_assign_self g i d (by rw [hg.len]; exact hi)
  refine ⟨?_, ?_⟩
  · intro j hj
    by_cases hji : j = i
    · rw [hji, hself]; exact hd9
    · rw [num_assign_ne g i d j hji]; exact hc.1 j hj
  · intro a ha b hb' ⟨hab, hu, hna⟩
    by_cases hai : a = i
    · have hbi : b ≠ i := fun h => hab (by rw [hai, h])
      rw [hai, hself, num_assign_ne g i d b hbi]
      rw [hai] at hu
      exact fun h => hfree b hb' (sameUnit_symm _ _ hu) h.symm
    · rw [num_assign_ne g i d a hai] at hna ⊢
      by_cases hbi : b = i
      · rw [hbi, hself]
        rw [hbi] at hu
        exact hfree a ha hu
      · rw [num_assign_ne g i d b hbi]
        exact hc.2 a ha b hb' ⟨hab, hu, hna⟩

/-! ## `copy` on tracked grids -/

theorem tracked_copy_upto (s : sudoku) (hs : ∀ i, i < 81 → s.num i < 2 ^ 64) (k : Nat)
    (hk : k ≤ 81) :
    tracked ((List.range k).foldl (fun c i =>
        if (s.cell i).num > 0 then cell.assign c i (s.cell i).num else c) NewSudoku) := by
  induction k with
  | zero => exact tracked_NewSudoku
  | succ k ih =>
    have ih' := ih (by omega)
    have hn := (copy_upto s k (by omega)).2 k
    rw [List.range_succ, List.foldl_append]
    simp only [List.foldl_cons, List.foldl_nil]
    by_cases hpos : (s.cell k).num > 0
    · rw [if_pos hpos]
      apply tracked_assign _ k _ ih' (by omega)
      · rw [hn]; simp
      · exact hs k (by omega)
    · rw [if_neg hpos]; exact ih'

theorem tracked_copy (s : sudoku) (hs : ∀ i, i < 81 → s.num i < 2 ^ 64) : tracked s.copy := by
  rw [copy_unfold]; exact tracked_copy_upto s hs 81 (le_refl _)

theorem cell_eq_getElem (g : sudoku) (i : Nat) (h : i < g.cells.length) :
    g.cell i = g.cells[i] := by
  unfold sudoku.cell
  rw [List.getD_eq_getElem?_getD, List.getElem?_eq_getElem h]; rfl

theorem getD_eq_getElem_nat (l : List Nat) (i : Nat) (h : i < l.length) :
    l.getD i 0 = l[i] := by
  rw [List.getD_eq_getElem?_getD, List.getElem?_eq_getElem h]; rfl

theorem eq_of_testBit_iff (a b : Nat) (P : Nat → Prop)
    (ha : ∀ e, a.testBit e = true ↔ P e) (hb : ∀ e, b.testBit e = true ↔ P e) : a = b := by
  apply Nat.eq_of_testBit_eq
  intro e
  have h : a.testBit e = true ↔ b.testBit e = true := (ha e).trans (hb e).symm
  cases h1 : a.testBit e <;> cases h2 : b.testBit e <;> simp_all

/-- Two tracked grids with the same numbers are the same grid. -/
theorem tracked_ext (a b : sudoku) (ha : tracked a) (hb : tracked b)
    (hn : ∀ i, i < 81 → a.num i = b.num i) : a = b := by
  have hcells : a.cells = b.cells := by
    apply List.ext_getElem (by rw [ha.len, hb.len])
    intro i h1 h2
    have hi : i < 81 := by rw [ha.len] at h1; exact h1
    rw [← cell_eq_getElem a i h1, ← cell_eq_getElem b i h2]
    have e1 : (a.cell i).num = (b.cell i).num := hn i hi
    have e2 : (a.cell i).col = (b.cell i).col := by rw [ha.wcol i hi, hb.wcol i hi]
    have e3 : (a.cell i).row = (b.cell i).row := by rw [ha.wrow i hi, hb.wrow i hi]
    have e4 : (a.cell i).sq = (b.cell i).sq := by rw [ha.wsq i hi, hb.wsq i hi]
    cases hca : a.cell i; cases hcb : b.cell i
    rw [hca, hcb] at e1 e2 e3 e4
    simp only at e1 e2 e3 e4
    rw [e1, e2, e3, e4]
  have key : ∀ (la lb : List Nat) (uf : Nat → Nat), la.length = 9 → lb.length = 9 →
      (∀ u, u < 9 → ∀ e, (la.getD u 0).testBit e = true ↔
        (e < 9 ∧ ∀ j, j < 81 → uf j = u → a.num j ≠ e + 1)) →
      (∀ u, u < 9 → ∀ e, (lb.getD u 0).testBit e = true ↔
        (e < 9 ∧ ∀ j, j < 81 → uf j = u → b.num j ≠ e + 1)) → la = lb := by
    intro la lb uf hla hlb hta htb
    apply List.ext_getElem (by rw [hla, hlb])
    intro u h1 h2
    have hu : u < 9 := by rw [hla] at h1; exact h1
    rw [← getD_eq_getElem_nat la u h1, ← getD_eq_getElem_nat lb u h2]
    apply eq_of_testBit_iff _ _ _ (hta u hu)
    intro e
    rw [htb u hu e]
    constructor
    · rintro ⟨he, h⟩; exact ⟨he, fun j hj hju => by rw [hn j hj]; exact h j hj hju⟩
    · rintro ⟨he, h⟩; exact ⟨he, fun j hj hju => by rw [← hn j hj]; exact h j hj hju⟩
  have hcs := key a.cs b.cs colOf ha.lcs hb.lcs ha.tcs hb.tcs
  have hrs := key a.rs b.rs rowOf ha.lrs hb.lrs ha.trs hb.trs
  have hsqs := key a.sqs b.sqs boxOf ha.lsqs hb.lsqs ha.tsqs hb.tsqs
  cases a; cases b
  simp only at hcells hcs hrs hsqs
  rw [hcells, hcs, hrs, hsqs]

theorem copy_eq_self (s : sudoku) (hs : tracked s) : s.copy = s := by
  apply tracked_ext _ _ (tracked_copy s hs.wnum) hs
  intro i hi
  rw [num_copy]; simp [hi]

/-! ## Units as lists of digits -/

theorem unit_count (g : sudoku) (uf : Nat → Nat) (u d : Nat) :
    ((List.range 81).filter (fun i => decide (uf i = u) && decide (g.num i = d))).length =
      List.count d (((List.range 81).filter (fun i => decide (uf i = u))).map g.num) := by
  rw [List.count, List.countP_map, List.countP_eq_length_filter]
  rw [List.filter_filter]
  congr 1
  apply List.filter_congr
  intro i _
  simp only [Function.comp]
  by_cases h1 : uf i = u <;> by_cases h2 : g.num i = d <;> simp [h1, h2]

theorem unit_length (u : Nat) (hu : u < 9) :
    ((List.range 81).filter (fun i => decide (rowOf i = u))).length = 9 ∧
    ((List.range 81).filter (fun i => decide (colOf i = u))).length = 9 ∧
    ((List.range 81).filter (fun i => decide (boxOf i = u))).length = 9 := by
  interval_cases u <;> decide

theorem count_digits (x : Nat) (h1 : 1 ≤ x) (h9 : x ≤ 9) :
    List.count x [1, 2, 3, 4, 5, 6, 7, 8, 9] = 1 := by
  interval_cases x <;> decide

theorem perm_of_counts (N : List Nat) (hl : N.length = 9)
    (hc : ∀ d, d < 10 → 1 ≤ d → List.count d N = 1) : List.Perm [1, 2, 3, 4, 5, 6, 7, 8, 9] N := by
  apply List.Subperm.perm_of_length_le
  · rw [List.subperm_ext_iff]
    intro x hx
    have hx1 : 1 ≤ x ∧ x ≤ 9 := by
      simp at hx; omega
    rw [count_digits x hx1.1 hx1.2, hc x (by omega) hx1.1]
  · rw [hl]; rfl

theorem perm_of_nodup (N : List Nat) (hl : N.length = 9) (hnd : N.Nodup)
    (hr : ∀ x ∈ N, 1 ≤ x ∧ x ≤ 9) : List.Perm N [1, 2, 3, 4, 5, 6, 7, 8, 9] := by
  apply List.Subperm.perm_of_length_le
  · apply List.subperm_of_subset hnd
    intro x hx
    have := hr x hx
    have h1 := this.1
    have h2 := this.2
    interval_cases x <;> simp
  · rw [hl]; rfl

/-- A unit, given by the map `uf` from a cell to its unit. -/
theorem unit_solved_of_consistent (g : sudoku) (uf : Nat → Nat)
    (hsame : ∀ i j, uf i = uf j → sameUnit i j)
    (hlen : ∀ u, u < 9 → ((List.range 81).filter (fun i => decide (uf i = u))).length = 9)
    (hc : g.consistent) (hf : g.full) (u d : Nat) (hu : u < 9) (hd : d < 10) (hd1 : 1 ≤ d) :
    ((List.range 81).filter (fun i => decide (uf i = u) && decide (g.num i = d))).length = 1 := by
  rw [unit_count]
  have hmem : ∀ i, i ∈ (List.range 81).filter (fun i => decide (uf i = u)) →
      i < 81 ∧ uf i = u := by
    intro i hi
    rw [List.mem_filter, List.mem_range] at hi
    exact ⟨hi.1, by simpa using hi.2⟩
  have hpos : ∀ i, i < 81 → g.num i ≠ 0 := by
    intro i hi
    have := hf i hi
    rw [hasNum_eq] at this
    simpa using this
  have hperm := perm_of_nodup (((List.range 81).filter (fun i => decide (uf i = u))).map g.num)
    (by rw [List.length_map]; exact hlen u hu)
    (by
      apply List.Nodup.map_on _ ((List.nodup_range 81).filter _)
      intro x hx y hy hxy
      by_contra hne
      have hx' := hmem x hx
      have hy' := hmem y hy
      exact hc.2 x hx'.1 y hy'.1
        ⟨hne, hsame x y (by rw [hx'.2, hy'.2]), hpos x hx'.1⟩ hxy)
    (by
      intro x hx
      rw [List.mem_map] at hx
      obtain ⟨i, hi, rfl⟩ := hx
      have hi' := hmem i hi
      have := hpos i hi'.1
      have := hc.1 i hi'.1
      omega)
  rw [hperm.count_eq]
  exact count_digits d hd1 (by omega)

theorem isSolved_of_consistent (g : sudoku) (hc : g.consistent) (hf : g.full) : g.isSolved := by
  refine ⟨hf, ?_⟩
  intro u hu d hd hd1
  refine ⟨?_, ?_, ?_⟩
  · exact unit_solved_of_consistent g rowOf (fun i j h => Or.inl h)
      (fun u hu => (unit_length u hu).1) hc hf u d hu hd hd1
  · exact unit_solved_of_consistent g colOf (fun i j h => Or.inr (Or.inl h))
      (fun u hu => (unit_length u hu).2.1) hc hf u d hu hd hd1
  · exact unit_solved_of_consistent g boxOf (fun i j h => Or.inr (Or.inr h))
      (fun u hu => (unit_length u hu).2.2) hc hf u d hu hd hd1

theorem unit_valid_of_counts (g : sudoku) (uf : Nat → Nat)
    (hlen : ∀ u, u < 9 → ((List.range 81).filter (fun i => decide (uf i = u))).length = 9)
    (hcount : ∀ u, u < 9 → ∀ d, d < 10 → 1 ≤ d →
      ((List.range 81).filter (fun i => decide (uf i = u) && decide (g.num i = d))).length = 1)
    (i : Nat) (hi : i < 81) (hui : uf i < 9) :
    (1 ≤ g.num i ∧ g.num i ≤ 9) ∧
    ∀ j, j < 81 → i ≠ j → uf i = uf j → g.num i ≠ g.num j := by
  have hperm := perm_of_counts
    (((List.range 81).filter (fun k => decide (uf k = uf i))).map g.num)
    (by rw [List.length_map]; exact hlen _ hui)
    (by intro d hd hd1; rw [← unit_count]; exact hcount _ hui d hd hd1)
  have hin : ∀ j, j < 81 → uf j = uf i →
      j ∈ (List.range 81).filter (fun k => decide (uf k = uf i)) := by
    intro j hj hju
    rw [List.mem_filter, List.mem_range]
    exact ⟨hj, by simpa using hju⟩
  constructor
  · have : g.num i ∈ ((List.range 81).filter (fun k => decide (uf k = uf i))).map g.num :=
      List.mem_map_of_mem _ (hin i hi rfl)
    have := hperm.symm.subset this
    simp at this
    omega
  · intro j hj hij huj heq
    have hnd : (((List.range 81).filter (fun k => decide (uf k = uf i))).map g.num).Nodup :=
      hperm.nodup_iff.1 (by decide)
    exact hij (List.inj_on_of_nodup_map hnd (hin i hi rfl) (hin j hj huj.symm) heq)

theorem consistent_of_isSolved (g : sudoku) (h : g.isSolved) :
    g.consistent ∧ ∀ i, i < 81 → 1 ≤ g.num i := by
  have hr := fun i hi => unit_valid_of_counts g rowOf (fun u hu => (unit_length u hu).1)
    (fun u hu d hd hd1 => (h.2 u hu d hd hd1).1) i hi (rowOf_lt i hi)
  have hcl := fun i hi => unit_valid_of_counts g colOf (fun u hu => (unit_length u hu).2.1)
    (fun u hu d hd hd1 => (h.2 u hu d hd hd1).2.1) i hi (colOf_lt i)
  have hb := fun i hi => unit_valid_of_counts g boxOf (fun u hu => (unit_length u hu).2.2)
    (fun u hu d hd hd1 => (h.2 u hu d hd hd1).2.2) i hi (boxOf_lt i hi)
  refine ⟨⟨fun i hi => (hr i hi).1.2, ?_⟩, fun i hi => (hr i hi).1.1⟩
  intro i hi j hj ⟨hij, hu, _⟩
  rcases hu with hu | hu | hu
  · exact (hr i hi).2 j hj hij hu
  · exact (hcl i hi).2 j hj hij hu
  · exact (hb i hi).2 j hj hij hu

/-! ## Completions -/

theorem completion_is_candidate (g t : sudoku) (hg : tracked g) (hc : g.completes t)
    (i : Nat) (hi : i < 81) (h0 : g.num i = 0) :
    1 ≤ t.num i ∧ t.num i ≤ 9 ∧ (g.cand i).testBit (t.num i - 1) = true := by
  obtain ⟨hcons, hpos⟩ := consistent_of_isSolved t hc.1
  have h1 := hpos i hi
  have h9 := hcons.1 i hi
  refine ⟨h1, h9, ?_⟩
  rw [testBit_cand_tracked g hg i _ hi]
  refine ⟨by omega, ?_⟩
  intro j hj hu
  have hdd : t.num i - 1 + 1 = t.num i := by omega
  rw [hdd]
  intro hgj
  have hgj0 : g.num j ≠ 0 := by rw [hgj]; omega
  have hk := hc.2 j hj hgj0
  have hji : j ≠ i := by
    intro h; rw [h] at hgj0; exact hgj0 h0
  have hne := hcons.2 j hj i hi ⟨hji, hu, by rw [hk]; exact hgj0⟩
  apply hne
  rw [hk, hgj]

theorem completes_assign (g t : sudoku) (hl : g.cells.length = 81) (hc : g.completes t)
    (i : Nat) (_hi : i < 81) : (cell.assign g i (t.num i)).completes t := by
  refine ⟨hc.1, ?_⟩
  intro j hj hn
  by_cases hji : j = i
  · rw [hji, num_assign_self g i _ (by omega)]
  · rw [num_assign_ne g i _ j hji] at hn ⊢
    exact hc.2 j hj hn

/-! ## `solve` on tracked grids -/

theorem mem_noteAssign (l : log) (s : sudoku) (ci n : Nat) (e : event) (h : e ∈ l.trace) :
    e ∈ (l.noteAssign s ci n).trace := by
  show e ∈ l.trace ++ _
  exact List.mem_append_left _ h

theorem mem_iterate (l : log) (e : event) (h : e ∈ l.trace) : e ∈ l.iterate.trace := by
  show e ∈ l.trace ++ _
  exact List.mem_append_left _ h

theorem mem_solveEnter (l : log) (e : event) (h : e ∈ l.trace) : e ∈ l.solveEnter.trace := by
  show e ∈ l.trace ++ _
  exact List.mem_append_left _ h

theorem mem_solveExit (l : log) (e : event) (h : e ∈ l.trace) : e ∈ l.solveExit.trace := by
  show e ∈ l.trace ++ _
  exact List.mem_append_left _ h

theorem mem_solution (l : log) (s : sudoku) (e : event) (h : e ∈ l.trace) :
    e ∈ (l.solution s).trace := by
  show e ∈ l.trace ++ _
  exact List.mem_append_left _ h

theorem scan_good (g0 : sudoku) (l0 : log) (is : List Nat) (his : ∀ i ∈ is, i < 81)
    (f : frame) (hI : scanInv g0 l0 is f) :
    match scan is f with
    | .ok f' => scanInv g0 l0 is f'
    | .error f' => scanFail g0 l0 f' := by
  apply scan_rule (scanInv g0 l0 is) (scanFail g0 l0) is _ _ _ f hI
  · rintro f i hi ⟨h1, _, _, _, h5, h6, h7, _⟩ hn hc
    have hi81 := his i hi
    have hn0 : f.s.num i = 0 := by rw [hasNum_eq] at hn; simpa using hn
    refine ⟨⟨event.noSolution i f.s, ?_, rfl⟩, ?_, ?_, h7⟩
    · show _ ∈ f.l.trace ++ _
      simp
    · intro t ht
      have := (completion_is_candidate f.s t h1 (h5 t ht) i hi81 hn0).2.2
      rw [hc, Nat.zero_testBit] at this
      exact Bool.noConfusion this
    · intro e he
      show e ∈ f.l.trace ++ _
      exact List.mem_append_left _ (h6 e he)
  · rintro f i hi ⟨h1, h2, _, h4, h5, h6, h7, _⟩ hn hc hone
    have hi81 := his i hi
    have hn0 : f.s.num i = 0 := by rw [hasNum_eq] at hn; simpa using hn
    obtain ⟨hd1, hd9, hdb, hduniq⟩ := single_candidate f.s h1 i hi81 hone
    have hua := unassigned_assign f.s i (bitAsNum (f.s.cand i)) h1.len hi81 hn (by omega)
    refine ⟨?_, ?_, ?_, ?_, ?_, ?_, h7, ?_⟩
    · exact tracked_assign f.s i _ h1 hi81 hn0 (by
        have : (9 : Nat) < 2 ^ 64 := by norm_num
        omega)
    · show (cell.assign f.s i _).unassigned ≤ _
      omega
    · intro _
      show (cell.assign f.s i _).unassigned < _
      omega
    · intro hc0
      exact consistent_assign f.s h1 (h4 hc0) i _ hi81 hn0 hd1 hd9 hdb
    · intro t ht
      have hct := h5 t ht
      have hcand := completion_is_candidate f.s t h1 hct i hi81 hn0
      have := hduniq _ hcand.2.2
      have heq : t.num i = bitAsNum (f.s.cand i) := by omega
      show (cell.assign f.s i (bitAsNum (f.s.cand i))).completes t
      rw [← heq]
      exact completes_assign f.s t h1.len hct i hi81
    · intro e he
      exact mem_noteAssign _ _ _ _ _ (h6 e he)
    · intro h; exact Bool.noConfusion h
  · rintro f i hi ⟨h1, h2, h3, h4, h5, h6, h7, _⟩ hn hc _
    exact ⟨h1, h2, h3, h4, h5, h6, h7, fun _ _ => ⟨hi, hn, rfl, hc⟩⟩

/-- The flag `allCellsHaveNumbers` survives a pass only if every visited cell
has a number, and then the pass changed nothing. -/
theorem scan_all (is : List Nat) : ∀ (f f' : frame), scan is f = .ok f' →
    f'.allCellsHaveNumbers = true → f' = f ∧ ∀ i ∈ is, cell.hasNum f.s i = true := by
  induction is with
  | nil =>
    intro f f' h _
    rw [scan_nil] at h
    cases h
    exact ⟨rfl, fun i hi => by simp at hi⟩
  | cons i r ih =>
    intro f f' h ha
    have hflag : ∀ (f1 : frame), f1.allCellsHaveNumbers = false → scan r f1 = .ok f' → False := by
      intro f1 h1 hsc
      have := scan_rule (fun f => f.allCellsHaveNumbers = false) (fun _ => True) r
        (fun _ _ _ _ _ _ => trivial) (fun _ _ _ _ _ _ _ => rfl) (fun _ _ _ _ _ _ _ => rfl) f1 h1
      rw [hsc] at this
      simp only at this
      rw [this] at ha
      exact Bool.noConfusion ha
    by_cases hn : cell.hasNum f.s i = true
    · rw [scan_cons_has i r f hn] at h
      obtain ⟨h1, h2⟩ := ih f f' h ha
      refine ⟨h1, ?_⟩
      intro j hj
      rcases List.mem_cons.1 hj with h | h
      · rw [h]; exact hn
      · exact h2 j h
    · have hn : cell.hasNum f.s i = false := by simpa using hn
      exfalso
      by_cases hc : f.s.cand i = 0
      · rw [scan_cons_fail i r f hn hc] at h
        cases h
      · by_cases h1 : onesCount (f.s.cand i) = 1
        · rw [scan_cons_single i r f hn hc h1] at h
          exact hflag _ rfl h
        · rw [scan_cons_try i r f hn hc h1] at h
          exact hflag _ rfl h

theorem propagate_good (fuel : Nat) : ∀ (s : sudoku) (l : log) (tc : Nat),
    tracked s → s.unassigned < fuel →
    ∃ o, propagate fuel s l tc = some o ∧ propPost s l o := by
  induction fuel with
  | zero => intro s l tc _ h; omega
  | succ n ih =>
    intro s l tc hs hu
    have hI : scanInv s l.iterate (List.range (9 * 9)) ⟨s, l.iterate, 0, tc, false, true⟩ := by
      refine ⟨hs, le_refl _, ?_, fun h => h, fun t h => h, fun e h => h, rfl, ?_⟩
      · intro h; exact Bool.noConfusion h
      · intro _ h; exact Bool.noConfusion h
    have hsc := scan_good s l.iterate (List.range (9 * 9))
      (fun i hi => by simpa using hi) _ hI
    rw [propagate]
    cases hres : scan (List.range (9 * 9)) ⟨s, l.iterate, 0, tc, false, true⟩ with
    | error f =>
      rw [hres] at hsc
      refine ⟨_, rfl, ?_⟩
      obtain ⟨h1, h2, h3, h4⟩ := hsc
      exact ⟨h1, h2, fun e he => h3 e (mem_iterate l e he), h4⟩
    | ok f =>
      rw [hres] at hsc
      simp only at hsc ⊢
      obtain ⟨h1, h2, h3, h4, h5, h6, h7, h8⟩ := hsc
      by_cases ha : f.allCellsHaveNumbers = true
      · rw [if_pos ha]
        refine ⟨_, rfl, ?_⟩
        obtain ⟨hff, hall⟩ := scan_all _ _ _ hres ha
        refine ⟨h1, h2, h4, h5, fun e he => mem_solution _ _ _ (h6 e (mem_iterate l e he)),
          Or.inl ⟨?_, rfl, ?_⟩⟩
        · intro i hi
          rw [hff]
          exact hall i (by simpa using hi)
        · rw [hff]
      · rw [if_neg ha]
        by_cases hp : f.progress = true
        · have : ¬ ((!f.progress) = true) := by simp [hp]
          rw [if_neg this]
          obtain ⟨o, ho, hpost⟩ := ih f.s f.l f.tryCell h1 (by have := h3 hp; omega)
          refine ⟨o, ho, ?_⟩
          cases o with
          | returned f' =>
            obtain ⟨p1, p2, p3, p4⟩ := hpost
            exact ⟨p1, fun t ht => p2 t (h5 t ht),
              fun e he => p3 e (h6 e (mem_iterate l e he)), by rw [p4, h7]; rfl⟩
          | broke f' =>
            obtain ⟨p1, p2, p3, p4, p5, p6⟩ := hpost
            refine ⟨p1, by omega, fun hc => p3 (h4 hc), fun t ht => p4 t (h5 t ht),
              fun e he => p5 e (h6 e (mem_iterate l e he)), ?_⟩
            rcases p6 with p6 | ⟨q1, q2⟩
            · exact Or.inl p6
            · exact Or.inr ⟨by rw [q1, h7]; rfl, q2⟩
        · have hp' : f.progress = false := by simpa using hp
          have ha' : f.allCellsHaveNumbers = false := by simpa using ha
          have : (!f.progress) = true := by simp [hp']
          rw [if_pos this]
          refine ⟨_, rfl, ?_⟩
          obtain ⟨q1, q2, q3, q4⟩ := h8 hp' ha'
          exact ⟨h1, h2, h4, h5, fun e he => h6 e (mem_iterate l e he),
            Or.inr ⟨h7, by simpa using q1, q2, q3, q4⟩⟩

theorem isDone_eq_false (l : log) (h : ¬ l.isDone = true) : l.sol = none := by
  unfold log.isDone at h
  cases hx : l.sol with
  | none => rfl
  | some x => rw [hx] at h; simp at h

theorem isDone_ne_none (l : log) (h : l.isDone = true) : l.sol ≠ none := by
  unfold log.isDone at h
  intro hx; rw [hx] at h; simp at h

theorem branch_good (n : Nat) (s : sudoku) (tc : Nat) (hs : tracked s) (htc : tc < 81)
    (hn : cell.hasNum s tc = false) (hu : s.unassigned ≤ n)
    (ih : ∀ (g : sudoku) (l : log), tracked g → g.unassigned < n →
      ∃ r, sudoku.solve n g l = some r ∧ solvePost g l r) :
    ∀ (ds : List Nat), (∀ d ∈ ds, 1 ≤ d ∧ d ≤ 9 ∧ (s.cand tc).testBit (d - 1) = true) →
    ∀ (l : log), ∃ l', branch (sudoku.solve n) s tc ds l = some l' ∧
      (∀ e ∈ l.trace, e ∈ l'.trace) ∧
      (l.sol = none →
        (l'.sol = none → ds ≠ [] → ∃ e ∈ l'.trace, e.isNoSolution = true) ∧
        (∀ t, l'.sol = some t → tracked t ∧ t.full ∧ (s.consistent → t.consistent)) ∧
        (∀ t, s.completes t → t.num tc ∈ ds → l'.sol ≠ none)) := by
  intro ds
  induction ds with
  | nil =>
    intro _ l
    refine ⟨l, rfl, fun e he => he, ?_⟩
    intro hl
    refine ⟨fun _ h => absurd rfl h, ?_, ?_⟩
    · intro t ht; rw [hl] at ht; exact Option.noConfusion ht
    · intro t _ h; simp at h
  | cons d rest ihl =>
    intro hds l
    have hd := hds d (List.mem_cons_self _ _)
    have hn0 : s.num tc = 0 := by rw [hasNum_eq] at hn; simpa using hn
    have hs1 : tracked (cell.assign s tc d) :=
      tracked_assign s tc d hs htc hn0 (by
        have : (9 : Nat) < 2 ^ 64 := by norm_num
        omega)
    have hu1 := unassigned_assign s tc d hs.len htc hn (by omega)
    obtain ⟨r, hr, hpost⟩ := ih (cell.assign s tc d) (l.noteAssign s tc d) hs1 (by omega)
    obtain ⟨l', hl', hmono, hrest⟩ := ihl (fun x hx => hds x (List.mem_cons_of_mem _ hx)) r.2
    rw [branch, copy_eq_self s hs, hr]
    simp only
    by_cases hdone : r.2.isDone = true
    · rw [if_pos hdone]
      refine ⟨r.2, rfl, fun e he => hpost.1 e (mem_noteAssign _ _ _ _ _ he), ?_⟩
      intro hl
      have hp := hpost.2 hl
      refine ⟨fun h => absurd h (isDone_ne_none _ hdone), ?_, fun _ _ _ => isDone_ne_none _ hdone⟩
      intro t ht
      have := hp.2.1 t ht
      exact ⟨this.1, this.2.1, fun hc =>
        this.2.2 (consistent_assign s hs hc tc d htc hn0 hd.1 hd.2.1 hd.2.2)⟩
    · rw [if_neg hdone]
      have hsn := isDone_eq_false _ hdone
      refine ⟨l', hl', fun e he => hmono e (hpost.1 e (mem_noteAssign _ _ _ _ _ he)), ?_⟩
      intro hl
      have hp := hpost.2 hl
      have hq := hrest hsn
      refine ⟨?_, ?_, ?_⟩
      · intro _ _
        obtain ⟨e, he, hee⟩ := hp.1 hsn
        exact ⟨e, hmono e he, hee⟩
      · exact hq.2.1
      · intro t ht hmem
        rcases List.mem_cons.1 hmem with h | h
        · exfalso
          apply hp.2.2 ⟨t, ?_⟩ hsn
          rw [← h]
          exact completes_assign s t hs.len ht tc htc
        · exact hq.2.2 t ht h

/-- On a tracked grid `solve` returns as soon as the fuel exceeds the number of
cells without a number, and the result satisfies `solvePost`. -/
theorem solve_good (n : Nat) : ∀ (g : sudoku) (l : log), tracked g → g.unassigned < n →
    ∃ r, sudoku.solve n g l = some r ∧ solvePost g l r := by
  induction n with
  | zero => intro g l _ h; omega
  | succ n ih =>
    intro g l hg hu
    obtain ⟨o, ho, hpost⟩ := propagate_good (n + 1) g l.solveEnter 0 hg hu
    rw [sudoku.solve, ho]
    cases o with
    | returned f =>
      refine ⟨_, rfl, ?_⟩
      obtain ⟨p1, p2, p3, p4⟩ := hpost
      refine ⟨fun e he => p3 e (mem_solveEnter l e he), ?_⟩
      intro hl
      refine ⟨fun _ => p1, ?_, ?_⟩
      · intro t ht
        have ht : f.l.sol = some t := ht
        rw [p4] at ht
        have : l.sol = some t := ht
        rw [hl] at this; exact Option.noConfusion this
      · rintro ⟨t, ht⟩; exact absurd ht (p2 t)
    | broke f =>
      obtain ⟨p1, p2, p3, p4, p5, p6⟩ := hpost
      simp only
      rcases p6 with ⟨q1, q2, q3⟩ | ⟨q1, q2, q3, q4, q5⟩
      · rw [q3]
        have : set.asSlice 0 = [] := rfl
        rw [this]
        simp only [branch]
        refine ⟨_, rfl, fun e he => mem_solveExit _ _ (p5 e (mem_solveEnter l e he)), ?_⟩
        intro hl
        have hsol : f.l.solveExit.sol = some f.s := q2
        refine ⟨?_, ?_, ?_⟩
        · intro h
          have h : f.l.solveExit.sol = none := h
          rw [hsol] at h; exact Option.noConfusion h
        · intro t ht
          have ht : f.l.solveExit.sol = some t := ht
          rw [hsol] at ht
          cases ht
          exact ⟨p1, q1, p3⟩
        · intro _ h
          have h : f.l.solveExit.sol = none := h
          rw [hsol] at h; exact Option.noConfusion h
      · have hcl := cand_lt f.s p1 f.tryCell q2
        have hds : ∀ d ∈ f.tryCandidates.asSlice,
            1 ≤ d ∧ d ≤ 9 ∧ (f.s.cand f.tryCell).testBit (d - 1) = true := by
          intro d hd
          rw [q4, mem_asSlice] at hd
          exact hd
        obtain ⟨l', hl', hmono, hrest⟩ := branch_good n f.s f.tryCell p1 q2 q3 (by omega) ih
          f.tryCandidates.asSlice hds f.l
        rw [hl']
        refine ⟨_, rfl, fun e he => mem_solveExit _ _ (hmono e (p5 e (mem_solveEnter l e he))), ?_⟩
        intro hl
        have hfl : f.l.sol = none := by rw [q1]; exact hl
        have hq := hrest hfl
        have hne : f.tryCandidates.asSlice ≠ [] := by
          apply asSlice_ne_nil _ q5
          rw [q4]; exact hcl
        refine ⟨?_, ?_, ?_⟩
        · intro h
          obtain ⟨e, he, hee⟩ := hq.1 h hne
          exact ⟨e, mem_solveExit _ _ he, hee⟩
        · intro t ht
          have := hq.2.1 t ht
          exact ⟨this.1, this.2.1, fun hc => this.2.2 (p3 hc)⟩
        · rintro ⟨t, ht⟩
          have hct := p4 t ht
          have hn0 : f.s.num f.tryCell = 0 := by rw [hasNum_eq] at q3; simpa using q3
          have hcand := completion_is_candidate f.s t p1 hct f.tryCell q2 hn0
          apply hq.2.2 t hct
          rw [q4, mem_asSlice]
          exact hcand

/-! ## Reachable grids -/

theorem reachable_copy_upto (s : sudoku) (hs : ∀ i, i < 81 → s.num i < 2 ^ 64) (k : Nat)
    (hk : k ≤ 81) :
    reachable ((List.range k).foldl (fun c i =>
        if (s.cell i).num > 0 then cell.assign c i (s.cell i).num else c) NewSudoku) := by
  induction k with
  | zero => exact reachable.blank
  | succ k ih =>
    have ih' := ih (by omega)
    have hn := (copy_upto s k (by omega)).2 k
    rw [List.range_succ, List.foldl_append]
    simp only [List.foldl_cons, List.foldl_nil]
    by_cases hpos : (s.cell k).num > 0
    · rw [if_pos hpos]
      apply reachable.step k _ ih' (by omega)
      · rw [hasNum_eq, hn]; simp
      · exact hs k (by omega)
    · rw [if_neg hpos]; exact ih'

theorem reachable_of_tracked (g : sudoku) (hg : tracked g) : reachable g := by
  rw [← copy_eq_self g hg, copy_unfold]
  exact reachable_copy_upto g hg.wnum 81 (le_refl _)

theorem reachable_foldl (clues : List (Nat × Nat)) : ∀ (g : sudoku), reachable g →
    (clues.map Prod.fst).Nodup →
    (∀ c ∈ clues, c.1 < 81 ∧ c.2 < 2 ^ 64 ∧ g.num c.1 = 0) →
    reachable (clues.foldl (fun g c => cell.assign g c.1 c.2) g) := by
  induction clues with
  | nil => intro g hg _ _; exact hg
  | cons c rest ih =>
    intro g hg hnd hc
    rw [List.map_cons, List.nodup_cons] at hnd
    have hc0 := hc c (List.mem_cons_self _ _)
    rw [List.foldl_cons]
    apply ih _ _ hnd.2
    · intro x hx
      have hx0 := hc x (List.mem_cons_of_mem _ hx)
      refine ⟨hx0.1, hx0.2.1, ?_⟩
      rw [num_assign_ne]
      · exact hx0.2.2
      · intro h
        apply hnd.1
        rw [← h]
        exact List.mem_map_of_mem _ hx
    · apply reachable.step c.1 c.2 hg hc0.1 _ hc0.2.1
      rw [hasNum_eq, hc0.2.2]; simp

theorem reachable_seeded (clues : List (Nat × Nat)) (h : goodClues clues) :
    reachable (seeded clues) := by
  apply reachable_foldl clues NewSudoku reachable.blank h.1
  intro c hc
  have := h.2 c hc
  refine ⟨this.1, ?_, NewSudoku_num _⟩
  have : (9 : Nat) < 2 ^ 64 := by norm_num
  omega

/-- Numbers of a seeded grid: every number on it is a digit of a clue. -/
theorem num_foldl_le (clues : List (Nat × Nat)) : ∀ (g : sudoku),
    (∀ i, g.num i ≤ 9) → (∀ c ∈ clues, c.2 ≤ 9) →
    ∀ i, (clues.foldl (fun g c => cell.assign g c.1 c.2) g).num i ≤ 9 := by
  induction clues with
  | nil => intro g hg _ i; exact hg i
  | cons c rest ih =>
    intro g hg hc i
    rw [List.foldl_cons]
    apply ih _ _ (fun x hx => hc x (List.mem_cons_of_mem _ hx))
    intro j
    by_cases hj : j = c.1
    · unfold sudoku.num
      rw [cell_assign]
      split
      · exact hc c (List.mem_cons_self _ _)
      · exact hg j
    · rw [num_assign_ne _ _ _ _ hj]; exact hg j

theorem consistent_seeded (clues : List (Nat × Nat)) (h : goodClues clues)
    (hn : (seeded clues).noRepeat) : (seeded clues).consistent :=
  ⟨fun i _ => num_foldl_le clues NewSudoku (fun j => by rw [NewSudoku_num]; omega)
    (fun c hc => (h.2 c hc).2.2) i, hn⟩

/-! ## Propagation alone -/

theorem pass_skip (i : Nat) (r : List Nat) (g : sudoku) (b : Bool)
    (h : (!cell.hasNum g i && (cell.possibilities g i).2.2 == 1) = false) :
    nakedSinglePass (i :: r) g b = nakedSinglePass r g b := by
  rw [nakedSinglePass]; simp [h]

theorem pass_take (i : Nat) (r : List Nat) (g : sudoku) (b : Bool)
    (h : (!cell.hasNum g i && (cell.possibilities g i).2.2 == 1) = true) :
    nakedSinglePass (i :: r) g b =
      nakedSinglePass r (cell.assign g i (cell.possibilities g i).2.1) true := by
  rw [nakedSinglePass]; simp [h]

theorem onesCount_zero : onesCount 0 = 0 := by decide

theorem stuck_assign (g : sudoku) (i j d : Nat) (hji : j ≠ i)
    (h : cell.hasNum g i = false ∧ g.cand i = 0) :
    cell.hasNum (cell.assign g j d) i = false ∧ (cell.assign g j d).cand i = 0 := by
  refine ⟨?_, ?_⟩
  · rw [hasNum_eq, num_assign_ne g j d i (fun e => hji e.symm), ← hasNum_eq]; exact h.1
  · apply Nat.eq_of_testBit_eq
    intro e
    rw [Nat.zero_testBit]
    cases hb : ((cell.assign g j d).cand i).testBit e
    · rfl
    · have := cand_assign_imp g j d i e hb
      rw [h.2, Nat.zero_testBit] at this
      exact Bool.noConfusion this

/-- A cell without a number and without a candidate stays so through a
naked-single pass. -/
theorem stuck_pass (is : List Nat) : ∀ (g : sudoku) (b : Bool) (i : Nat),
    cell.hasNum g i = false ∧ g.cand i = 0 →
    cell.hasNum (nakedSinglePass is g b).1 i = false ∧ (nakedSinglePass is g b).1.cand i = 0 := by
  induction is with
  | nil => intro g b i h; exact h
  | cons j r ih =>
    intro g b i h
    by_cases hc : (!cell.hasNum g j && (cell.possibilities g j).2.2 == 1) = true
    · rw [pass_take j r g b hc]
      apply ih
      apply stuck_assign g i j _ _ h
      intro hji
      rw [hji, possibilities_eq] at hc
      have hn : g.num i = 0 := by
        have := h.1; rw [hasNum_eq] at this; simpa using this
      simp [hn, h.2, onesCount_zero] at hc
    · have hc : (!cell.hasNum g j && (cell.possibilities g j).2.2 == 1) = false := by
        simpa using hc
      rw [pass_skip j r g b hc]
      exact ih g b i h

theorem stuck_singles (k : Nat) : ∀ (g t : sudoku) (i : Nat),
    cell.hasNum g i = false ∧ g.cand i = 0 → nakedSingles k g = some t →
    cell.hasNum t i = false := by
  induction k with
  | zero => intro g t i _ h; simp [nakedSingles] at h
  | succ k ih =>
    intro g t i hst h
    rw [nakedSingles] at h
    have hp := stuck_pass (List.range 81) g false i hst
    by_cases hb : (nakedSinglePass (List.range 81) g false).2 = true
    · rw [if_pos hb] at h
      exact ih _ t i hp h
    · rw [if_neg hb] at h
      simp only [Option.some.injEq] at h
      rw [← h]; exact hp.1

/-- The inner loop of `solve` against the specification pass: when it completes
it has done what the pass does, and when it returns early the cell it stopped at
stays without a number in the outcome of the pass. -/
theorem scan_pass (is : List Nat) : ∀ (f : frame),
    match scan is f with
    | .ok f' => nakedSinglePass is f.s f.progress = (f'.s, f'.progress) ∧
        f'.l.solve = f.l.solve ∧ f'.l.sol = f.l.sol
    | .error _ => ∀ b, ∃ i ∈ is,
        cell.hasNum (nakedSinglePass is f.s b).1 i = false ∧
        (nakedSinglePass is f.s b).1.cand i = 0 := by
  induction is with
  | nil => intro f; rw [scan_nil]; exact ⟨rfl, rfl, rfl⟩
  | cons i r ih =>
    intro f
    by_cases hn : cell.hasNum f.s i = true
    · rw [scan_cons_has i r f hn]
      have hskip : ∀ b, nakedSinglePass (i :: r) f.s b = nakedSinglePass r f.s b :=
        fun b => pass_skip i r f.s b (by simp [hn])
      have := ih f
      cases hres : scan r f with
      | ok f' =>
        rw [hres] at this; simp only at this ⊢
        rw [hskip]; exact this
      | error f' =>
        rw [hres] at this; simp only at this ⊢
        intro b
        obtain ⟨j, hj, hst⟩ := this b
        exact ⟨j, List.mem_cons_of_mem _ hj, by rw [hskip]; exact hst⟩
    · have hn : cell.hasNum f.s i = false := by simpa using hn
      have hn0 : f.s.num i = 0 := by rw [hasNum_eq] at hn; simpa using hn
      by_cases hc : f.s.cand i = 0
      · rw [scan_cons_fail i r f hn hc]
        simp only
        intro b
        have hskip : nakedSinglePass (i :: r) f.s b = nakedSinglePass r f.s b :=
          pass_skip i r f.s b (by simp [possibilities_eq, hn0, hc, onesCount_zero])
        refine ⟨i, List.mem_cons_self _ _, ?_⟩
        rw [hskip]
        exact stuck_pass r f.s b i ⟨hn, hc⟩
      · by_cases h1 : onesCount (f.s.cand i) = 1
        · rw [scan_cons_single i r f hn hc h1]
          have htake : ∀ b, nakedSinglePass (i :: r) f.s b =
              nakedSinglePass r (cell.assign f.s i (bitAsNum (f.s.cand i))) true := by
            intro b
            rw [pass_take i r f.s b (by simp [possibilities_eq, hn0, h1, hn])]
            simp [possibilities_eq, hn0, h1]
          have := ih ⟨cell.assign f.s i (bitAsNum (f.s.cand i)),
            f.l.noteAssign f.s i (bitAsNum (f.s.cand i)), f.tryCandidates, f.tryCell, true, false⟩
          cases hres : scan r ⟨cell.assign f.s i (bitAsNum (f.s.cand i)),
            f.l.noteAssign f.s i (bitAsNum (f.s.cand i)), f.tryCandidates, f.tryCell, true,
            false⟩ with
          | ok f' =>
            rw [hres] at this; simp only at this ⊢
            rw [htake]; exact ⟨this.1, this.2.1, this.2.2⟩
          | error f' =>
            rw [hres] at this; simp only at this ⊢
            intro b
            obtain ⟨j, hj, hst⟩ := this true
            exact ⟨j, List.mem_cons_of_mem _ hj, by rw [htake]; exact hst⟩
        · rw [scan_cons_try i r f hn hc h1]
          have hskip : ∀ b, nakedSinglePass (i :: r) f.s b = nakedSinglePass r f.s b :=
            fun b => pass_skip i r f.s b (by simp [possibilities_eq, hn0, h1])
          have := ih ⟨f.s, f.l, f.s.cand i, i, f.progress, false⟩
          cases hres : scan r ⟨f.s, f.l, f.s.cand i, i, f.progress, false⟩ with
          | ok f' =>
            rw [hres] at this; simp only at this ⊢
            rw [hskip]; exact this
          | error f' =>
            rw [hres] at this; simp only at this ⊢
            intro b
            obtain ⟨j, hj, hst⟩ := this b
            exact ⟨j, List.mem_cons_of_mem _ hj, by rw [hskip]; exact hst⟩

/-- A pass that ends without progress and with the flag cleared has met a cell
without a number, which is still without one. -/
theorem scan_idle (is : List Nat) (f : frame)
    (ha : f.allCellsHaveNumbers = true) :
    match scan is f with
    | .ok f' => f'.progress = false → f'.allCellsHaveNumbers = false →
        f'.tryCell ∈ is ∧ cell.hasNum f'.s f'.tryCell = false
    | .error _ => True := by
  apply scan_rule (fun f' => f'.progress = false → f'.allCellsHaveNumbers = false →
        f'.tryCell ∈ is ∧ cell.hasNum f'.s f'.tryCell = false) (fun _ => True)
  · intros; trivial
  · intro f i _ _ _ _ _ h; exact Bool.noConfusion h
  · intro f i hi _ hn _ _ _ _; exact ⟨hi, hn⟩
  · intro _ h; rw [ha] at h; exact Bool.noConfusion h

theorem propagate_singles (k : Nat) : ∀ (fuel : Nat) (g t : sudoku) (l : log) (tc : Nat),
    k ≤ fuel → nakedSingles k g = some t → t.full →
    ∃ f, propagate fuel g l tc = some (.broke f) ∧ f.s = t ∧ f.l.sol = some t ∧
      f.tryCandidates = 0 ∧ f.l.solve = l.solve := by
  induction k with
  | zero => intro fuel g t l tc _ h; simp [nakedSingles] at h
  | succ k ih =>
    intro fuel g t l tc hk h hfull
    obtain ⟨n, rfl⟩ : ∃ n, fuel = n + 1 := ⟨fuel - 1, by omega⟩
    rw [nakedSingles] at h
    have hsp := scan_pass (List.range (9 * 9)) ⟨g, l.iterate, 0, tc, false, true⟩
    have hidle := scan_idle (List.range (9 * 9)) ⟨g, l.iterate, 0, tc, false, true⟩ rfl
    rw [propagate]
    cases hres : scan (List.range (9 * 9)) ⟨g, l.iterate, 0, tc, false, true⟩ with
    | error f' =>
      exfalso
      rw [hres] at hsp
      simp only at hsp
      obtain ⟨i, hi, hst⟩ := hsp false
      have hi81 : i < 81 := by simpa using hi
      have hstuck : cell.hasNum t i = false := by
        by_cases hb : (nakedSinglePass (List.range 81) g false).2 = true
        · rw [if_pos hb] at h
          exact stuck_singles k _ t i hst h
        · rw [if_neg hb] at h
          simp only [Option.some.injEq] at h
          rw [← h]; exact hst.1
      have := hfull i hi81
      rw [hstuck] at this
      exact Bool.noConfusion this
    | ok f' =>
      rw [hres] at hsp hidle
      simp only at hsp hidle ⊢
      obtain ⟨hpass, hsolve, hsol⟩ := hsp
      have hpass : nakedSinglePass (List.range 81) g false = (f'.s, f'.progress) := hpass
      rw [hpass] at h
      simp only at h
      by_cases ha : f'.allCellsHaveNumbers = true
      · rw [if_pos ha]
        obtain ⟨hff, _⟩ := scan_all _ _ _ hres ha
        have hp : f'.progress = false := by rw [hff]
        rw [hp] at h
        simp only [Bool.false_eq_true, if_false, Option.some.injEq] at h
        exact ⟨_, rfl, h, by rw [← h]; rfl, by rw [hff], by
          show f'.l.solve = l.solve
          rw [hsolve]; rfl⟩
      · rw [if_neg ha]
        have ha' : f'.allCellsHaveNumbers = false := by simpa using ha
        by_cases hp : f'.progress = true
        · have : ¬ ((!f'.progress) = true) := by simp [hp]
          rw [if_neg this]
          rw [if_pos hp] at h
          obtain ⟨f2, h1, h2, h3, h4, h5⟩ := ih n f'.s t f'.l f'.tryCell (by omega) h hfull
          exact ⟨f2, h1, h2, h3, h4, by rw [h5, hsolve]; rfl⟩
        · exfalso
          have hp' : f'.progress = false := by simpa using hp
          rw [hp'] at h
          simp only [Bool.false_eq_true, if_false, Option.some.injEq] at h
          obtain ⟨hmem, hno⟩ := hidle hp' ha'
          have := hfull f'.tryCell (by simpa using hmem)
          rw [← h, hno] at this
          exact Bool.noConfusion this

/-! ## More fuel does not change a result -/

theorem propagate_mono (n : Nat) : ∀ (m : Nat) (s : sudoku) (l : log) (tc : Nat) (o : outcome),
    propagate n s l tc = some o → n ≤ m → propagate m s l tc = some o := by
  induction n with
  | zero => intro m s l tc o h; simp [propagate] at h
  | succ n ih =>
    intro m s l tc o h hm
    obtain ⟨k, rfl⟩ : ∃ k, m = k + 1 := ⟨m - 1, by omega⟩
    rw [propagate] at h ⊢
    cases hres : scan (List.range (9 * 9)) ⟨s, l.iterate, 0, tc, false, true⟩ with
    | error f => rw [hres] at h; exact h
    | ok f =>
      rw [hres] at h
      simp only at h ⊢
      by_cases ha : f.allCellsHaveNumbers = true
      · rw [if_pos ha] at h ⊢; exact h
      · rw [if_neg ha] at h ⊢
        by_cases hp : (!f.progress) = true
        · rw [if_pos hp] at h ⊢; exact h
        · rw [if_neg hp] at h ⊢
          exact ih k _ _ _ _ h (by omega)

theorem branch_mono (rec rec' : sudoku → log → Option (sudoku × log))
    (hrec : ∀ g l r, rec g l = some r → rec' g l = some r) (s : sudoku) (tc : Nat) :
    ∀ (ds : List Nat) (l l' : log), branch rec s tc ds l = some l' →
      branch rec' s tc ds l = some l' := by
  intro ds
  induction ds with
  | nil => intro l l' h; exact h
  | cons d rest ih =>
    intro l l' h
    rw [branch] at h ⊢
    cases hr : rec (cell.assign s.copy tc d) (l.noteAssign s.copy tc d) with
    | none => rw [hr] at h; exact Option.noConfusion h
    | some r =>
      rw [hr] at h
      rw [hrec _ _ r hr]
      simp only at h ⊢
      by_cases hd : r.2.isDone = true
      · rw [if_pos hd] at h ⊢; exact h
      · rw [if_neg hd] at h ⊢; exact ih _ _ h

theorem solve_mono (n : Nat) : ∀ (m : Nat) (g : sudoku) (l : log) (r : sudoku × log),
    sudoku.solve n g l = some r → n ≤ m → sudoku.solve m g l = some r := by
  induction n with
  | zero => intro m g l r h; simp [sudoku.solve] at h
  | succ n ih =>
    intro m g l r h hm
    obtain ⟨k, rfl⟩ : ∃ k, m = k + 1 := ⟨m - 1, by omega⟩
    rw [sudoku.solve] at h ⊢
    cases hp : propagate (n + 1) g l.solveEnter 0 with
    | none => rw [hp] at h; exact Option.noConfusion h
    | some o =>
      rw [hp] at h
      rw [propagate_mono (n + 1) (k + 1) _ _ _ o hp hm]
      cases o with
      | returned f => exact h
      | broke f =>
        simp only at h ⊢
        cases hb : branch (sudoku.solve n) f.s f.tryCell f.tryCandidates.asSlice f.l with
        | none => rw [hb] at h; exact Option.noConfusion h
        | some l' =>
          rw [hb] at h
          rw [branch_mono (sudoku.solve n) (sudoku.solve k)
            (fun g l r hr => ih k g l r hr (by omega)) _ _ _ _ _ hb]
          exact h

/-- Whenever `solve` returns on a tracked grid, the result satisfies `solvePost`. -/
theorem solvePost_of_run (fuel : Nat) (g : sudoku) (l : log) (r : sudoku × log)
    (hg : tracked g) (h : sudoku.solve fuel g l = some r) : solvePost g l r := by
  obtain ⟨r', hr', hpost⟩ := solve_good (max fuel (g.unassigned + 1)) g l hg
    (by have := le_max_right fuel (g.unassigned + 1); omega)
  have := solve_mono fuel (max fuel (g.unassigned + 1)) g l r h (le_max_left _ _)
  rw [this] at hr'
  cases hr'
  exact hpost

theorem tracked_seeded (clues : List (Nat × Nat)) (h : goodClues clues) :
    tracked (seeded clues) :=
  tracked_of_reachable _ (reachable_seeded clues h)

/-- A repeated number on `g` is repeated on every grid that keeps the numbers of
`g`. -/
theorem repeat_kept (g t : sudoku) (hk : g.keeps t) (hn : ¬ g.noRepeat) : ¬ t.noRepeat := by
  intro ht
  apply hn
  intro i hi j hj ⟨hij, hu, h0⟩ heq
  have hi' := hk i hi h0
  have hj' := hk j hj (by rw [← heq]; exact h0)
  exact ht i hi j hj ⟨hij, hu, by rw [hi']; exact h0⟩ (by rw [hi', hj', heq])

theorem count_solution_trace (pre post : List event) (t : sudoku)
    (h1 : ∀ e ∈ pre, e.isSolution = false) (h2 : ∀ e ∈ post, e = event.solveExit) :
    ((pre ++ event.solution t :: post).filter event.isSolution).length = 1 ∧
    ((pre ++ event.solution t :: post).filter event.isEnter).length
      = (pre.filter event.isEnter).length := by
  have hpre : pre.filter event.isSolution = [] := by
    rw [List.filter_eq_nil_iff]; intro e he; simp [h1 e he]
  have hpost : post.filter event.isSolution = [] := by
    rw [List.filter_eq_nil_iff]; intro e he; rw [h2 e he]; simp [event.isSolution]
  have hpost2 : post.filter event.isEnter = [] := by
    rw [List.filter_eq_nil_iff]; intro e he; rw [h2 e he]; simp [event.isEnter]
  constructor
  · rw [List.filter_append, List.filter_cons, hpre, hpost]; simp [event.isSolution]
  · rw [List.filter_append, List.filter_cons, hpost2]; simp [event.isEnter]

/-! ## Evaluations on the sample grids -/

set_option maxRecDepth 1000000 in
theorem puzzle0_good : goodClues puzzle0 := by decide!

set_option maxRecDepth 1000000 in
theorem puzzle0_noRepeat : (seeded puzzle0).noRepeat := by decide!

set_option maxRecDepth 1000000 in
theorem puzzle0_completes : (seeded puzzle0).completes (seeded solution0) := by decide!

set_option maxRecDepth 1000000 in
theorem puzzle0_unassigned : (seeded puzzle0).unassigned < 82 := by decide!

set_option maxRecDepth 1000000 in
theorem puzzle0_run :
    (sudoku.solve 5 (seeded puzzle0) NewLog).map (fun r => r.2.sol)
      = some (some (seeded solution0)) := by decide!

set_option maxRecDepth 1000000 in
theorem puzzle0_singles : nakedSingles 4 (seeded puzzle0) = some (seeded solution0) := by
  decide!

set_option maxRecDepth 1000000 in
theorem solution0_full : (seeded solution0).full := by decide!

set_option maxRecDepth 1000000 in
theorem twoWay_run :
    (sudoku.solve 5 (seeded twoWay) NewLog).map (fun r => (r.2.sol, r.2.solve))
      = some (some (seeded solution0), 2) := by decide!

set_option maxRecDepth 1000000 in
theorem onesBlank_good : goodClues onesBlank := by decide!

set_option maxRecDepth 1000000 in
theorem onesBlank_repeat : ¬ (seeded onesBlank).noRepeat := by decide!

set_option maxRecDepth 1000000 in
theorem onesBlank_unassigned : (seeded onesBlank).unassigned < 3 := by decide!

/-! ## The claims -/

/-- Claim C1 (soundness of solve): for a grid built from a blank grid by assigning
digits 1..9 to distinct cells with no digit twice in a row, column or square, and a
fresh log, whenever `solve` returns with `log.sol` set, all 81 cells of the recorded
grid have a number and every row, column and square contains each digit 1..9
exactly once. -/
theorem solve_sound (clues : List (Nat × Nat)) (fuel : Nat) (r : sudoku × log) (t : sudoku)
    (hc : goodClues clues) (hn : (seeded clues).noRepeat)
    (hr : sudoku.solve fuel (seeded clues) NewLog = some r) (ht : r.2.sol = some t) :
    t.isSolved := by
  have hp := solvePost_of_run fuel _ _ r (tracked_seeded clues hc) hr
  have := (hp.2 rfl).2.1 t ht
  exact isSolved_of_consistent t (this.2.2 (consistent_seeded clues hc hn)) this.2.1

/-- Instance of `solve_sound` on puzzle 0 of `main.go`. -/
theorem solve_sound_witness :
    goodClues puzzle0 ∧ (seeded puzzle0).noRepeat ∧
    (sudoku.solve 5 (seeded puzzle0) NewLog).map (fun r => r.2.sol)
      = some (some (seeded solution0)) ∧
    (seeded solution0).isSolved := by
  obtain ⟨r, hr, hs⟩ := Option.map_eq_some'.1 puzzle0_run
  exact ⟨puzzle0_good, puzzle0_noRepeat, puzzle0_run,
    solve_sound puzzle0 5 r (seeded solution0) puzzle0_good puzzle0_noRepeat hr hs⟩

/-- Claim C2 (completeness of solve): for a grid built from a blank grid by assigning
digits 1..9 to distinct cells with no digit twice in a row, column or square, `solve`
with a fresh log returns, and `isDone()` is true on return exactly when some full
valid grid agrees with the initial grid on its assigned cells; so no solution is
recorded only if the puzzle has no valid completion. -/
theorem solve_complete (clues : List (Nat × Nat)) (fuel : Nat)
    (hc : goodClues clues) (hn : (seeded clues).noRepeat)
    (hf : (seeded clues).unassigned < fuel) :
    ∃ r, sudoku.solve fuel (seeded clues) NewLog = some r ∧
      (r.2.isDone = true ↔ ∃ t, (seeded clues).completes t) := by
  have hg := tracked_seeded clues hc
  obtain ⟨r, hr, hp⟩ := solve_good fuel (seeded clues) NewLog hg hf
  refine ⟨r, hr, ?_, ?_⟩
  · intro hd
    cases hs : r.2.sol with
    | none => exact absurd hs (isDone_ne_none _ hd)
    | some t =>
      have h1 := (hp.2 rfl).2.1 t hs
      have h2 := (solve_any fuel _ _ r hr coherent_NewLog rfl).2.2 t hs
      exact ⟨t, isSolved_of_consistent t (h1.2.2 (consistent_seeded clues hc hn)) h1.2.1, h2⟩
  · intro hex
    have := (hp.2 rfl).2.2 hex
    unfold log.isDone
    cases hs : r.2.sol with
    | none => exact absurd hs this
    | some t => rfl

/-- Instance of `solve_complete` on puzzle 0, whose completion is `solution0`. -/
theorem solve_complete_witness :
    goodClues puzzle0 ∧ (seeded puzzle0).noRepeat ∧ (seeded puzzle0).unassigned < 82 ∧
    (seeded puzzle0).completes (seeded solution0) ∧
    ∃ r, sudoku.solve 82 (seeded puzzle0) NewLog = some r ∧
      (r.2.isDone = true ↔ ∃ t, (seeded puzzle0).completes t) :=
  ⟨puzzle0_good, puzzle0_noRepeat, puzzle0_unassigned, puzzle0_completes,
    solve_complete puzzle0 82 puzzle0_good puzzle0_noRepeat puzzle0_unassigned⟩

set_option maxRecDepth 1000000 in
/-- Claim C3, refuted as stated: the grid with digit 1 seeded into cells 0..79 holds
the same digit twice in every row, yet `solve` with a fresh log records a solution
and never calls `noSolution`. -/
theorem contradiction_counterexample :
    goodClues onesBlank ∧ ¬ (seeded onesBlank).noRepeat ∧
    (sudoku.solve 3 (seeded onesBlank) NewLog).map
      (fun r => (r.2.sol.isSome, r.2.trace.any event.isNoSolution)) = some (true, false) := by
  decide!

/-- Claim C3 as amended: for a grid built from a blank grid by seeding distinct cells
with digits 1..9 in which some row, column or square holds the same digit twice,
`solve` with a fresh log returns; if it returns with `log.sol` nil it has called
`noSolution` at least once, and if it has recorded a grid then that grid has all 81
cells assigned, keeps the seeded digits and so still holds a digit twice in a
unit. -/
theorem contradiction_amended (clues : List (Nat × Nat)) (fuel : Nat)
    (hc : goodClues clues) (hn : ¬ (seeded clues).noRepeat)
    (hf : (seeded clues).unassigned < fuel) :
    ∃ r, sudoku.solve fuel (seeded clues) NewLog = some r ∧
      (r.2.sol = none → ∃ e ∈ r.2.trace, e.isNoSolution = true) ∧
      (∀ t, r.2.sol = some t → t.full ∧ (seeded clues).keeps t ∧ ¬ t.noRepeat) := by
  have hg := tracked_seeded clues hc
  obtain ⟨r, hr, hp⟩ := solve_good fuel (seeded clues) NewLog hg hf
  refine ⟨r, hr, (hp.2 rfl).1, ?_⟩
  intro t ht
  have h1 := (hp.2 rfl).2.1 t ht
  have h2 := (solve_any fuel _ _ r hr coherent_NewLog rfl).2.2 t ht
  exact ⟨h1.2.1, h2, repeat_kept _ t h2 hn⟩

/-- Instance of `contradiction_amended` on the grid of the counterexample. -/
theorem contradiction_amended_witness :
    goodClues onesBlank ∧ ¬ (seeded onesBlank).noRepeat ∧ (seeded onesBlank).unassigned < 3 ∧
    ∃ r, sudoku.solve 3 (seeded onesBlank) NewLog = some r ∧
      (r.2.sol = none → ∃ e ∈ r.2.trace, e.isNoSolution = true) ∧
      (∀ t, r.2.sol = some t → t.full ∧ (seeded onesBlank).keeps t ∧ ¬ t.noRepeat) :=
  ⟨onesBlank_good, onesBlank_repeat, onesBlank_unassigned,
    contradiction_amended onesBlank 3 onesBlank_good onesBlank_repeat onesBlank_unassigned⟩

/-- Claim C4 (first-solution stop): for every grid and a fresh log, when `solve`
returns its history holds at most one `solution` call; if `log.sol` is set, the
history is a part without `solution` calls, the one `solution` call, and after it
`solveExit` calls only, so no `solve` invocation is entered after the solution and
`log.solve` on return is the number of `solveEnter` calls made before it. -/
theorem solve_first_solution_stop (fuel : Nat) (g : sudoku) (r : sudoku × log)
    (h : sudoku.solve fuel g NewLog = some r) :
    (r.2.trace.filter event.isSolution).length ≤ 1 ∧
    (r.2.sol = none → (r.2.trace.filter event.isSolution).length = 0) ∧
    ∀ t, r.2.sol = some t → ∃ pre post, r.2.trace = pre ++ event.solution t :: post ∧
      (∀ e ∈ pre, e.isSolution = false) ∧ (∀ e ∈ post, e = event.solveExit) ∧
      r.2.solve = ((pre.filter event.isEnter).length : Int) := by
  have hco := (solve_any fuel g NewLog r h coherent_NewLog rfl).2.1
  have hnone : r.2.sol = none → (r.2.trace.filter event.isSolution).length = 0 := by
    intro hs
    rw [List.length_eq_zero, List.filter_eq_nil_iff]
    intro e he
    simp [hco.unsolved hs e he]
  have hsome : ∀ t, r.2.sol = some t → ∃ pre post, r.2.trace = pre ++ event.solution t :: post ∧
      (∀ e ∈ pre, e.isSolution = false) ∧ (∀ e ∈ post, e = event.solveExit) ∧
      r.2.solve = ((pre.filter event.isEnter).length : Int) := by
    intro t ht
    obtain ⟨pre, post, h1, h2, h3⟩ := hco.solved t ht
    refine ⟨pre, post, h1, h2, h3, ?_⟩
    rw [hco.enters, h1, (count_solution_trace pre post t h2 h3).2]
  refine ⟨?_, hnone, hsome⟩
  cases hs : r.2.sol with
  | none => rw [hnone hs]; omega
  | some t =>
    obtain ⟨pre, post, h1, h2, h3, _⟩ := hsome t hs
    rw [h1, (count_solution_trace pre post t h2 h3).1]

/-- Instance of `solve_first_solution_stop` on a puzzle with two completions. -/
theorem solve_first_solution_stop_witness :
    (sudoku.solve 5 (seeded twoWay) NewLog).map (fun r => (r.2.sol, r.2.solve))
      = some (some (seeded solution0), 2) ∧
    ∃ r, sudoku.solve 5 (seeded twoWay) NewLog = some r ∧
      (r.2.trace.filter event.isSolution).length ≤ 1 ∧
      (r.2.sol = none → (r.2.trace.filter event.isSolution).length = 0) ∧
      ∀ t, r.2.sol = some t → ∃ pre post, r.2.trace = pre ++ event.solution t :: post ∧
        (∀ e ∈ pre, e.isSolution = false) ∧ (∀ e ∈ post, e = event.solveExit) ∧
        r.2.solve = ((pre.filter event.isEnter).length : Int) := by
  obtain ⟨r, hr, _⟩ := Option.map_eq_some'.1 twoWay_run
  exact ⟨twoWay_run, r, hr, solve_first_solution_stop 5 (seeded twoWay) r hr⟩

/-- Claim C5 (propagation-only puzzles need zero branching): for every grid on which
repeated row-major naked-single passes, run until a pass assigns nothing, leave all
81 cells assigned, `solve` with a fresh log returns with exactly that grid as the
receiver and as the recorded solution, with `log.solve = 1` and one `solveEnter`
call in all, so without any recursive call. -/
theorem propagation_only (g t : sudoku) (k fuel : Nat)
    (hk : nakedSingles k g = some t) (hfull : t.full) (hfuel : k ≤ fuel) :
    ∃ r, sudoku.solve fuel g NewLog = some r ∧ r.1 = t ∧ r.2.sol = some t ∧
      r.2.solve = 1 ∧ (r.2.trace.filter event.isEnter).length = 1 := by
  have hk0 : k ≠ 0 := by
    intro h0; rw [h0] at hk; simp [nakedSingles] at hk
  obtain ⟨n, rfl⟩ : ∃ n, fuel = n + 1 := ⟨fuel - 1, by omega⟩
  obtain ⟨f, h1, h2, h3, h4, h5⟩ :=
    propagate_singles k (n + 1) g t NewLog.solveEnter 0 hfuel hk hfull
  have hrun : sudoku.solve (n + 1) g NewLog = some (f.s, f.l.solveExit) := by
    rw [sudoku.solve, h1]
    simp only
    rw [h4]
    rfl
  have hco := (solve_any (n + 1) g NewLog _ hrun coherent_NewLog rfl).2.1
  have hsolve : f.l.solveExit.solve = 1 := by
    show f.l.solve = 1
    rw [h5]; rfl
  refine ⟨_, hrun, h2, h3, hsolve, ?_⟩
  have := hco.enters
  rw [hsolve] at this
  exact_mod_cast this.symm

/-- Instance of `propagation_only` on puzzle 0, which four passes complete. -/
theorem propagation_only_witness :
    nakedSingles 4 (seeded puzzle0) = some (seeded solution0) ∧ (seeded solution0).full ∧
    ∃ r, sudoku.solve 5 (seeded puzzle0) NewLog = some r ∧ r.1 = seeded solution0 ∧
      r.2.sol = some (seeded solution0) ∧ r.2.solve = 1 ∧
      (r.2.trace.filter event.isEnter).length = 1 :=
  ⟨puzzle0_singles, solution0_full,
    propagation_only (seeded puzzle0) (seeded solution0) 4 5 puzzle0_singles solution0_full
      (by decide)⟩

/-- Claim C6 (termination of solve): for every grid reachable from a blank grid by
`assign` calls on cells without a number, `solve` returns once the fuel exceeds the
number of cells without a number; every pass of the inner loop that makes the
propagation loop continue, and every branch copy `solve` recurses on, is again
reachable and has strictly fewer cells without a number. -/
theorem solve_terminates (g : sudoku) (hg : reachable g) (fuel : Nat) (l : log)
    (hf : g.unassigned < fuel) :
    (sudoku.solve fuel g l).isSome = true ∧
    (∀ tc f, scan (List.range (9 * 9)) ⟨g, l, 0, tc, false, true⟩ = .ok f →
      f.progress = true → reachable f.s ∧ f.s.unassigned < g.unassigned) ∧
    (∀ tc f, propagate fuel g l tc = some (.broke f) → ∀ d ∈ f.tryCandidates.asSlice,
      reachable (cell.assign f.s.copy f.tryCell d) ∧
      (cell.assign f.s.copy f.tryCell d).unassigned < g.unassigned) := by
  have ht := tracked_of_reachable g hg
  refine ⟨?_, ?_, ?_⟩
  · obtain ⟨r, hr, _⟩ := solve_good fuel g l ht hf
    rw [hr]; rfl
  · intro tc f hsc hp
    have hI : scanInv g l (List.range (9 * 9)) ⟨g, l, 0, tc, false, true⟩ := by
      refine ⟨ht, le_refl _, ?_, fun h => h, fun t h => h, fun e h => h, rfl, ?_⟩
      · intro h; exact Bool.noConfusion h
      · intro _ h; exact Bool.noConfusion h
    have := scan_good g l (List.range (9 * 9)) (fun i hi => by simpa using hi) _ hI
    rw [hsc] at this
    exact ⟨reachable_of_tracked _ this.1, this.2.2.1 hp⟩
  · intro tc f hpr d hd
    obtain ⟨o, ho, hpost⟩ := propagate_good fuel g l tc ht hf
    rw [hpr] at ho
    cases ho
    obtain ⟨p1, p2, _, _, _, p6⟩ := hpost
    rcases p6 with ⟨_, _, q3⟩ | ⟨_, q2, q3, _, _⟩
    · rw [q3] at hd
      have : set.asSlice 0 = [] := rfl
      rw [this] at hd
      simp at hd
    · have hd1 := ((mem_asSlice _ _).1 hd)
      have hn0 : f.s.num f.tryCell = 0 := by rw [hasNum_eq] at q3; simpa using q3
      rw [copy_eq_self f.s p1]
      have hu := unassigned_assign f.s f.tryCell d p1.len q2 q3 (by omega)
      refine ⟨reachable_of_tracked _ (tracked_assign f.s f.tryCell d p1 q2 hn0 (by
        have : (9 : Nat) < 2 ^ 64 := by norm_num
        omega)), by omega⟩

set_option maxRecDepth 1000000 in
/-- Instance of `solve_terminates` on the blank grid. -/
theorem solve_terminates_witness :
    reachable NewSudoku ∧ NewSudoku.unassigned < 82 ∧
    (sudoku.solve 82 NewSudoku NewLog).isSome = true ∧
    (∀ tc f, scan (List.range (9 * 9)) ⟨NewSudoku, NewLog, 0, tc, false, true⟩ = .ok f →
      f.progress = true → reachable f.s ∧ f.s.unassigned < NewSudoku.unassigned) ∧
    (∀ tc f, propagate 82 NewSudoku NewLog tc = some (.broke f) →
      ∀ d ∈ f.tryCandidates.asSlice,
      reachable (cell.assign f.s.copy f.tryCell d) ∧
      (cell.assign f.s.copy f.tryCell d).unassigned < NewSudoku.unassigned) :=
  ⟨reachable.blank, by decide!,
    solve_terminates NewSudoku reachable.blank 82 NewLog (by decide!)⟩

/-- Claim C7 (monotonic candidate shrinkage): for every grid, cell `i`, number `d`
and other cell `j`, the candidate bitmap `possibilities` returns for cell `j` after
`assign(d)` on cell `i` is a subset of the one it returned before, and the candidate
count is not larger. -/
theorem assign_shrinks (g : sudoku) (i d j : Nat) (hij : j ≠ i) :
    set.subset (cell.possibilities (cell.assign g i d) j).1 (cell.possibilities g j).1 ∧
    (cell.possibilities (cell.assign g i d) j).2.2 ≤ (cell.possibilities g j).2.2 := by
  rw [possibilities_eq, possibilities_eq, num_assign_ne g i d j hij]
  by_cases hn : g.num j ≠ 0
  · rw [if_pos hn, if_pos hn]
    exact ⟨by unfold set.subset; rfl, le_refl _⟩
  · rw [if_neg hn, if_neg hn]
    simp only
    exact ⟨(subset_iff _ _).2 (fun e he => cand_assign_imp g i d j e he),
      onesCount_mono _ _ (fun e he => cand_assign_imp g i d j e he)⟩

set_option maxRecDepth 1000000 in
/-- Instance of `assign_shrinks`: assigning 3 to cell 0 of puzzle 0 takes 3 from the candidates of cell 3. -/
theorem assign_shrinks_witness :
    (3 : Nat) ≠ 0 ∧
    (cell.possibilities (seeded puzzle0) 3).1 = 132 ∧
    (cell.possibilities (cell.assign (seeded puzzle0) 0 3) 3).1 = 128 ∧
    set.subset (cell.possibilities (cell.assign (seeded puzzle0) 0 3) 3).1
      (cell.possibilities (seeded puzzle0) 3).1 ∧
    (cell.possibilities (cell.assign (seeded puzzle0) 0 3) 3).2.2
      ≤ (cell.possibilities (seeded puzzle0) 3).2.2 :=
  ⟨by decide, by decide!, by decide!, assign_shrinks (seeded puzzle0) 0 3 3 (by decide)⟩

/-- Claim C8 (copy is a faithful deep copy): for every grid reachable from a blank
grid by `assign` calls on cells without a number, `copy` returns a grid equal to the
receiver in all 81 cells and in all 27 sets, built on the fresh sets of `NewSudoku`
and wired as `NewSudoku` wires its cells. -/
theorem copy_faithful (g : sudoku) (hg : reachable g) :
    g.copy = g ∧
    (∀ i, i < 81 → g.copy.num i = g.num i) ∧
    (∀ u, u < 9 → g.copy.rs.getD u 0 = g.rs.getD u 0 ∧ g.copy.cs.getD u 0 = g.cs.getD u 0 ∧
      g.copy.sqs.getD u 0 = g.sqs.getD u 0) ∧
    (∀ i, i < 81 → (g.copy.cell i).row = (NewSudoku.cell i).row ∧
      (g.copy.cell i).col = (NewSudoku.cell i).col ∧
      (g.copy.cell i).sq = (NewSudoku.cell i).sq) := by
  have ht := tracked_of_reachable g hg
  have he := copy_eq_self g ht
  refine ⟨he, fun i _ => by rw [he], fun u _ => by rw [he]; exact ⟨rfl, rfl, rfl⟩, ?_⟩
  intro i hi
  rw [he, ht.wrow i hi, ht.wcol i hi, ht.wsq i hi, tracked_NewSudoku.wrow i hi,
    tracked_NewSudoku.wcol i hi, tracked_NewSudoku.wsq i hi]
  exact ⟨rfl, rfl, rfl⟩

/-- Instance of `copy_faithful` on puzzle 0. -/
theorem copy_faithful_witness :
    reachable (seeded puzzle0) ∧ (seeded puzzle0).copy = seeded puzzle0 :=
  ⟨reachable_seeded puzzle0 puzzle0_good,
    (copy_faithful (seeded puzzle0) (reachable_seeded puzzle0 puzzle0_good)).1⟩

/-- Claim C9 (assigned cells are never changed by the solver): for every grid and a
fresh log, when `solve` returns, every cell that had a number on entry holds the same
number in the receiver and, if a solution is recorded, in the recorded grid; and
every `assign` call `solve` made was on a cell for which `hasNum()` was false. -/
theorem solve_keeps_assigned (fuel : Nat) (g : sudoku) (r : sudoku × log)
    (h : sudoku.solve fuel g NewLog = some r) :
    g.keeps r.1 ∧ (∀ t, r.2.sol = some t → g.keeps t) ∧
    (∀ ci n had, event.assign ci n had ∈ r.2.trace → had = false) := by
  have := solve_any fuel g NewLog r h coherent_NewLog rfl
  exact ⟨this.1, this.2.2, this.2.1.fresh⟩

/-- Instance of `solve_keeps_assigned` on a puzzle with two completions. -/
theorem solve_keeps_assigned_witness :
    (sudoku.solve 5 (seeded twoWay) NewLog).map (fun r => (r.2.sol, r.2.solve))
      = some (some (seeded solution0), 2) ∧
    (seeded twoWay).keeps (seeded solution0) := by
  obtain ⟨r, hr, hs⟩ := Option.map_eq_some'.1 twoWay_run
  have hs : r.2.sol = some (seeded solution0) := congrArg Prod.fst hs
  exact ⟨twoWay_run, (solve_keeps_assigned 5 (seeded twoWay) r hr).2.1 _ hs⟩

/-- Claim C10 (possibilities contract): for a cell with a number `possibilities`
returns `(0, 0, 0)`; for a cell without a number whose three sets lie within the
nine digit bits it returns the bitwise AND of the row, column and square set, the
number of digits in it, and as `single` the only digit in it when that number is 1
and 0 otherwise. -/
theorem possibilities_contract (g : sudoku) (i : Nat) :
    (cell.hasNum g i = true → cell.possibilities g i = (0, 0, 0)) ∧
    (cell.hasNum g i = false → g.rowSet i ≤ 0x1ff → g.colSet i ≤ 0x1ff → g.sqSet i ≤ 0x1ff →
      (cell.possibilities g i).1 = g.rowSet i &&& g.colSet i &&& g.sqSet i ∧
      (cell.possibilities g i).2.2 = set.count (cell.possibilities g i).1 ∧
      ((cell.possibilities g i).2.2 = 1 →
        set.has (cell.possibilities g i).1 (cell.possibilities g i).2.1 ∧
        ∀ d, set.has (cell.possibilities g i).1 d → d = (cell.possibilities g i).2.1) ∧
      ((cell.possibilities g i).2.2 ≠ 1 → (cell.possibilities g i).2.1 = 0)) := by
  constructor
  · intro h
    rw [hasNum_eq] at h
    have h : g.num i ≠ 0 := by simpa using h
    rw [possibilities_eq, if_pos h]
  · intro h hr _ _
    rw [hasNum_eq] at h
    have h : ¬ g.num i ≠ 0 := by simpa using h
    rw [possibilities_eq, if_neg h]
    simp only
    have hcomm : g.cand i = g.rowSet i &&& g.colSet i &&& g.sqSet i := by
      unfold sudoku.cand
      rw [Nat.land_comm (g.colSet i) (g.rowSet i)]
    have hlt : g.cand i < 512 := by
      rw [hcomm, Nat.land_assoc]
      exact Nat.lt_of_le_of_lt (Nat.le_trans Nat.and_le_left hr) (by norm_num)
    have hcount : onesCount (g.cand i) = set.count (g.cand i) := by
      rw [onesCount_eq_length_asSlice _ hlt, count_eq_length_asSlice]
    refine ⟨hcomm, hcount, ?_, ?_⟩
    · intro h1
      rw [if_pos h1]
      rw [onesCount_eq_length_asSlice _ hlt] at h1
      obtain ⟨x, hx⟩ := List.length_eq_one.1 h1
      have hb : bitAsNum (g.cand i) = x := by rw [bitAsNum_eq_headD, hx]; rfl
      rw [hb]
      constructor
      · rw [has_iff_mem_asSlice, hx]; simp
      · intro d hd
        rw [has_iff_mem_asSlice, hx] at hd
        simpa using hd
    · intro h1
      rw [if_neg h1]

set_option maxRecDepth 1000000 in
/-- Instance of `possibilities_contract` on cells 1 (assigned), 0 (three candidates) and 24 (one candidate) of puzzle 0. -/
theorem possibilities_contract_witness :
    cell.possibilities (seeded puzzle0) 1 = (0, 0, 0) ∧
    cell.possibilities (seeded puzzle0) 0 = (164, 0, 3) ∧
    cell.possibilities (seeded puzzle0) 24 = (4, 3, 1) ∧
    set.has 4 3 ∧ ∀ d, set.has (cell.possibilities (seeded puzzle0) 24).1 d →
      d = (cell.possibilities (seeded puzzle0) 24).2.1 :=
  ⟨(possibilities_contract (seeded puzzle0) 1).1 (by decide!), by decide!, by decide!,
    by decide,
    (((possibilities_contract (seeded puzzle0) 24).2 (by decide!) (by decide!) (by decide!)
      (by decide!)).2.2.1 (by decide!)).2⟩

/-! ## The leaf operations -/

theorem onesCount_eq_zero (x : Nat) (hx : x < 2 ^ 64) (h : onesCount x = 0) : x = 0 := by
  unfold onesCount at h
  rw [List.length_eq_zero, List.filter_eq_nil_iff] at h
  apply Nat.eq_of_testBit_eq
  intro e
  rw [Nat.zero_testBit]
  by_cases he : e < 64
  · have := h e (List.mem_range.2 he)
    simpa using this
  · apply Nat.testBit_lt_two_pow
    calc x < 2 ^ 64 := hx
      _ ≤ 2 ^ e := Nat.pow_le_pow_right (by norm_num) (by omega)

theorem has_remove (s d e : Nat) (hd : d ≤ 9) :
    set.has (set.remove s d) e ↔ (set.has s e ∧ e ≠ d) := by
  unfold set.has
  have hd64 : d < 2 ^ 64 := by
    have : (9 : Nat) < 2 ^ 64 := by norm_num
    omega
  rw [testBit_remove s d (e - 1) hd64]
  simp only [Bool.and_eq_true, decide_eq_true_eq]
  constructor
  · rintro ⟨h1, h9, ⟨_, hb⟩, hne⟩
    exact ⟨⟨h1, h9, hb⟩, by omega⟩
  · rintro ⟨⟨h1, h9, hb⟩, hne⟩
    exact ⟨h1, h9, ⟨by omega, hb⟩, by omega⟩

theorem remove_eq_self (s d : Nat) (hs : s < 2 ^ 64) (hd1 : 1 ≤ d) (hd9 : d ≤ 9)
    (h : ¬ set.has s d) : set.remove s d = s := by
  have hd64 : d < 2 ^ 64 := by
    have : (9 : Nat) < 2 ^ 64 := by norm_num
    omega
  apply Nat.eq_of_testBit_eq
  intro e
  rw [testBit_remove s d e hd64]
  by_cases he : e < 64
  · by_cases hed : e + 1 = d
    · have hb : s.testBit e = false := by
        cases hb : s.testBit e
        · rfl
        · exfalso; apply h
          refine ⟨hd1, hd9, ?_⟩
          have : d - 1 = e := by omega
          rw [this]; exact hb
      simp [hb]
    · simp [he, hed]
  · have hb : s.testBit e = false := by
      apply Nat.testBit_lt_two_pow
      calc s < 2 ^ 64 := hs
        _ ≤ 2 ^ e := Nat.pow_le_pow_right (by norm_num) (by omega)
    simp [hb]

theorem remove_comm (s d1 d2 : Nat) :
    set.remove (set.remove s d1) d2 = set.remove (set.remove s d2) d1 := by
  unfold set.remove
  rw [Nat.land_assoc, Nat.land_assoc,
    Nat.land_comm (not64 (shl64 1 (dec64 d1))) (not64 (shl64 1 (dec64 d2)))]

theorem asSlice_sorted (s : Nat) : List.Pairwise (fun a b => a < b) (set.asSlice s) := by
  rw [asSlice_eq]
  apply List.Pairwise.map (fun e => e + 1) _ (List.Pairwise.filter _ (List.pairwise_lt_range 9))
  intro a b h
  show a + 1 < b + 1
  omega

theorem has_full (d : Nat) : set.has 0x1ff d ↔ (1 ≤ d ∧ d ≤ 9) := by
  unfold set.has
  rw [testBit_511]
  simp only [decide_eq_true_eq]
  constructor
  · intro h; exact ⟨h.1, h.2.1⟩
  · intro h; exact ⟨h.1, h.2, by omega⟩

set_option maxRecDepth 1000000 in
theorem NewSudoku_refs :
    NewSudoku.cells.length = 81 ∧ NewSudoku.rs.length = 9 ∧ NewSudoku.cs.length = 9 ∧
    NewSudoku.sqs.length = 9 ∧
    (∀ i, i < 81 → NewSudoku.cell i = ⟨0, i % 9, i / 9, 3 * (i / 27) + (i % 9) / 3⟩) ∧
    (∀ u, u < 9 → NewSudoku.rs.getD u 0 = 0x1ff ∧ NewSudoku.cs.getD u 0 = 0x1ff ∧
      NewSudoku.sqs.getD u 0 = 0x1ff) ∧
    (∀ u, u < 9 →
      ((List.range 81).filter (fun i => decide ((NewSudoku.cell i).row = u))).length = 9 ∧
      ((List.range 81).filter (fun i => decide ((NewSudoku.cell i).col = u))).length = 9 ∧
      ((List.range 81).filter (fun i => decide ((NewSudoku.cell i).sq = u))).length = 9) := by
  decide!

theorem rowSet_assign_self (g : sudoku) (i d : Nat) (hr : (g.cell i).row < g.rs.length) :
    (cell.assign g i d).rowSet i = set.remove (g.rowSet i) d := by
  unfold sudoku.rowSet
  rw [row_assign, rs_assign]
  simp [hr]

theorem colSet_assign_self (g : sudoku) (i d : Nat) (hc : (g.cell i).col < g.cs.length) :
    (cell.assign g i d).colSet i = set.remove (g.colSet i) d := by
  unfold sudoku.colSet
  rw [col_assign, cs_assign]
  simp [hc]

theorem sqSet_assign_self (g : sudoku) (i d : Nat) (hq : (g.cell i).sq < g.sqs.length) :
    (cell.assign g i d).sqSet i = set.remove (g.sqSet i) d := by
  unfold sudoku.sqSet
  rw [sq_assign, sqs_assign]
  simp [hq]

/-! ## Claims C11 to C15 -/

/-- Claim C11 (fails contract): for every cell, `fails()` is true exactly when the
cell has no number and the AND of its row, column and square set is empty; it is
false for every cell with a number, and for a cell without a number whose sets are
64 bit words it holds exactly when `possibilities()` reports count 0. -/
theorem fails_contract (g : sudoku) (i : Nat) :
    (cell.fails g i = true ↔
      ((g.cell i).num = 0 ∧ g.rowSet i &&& g.colSet i &&& g.sqSet i = 0)) ∧
    (cell.hasNum g i = true → cell.fails g i = false) ∧
    (cell.hasNum g i = false → g.rowSet i < 2 ^ 64 → g.colSet i < 2 ^ 64 →
      g.sqSet i < 2 ^ 64 →
      (cell.fails g i = true ↔ (cell.possibilities g i).2.2 = 0)) := by
  have hcomm : g.cand i = g.rowSet i &&& g.colSet i &&& g.sqSet i := by
    unfold sudoku.cand
    rw [Nat.land_comm (g.colSet i) (g.rowSet i)]
  refine ⟨?_, ?_, ?_⟩
  · rw [fails_eq, ← hcomm]
    simp [sudoku.num]
  · intro h
    rw [hasNum_eq] at h
    rw [fails_eq]
    have h : g.num i ≠ 0 := by simpa using h
    simp [h]
  · intro h hr _ _
    rw [hasNum_eq] at h
    have h0 : g.num i = 0 := by simpa using h
    have hlt : g.cand i < 2 ^ 64 := by
      rw [hcomm, Nat.land_assoc]
      exact Nat.lt_of_le_of_lt Nat.and_le_left hr
    rw [fails_eq, possibilities_eq]
    simp only [h0, ne_eq, not_true_eq_false, if_false, decide_True, Bool.true_and,
      decide_eq_true_eq]
    constructor
    · intro hc; rw [hc]; exact onesCount_zero
    · intro hc; exact onesCount_eq_zero _ hlt hc

set_option maxRecDepth 1000000 in
/-- Instance of `fails_contract` on the blank grid after 1..8 went into cells 0..7 and
9 into cell 17: cell 8 has no number and no candidate. -/
theorem fails_contract_witness :
    cell.hasNum (seeded [(0, 1), (1, 2), (2, 3), (3, 4), (4, 5), (5, 6), (6, 7), (7, 8),
      (17, 9)]) 8 = false ∧
    cell.fails (seeded [(0, 1), (1, 2), (2, 3), (3, 4), (4, 5), (5, 6), (6, 7), (7, 8),
      (17, 9)]) 8 = true :=
  ⟨by decide!,
    (((fails_contract (seeded [(0, 1), (1, 2), (2, 3), (3, 4), (4, 5), (5, 6), (6, 7), (7, 8),
      (17, 9)]) 8).2.2 (by decide!) (by decide!) (by decide!) (by decide!)).2 (by decide!))⟩

/-- Claim C12 (assign effect and frame): for every grid, cell `i` of the array with
valid set references, and digit `d` in 1..9, after `assign(d)` the cell holds `d`
and keeps its references, `d` is absent from its row, column and square set, every
other digit is in these sets exactly when it was before, the other sets of the three
families are unchanged and so are all other cells; nothing is required of `d` with
respect to the candidates or of the cell being without a number. -/
theorem assign_effect (g : sudoku) (i d : Nat) (hi : i < g.cells.length)
    (hr : (g.cell i).row < g.rs.length) (hc : (g.cell i).col < g.cs.length)
    (hq : (g.cell i).sq < g.sqs.length) (_hd1 : 1 ≤ d) (hd9 : d ≤ 9) :
    (cell.assign g i d).cell i = { g.cell i with num := d } ∧
    (¬ set.has ((cell.assign g i d).rowSet i) d ∧ ¬ set.has ((cell.assign g i d).colSet i) d ∧
      ¬ set.has ((cell.assign g i d).sqSet i) d) ∧
    (∀ e, e ≠ d →
      (set.has ((cell.assign g i d).rowSet i) e ↔ set.has (g.rowSet i) e) ∧
      (set.has ((cell.assign g i d).colSet i) e ↔ set.has (g.colSet i) e) ∧
      (set.has ((cell.assign g i d).sqSet i) e ↔ set.has (g.sqSet i) e)) ∧
    (∀ k, k ≠ (g.cell i).row → (cell.assign g i d).rs.getD k 0 = g.rs.getD k 0) ∧
    (∀ k, k ≠ (g.cell i).col → (cell.assign g i d).cs.getD k 0 = g.cs.getD k 0) ∧
    (∀ k, k ≠ (g.cell i).sq → (cell.assign g i d).sqs.getD k 0 = g.sqs.getD k 0) ∧
    (∀ j, j ≠ i → (cell.assign g i d).cell j = g.cell j) := by
  refine ⟨?_, ⟨?_, ?_, ?_⟩, ?_, ?_, ?_, ?_, ?_⟩
  · rw [cell_assign]; simp [hi]
  · rw [rowSet_assign_self g i d hr, has_remove _ _ _ hd9]; simp
  · rw [colSet_assign_self g i d hc, has_remove _ _ _ hd9]; simp
  · rw [sqSet_assign_self g i d hq, has_remove _ _ _ hd9]; simp
  · intro e he
    rw [rowSet_assign_self g i d hr, colSet_assign_self g i d hc, sqSet_assign_self g i d hq,
      has_remove _ _ _ hd9, has_remove _ _ _ hd9, has_remove _ _ _ hd9]
    simp [he]
  · intro k hk; rw [rs_assign]; simp [hk]
  · intro k hk; rw [cs_assign]; simp [hk]
  · intro k hk; rw [sqs_assign]; simp [hk]
  · intro j hj; exact cell_assign_ne g i d j hj

set_option maxRecDepth 1000000 in
/-- Instance of `assign_effect`: digit 9, which is no candidate of cell 0 of
puzzle 0, is assigned to it all the same. -/
theorem assign_effect_witness :
    set.has ((seeded puzzle0).cand 0) 9 = False ∧
    (cell.assign (seeded puzzle0) 0 9).cell 0 = { (seeded puzzle0).cell 0 with num := 9 } :=
  ⟨by decide!,
    (assign_effect (seeded puzzle0) 0 9 (by decide!) (by decide!) (by decide!) (by decide!)
      (by decide) (by decide)).1⟩

/-- Claim C13 (asSlice enumerates in ascending digit order): for every set `s`,
`asSlice()` is strictly increasing and holds exactly the digits 1..9 whose bit is set
in `s`; for `s` within the nine digit bits its length is the population count. -/
theorem asSlice_contract (s : Nat) :
    List.Pairwise (fun a b => a < b) (set.asSlice s) ∧
    (∀ d, d ∈ set.asSlice s ↔ (1 ≤ d ∧ d ≤ 9 ∧ s.testBit (d - 1) = true)) ∧
    (s ≤ 0x1ff → (set.asSlice s).length = onesCount s) :=
  ⟨asSlice_sorted s, mem_asSlice s, fun h => (onesCount_eq_length_asSlice s (by omega)).symm⟩

/-- Instance of `asSlice_contract` on the bitmap of the digits 3, 6 and 8. -/
theorem asSlice_contract_witness :
    (0xa4 : Nat) ≤ 0x1ff ∧ set.asSlice 0xa4 = [3, 6, 8] ∧
    (set.asSlice 0xa4).length = onesCount 0xa4 :=
  ⟨by decide, by decide, (asSlice_contract 0xa4).2.2 (by decide)⟩

/-- Claim C14 (remove contract): for every 64 bit set `s` and digit `d` in 1..9,
`remove(d)` gives a set without `d` in which every other digit is present exactly when
it was in `s`; it leaves `s` as it is when `d` was absent, so it is idempotent, and
two removals commute. -/
theorem remove_contract (s d : Nat) (hs : s < 2 ^ 64) (hd1 : 1 ≤ d) (hd9 : d ≤ 9) :
    ¬ set.has (set.remove s d) d ∧
    (∀ e, e ≠ d → (set.has (set.remove s d) e ↔ set.has s e)) ∧
    (¬ set.has s d → set.remove s d = s) ∧
    set.remove (set.remove s d) d = set.remove s d ∧
    (∀ d2, set.remove (set.remove s d) d2 = set.remove (set.remove s d2) d) := by
  have hno : ¬ set.has (set.remove s d) d := by rw [has_remove _ _ _ hd9]; simp
  refine ⟨hno, ?_, remove_eq_self s d hs hd1 hd9, ?_, fun d2 => remove_comm s d d2⟩
  · intro e he; rw [has_remove _ _ _ hd9]; simp [he]
  · apply remove_eq_self _ d _ hd1 hd9 hno
    unfold set.remove
    exact Nat.lt_of_le_of_lt Nat.and_le_left hs

/-- Instance of `remove_contract`: removing 5 from the full set. -/
theorem remove_contract_witness :
    (0x1ff : Nat) < 2 ^ 64 ∧ set.remove 0x1ff 5 = 0x1ef ∧
    set.remove (set.remove 0x1ff 5) 5 = set.remove 0x1ff 5 :=
  ⟨by norm_num, by decide, (remove_contract 0x1ff 5 (by norm_num) (by decide) (by decide)).2.2.2.1⟩

/-- Claim C15 (NewSudoku wiring): in the grid `NewSudoku` returns all 81 cells are
without a number, each of the 27 sets is `0x1ff`, the set of exactly the digits 1..9,
cell `i` refers to row set `i/9`, column set `i%9` and square set
`3*(i/27) + (i%9)/3`, and every row set, column set and square set is referred to by
exactly 9 cells. -/
theorem NewSudoku_wiring :
    NewSudoku.cells.length = 81 ∧ NewSudoku.rs.length = 9 ∧ NewSudoku.cs.length = 9 ∧
    NewSudoku.sqs.length = 9 ∧
    (∀ i, i < 81 → NewSudoku.cell i = ⟨0, i % 9, i / 9, 3 * (i / 27) + (i % 9) / 3⟩) ∧
    (∀ u, u < 9 → NewSudoku.rs.getD u 0 = 0x1ff ∧ NewSudoku.cs.getD u 0 = 0x1ff ∧
      NewSudoku.sqs.getD u 0 = 0x1ff) ∧
    (∀ d, set.has 0x1ff d ↔ (1 ≤ d ∧ d ≤ 9)) ∧
    (∀ u, u < 9 →
      ((List.range 81).filter (fun i => decide ((NewSudoku.cell i).row = u))).length = 9 ∧
      ((List.range 81).filter (fun i => decide ((NewSudoku.cell i).col = u))).length = 9 ∧
      ((List.range 81).filter (fun i => decide ((NewSudoku.cell i).sq = u))).length = 9) :=
  ⟨NewSudoku_refs.1, NewSudoku_refs.2.1, NewSudoku_refs.2.2.1, NewSudoku_refs.2.2.2.1,
    NewSudoku_refs.2.2.2.2.1, NewSudoku_refs.2.2.2.2.2.1, has_full, NewSudoku_refs.2.2.2.2.2.2⟩

/-! ## The receiver stays tracked -/

theorem scan_tracked (is : List Nat) (his : ∀ i ∈ is, i < 81) (f : frame) (hf : tracked f.s) :
    match scan is f with
    | .ok f' => tracked f'.s
    | .error f' => tracked f'.s := by
  apply scan_rule (fun f => tracked f.s) (fun f => tracked f.s) is _ _ _ f hf
  · intro f i _ h _ _; exact h
  · intro f i hi h hn _ hone
    have hi81 := his i hi
    have hn0 : f.s.num i = 0 := by rw [hasNum_eq] at hn; simpa using hn
    have := single_candidate f.s h i hi81 hone
    exact tracked_assign f.s i _ h hi81 hn0 (by
      have : (9 : Nat) < 2 ^ 64 := by norm_num
      omega)
  · intro f i _ h _ _ _; exact h

theorem propagate_tracked (fuel : Nat) : ∀ (s : sudoku) (l : log) (tc : Nat) (o : outcome),
    tracked s → propagate fuel s l tc = some o →
    match o with
    | .returned f => tracked f.s
    | .broke f => tracked f.s := by
  induction fuel with
  | zero => intro s l tc o _ h; simp [propagate] at h
  | succ n ih =>
    intro s l tc o hs h
    have hsc := scan_tracked (List.range (9 * 9)) (fun i hi => by simpa using hi)
      ⟨s, l.iterate, 0, tc, false, true⟩ hs
    rw [propagate] at h
    cases hres : scan (List.range (9 * 9)) ⟨s, l.iterate, 0, tc, false, true⟩ with
    | error f =>
      rw [hres] at h hsc
      simp only [Option.some.injEq] at h
      subst h
      exact hsc
    | ok f =>
      rw [hres] at h hsc
      simp only at h hsc
      by_cases ha : f.allCellsHaveNumbers = true
      · rw [if_pos ha] at h
        simp only [Option.some.injEq] at h
        subst h
        exact hsc
      · rw [if_neg ha] at h
        by_cases hp : (!f.progress) = true
        · rw [if_pos hp] at h
          simp only [Option.some.injEq] at h
          subst h
          exact hsc
        · rw [if_neg hp] at h
          exact ih f.s f.l f.tryCell o hsc h

theorem solve_receiver_tracked (fuel : Nat) (g : sudoku) (l : log) (r : sudoku × log)
    (hg : tracked g) (h : sudoku.solve fuel g l = some r) : tracked r.1 := by
  cases fuel with
  | zero => simp [sudoku.solve] at h
  | succ n =>
    rw [sudoku.solve] at h
    cases hp : propagate (n + 1) g l.solveEnter 0 with
    | none => rw [hp] at h; exact Option.noConfusion h
    | some o =>
      rw [hp] at h
      have ht := propagate_tracked (n + 1) g l.solveEnter 0 o hg hp
      cases o with
      | returned f =>
        simp only [Option.some.injEq] at h
        subst h
        exact ht
      | broke f =>
        simp only at h
        cases hb : branch (sudoku.solve n) f.s f.tryCell f.tryCandidates.asSlice f.l with
        | none => rw [hb] at h; exact Option.noConfusion h
        | some l' =>
          rw [hb] at h
          simp only [Option.some.injEq] at h
          subst h
          exact ht

theorem has_of_tracked (S : Nat) (P : Nat → Prop)
    (h : ∀ e, S.testBit e = true ↔ (e < 9 ∧ P (e + 1))) (d : Nat) :
    set.has S d ↔ (1 ≤ d ∧ d ≤ 9 ∧ P d) := by
  unfold set.has
  constructor
  · rintro ⟨h1, h9, hb⟩
    have := (h (d - 1)).1 hb
    have hdd : d - 1 + 1 = d := by omega
    rw [hdd] at this
    exact ⟨h1, h9, this.2⟩
  · rintro ⟨h1, h9, hp⟩
    refine ⟨h1, h9, (h (d - 1)).2 ⟨by omega, ?_⟩⟩
    have hdd : d - 1 + 1 = d := by omega
    rw [hdd]; exact hp

theorem le_511_of_tracked (S : Nat) (P : Nat → Prop)
    (h : ∀ e, S.testBit e = true ↔ (e < 9 ∧ P e)) : S ≤ 0x1ff := by
  have : S < 2 ^ 9 := by
    apply Nat.lt_pow_two_of_testBit
    intro e he
    cases hb : S.testBit e
    · rfl
    · have := ((h e).1 hb).1
      omega
  have h512 : (2 : Nat) ^ 9 = 512 := by norm_num
  omega

/-! ## Claims C16, C17 and C20 -/

set_option maxRecDepth 1000000 in
/-- Claim C16, evaluated on puzzle 5 of `main.go` with a fresh log: when the solution
is recorded the history holds 5 `solveEnter` calls, no `solveExit` call and 2
`noSolution` calls, each of which is followed by the early `return` of its frame, so
3 invocations are active while `log.solDepth` is 5; and `log.depth` is 2, not 0, when
the top-level call returns. -/
theorem depth_unmatched :
    (sudoku.solve 20 (seeded puzzle5) NewLog).map (fun r =>
      (r.2.depth, r.2.solDepth, r.2.sol.isSome,
        ((r.2.trace.takeWhile (fun e => !e.isSolution)).filter event.isEnter).length,
        ((r.2.trace.takeWhile (fun e => !e.isSolution)).filter event.isExit).length,
        ((r.2.trace.takeWhile (fun e => !e.isSolution)).filter event.isNoSolution).length))
      = some (2, 5, true, 5, 0, 2) := by
  decide!

/-- Claim C17 (candidate sets are exactly the legal digits): on every grid reachable
from a blank grid by `assign` calls on cells without a number, each row, column and
square set holds exactly the digits 1..9 that no cell of its unit holds, hence lies
within the nine digit bits, and `possibilities()` of a cell without a number returns
exactly the digits 1..9 held by no cell of its row, column or square; the copy of such
a grid, the receiver after `solve` and the solution `solve` records are reachable
again. -/
theorem candidates_legal (g : sudoku) (hg : reachable g) :
    (∀ u, u < 9 → ∀ d,
      (set.has (g.rs.getD u 0) d ↔
        (1 ≤ d ∧ d ≤ 9 ∧ ∀ j, j < 81 → rowOf j = u → g.num j ≠ d)) ∧
      (set.has (g.cs.getD u 0) d ↔
        (1 ≤ d ∧ d ≤ 9 ∧ ∀ j, j < 81 → colOf j = u → g.num j ≠ d)) ∧
      (set.has (g.sqs.getD u 0) d ↔
        (1 ≤ d ∧ d ≤ 9 ∧ ∀ j, j < 81 → boxOf j = u → g.num j ≠ d))) ∧
    (∀ u, u < 9 → g.rs.getD u 0 ≤ 0x1ff ∧ g.cs.getD u 0 ≤ 0x1ff ∧ g.sqs.getD u 0 ≤ 0x1ff) ∧
    (∀ i, i < 81 → cell.hasNum g i = false → ∀ d,
      (set.has (cell.possibilities g i).1 d ↔
        (1 ≤ d ∧ d ≤ 9 ∧ ∀ j, j < 81 → sameUnit j i → g.num j ≠ d))) ∧
    reachable g.copy ∧
    (∀ fuel l r, sudoku.solve fuel g l = some r →
      reachable r.1 ∧ (l.sol = none → ∀ t, r.2.sol = some t → reachable t)) := by
  have ht := tracked_of_reachable g hg
  refine ⟨?_, ?_, ?_, ?_, ?_⟩
  · intro u hu d
    exact ⟨has_of_tracked _ (fun x => ∀ j, j < 81 → rowOf j = u → g.num j ≠ x) (ht.trs u hu) d,
      has_of_tracked _ (fun x => ∀ j, j < 81 → colOf j = u → g.num j ≠ x) (ht.tcs u hu) d,
      has_of_tracked _ (fun x => ∀ j, j < 81 → boxOf j = u → g.num j ≠ x) (ht.tsqs u hu) d⟩
  · intro u hu
    exact ⟨le_511_of_tracked _ _ (ht.trs u hu), le_511_of_tracked _ _ (ht.tcs u hu),
      le_511_of_tracked _ _ (ht.tsqs u hu)⟩
  · intro i hi hn d
    have hn0 : ¬ g.num i ≠ 0 := by rw [hasNum_eq] at hn; simpa using hn
    rw [possibilities_eq, if_neg hn0]
    exact has_of_tracked _ (fun x => ∀ j, j < 81 → sameUnit j i → g.num j ≠ x)
      (fun e => testBit_cand_tracked g ht i e hi) d
  · rw [copy_eq_self g ht]; exact hg
  · intro fuel l r hr
    refine ⟨reachable_of_tracked _ (solve_receiver_tracked fuel g l r ht hr), ?_⟩
    intro hl t hs
    exact reachable_of_tracked _ (((solvePost_of_run fuel g l r ht hr).2 hl).2.1 t hs).1

set_option maxRecDepth 1000000 in
/-- Instance of `candidates_legal` on puzzle 0: the candidates of cell 0 are 3, 6
and 8. -/
theorem candidates_legal_witness :
    reachable (seeded puzzle0) ∧ cell.hasNum (seeded puzzle0) 0 = false ∧
    (cell.possibilities (seeded puzzle0) 0).1 = 0xa4 ∧
    ∀ d, (set.has (cell.possibilities (seeded puzzle0) 0).1 d ↔
      (1 ≤ d ∧ d ≤ 9 ∧ ∀ j, j < 81 → sameUnit j 0 → (seeded puzzle0).num j ≠ d)) :=
  ⟨reachable_seeded puzzle0 puzzle0_good, by decide!, by decide!,
    (candidates_legal (seeded puzzle0) (reachable_seeded puzzle0 puzzle0_good)).2.2.1 0
      (by decide) (by decide!)⟩

set_option maxRecDepth 1000000 in
/-- Claim C20, evaluated on the texts of the built-in puzzles: puzzle 0, whose lines
end in a space, is read cell by cell; in puzzle 4, whose lines do not, the deleted
line feeds join the last token of a line to the first of the next, so the 3 at line
1, position 5 goes to cell 13 instead of 14, the 8 at position 7 to cell 15 instead
of 16, and the 5 at position 8 is lost. -/
theorem read_joins_lines :
    NewSudoku.read puzzle0Text.toList = some (seeded puzzle0) ∧
    (split (Char.ofNat 32) (eolReplace puzzle4Text.toList)).length = 73 ∧
    (NewSudoku.read puzzle4Text.toList).map
      (fun g => (g.num 13, g.num 14, g.num 15, g.num 16, g.num 17)) = some (3, 0, 8, 0, 0) := by
  decide!

/-! ## The branch cell -/

theorem scan_progress_sticky (is : List Nat) (f f' : frame) (hp : f.progress = true)
    (h : scan is f = .ok f') : f'.progress = true := by
  have := scan_rule (fun f => f.progress = true) (fun _ => True) is
    (fun _ _ _ _ _ _ => trivial) (fun _ _ _ _ _ _ _ => rfl) (fun _ _ _ h _ _ _ => h) f hp
  rw [h] at this
  exact this

/-- A pass without progress leaves the grid and the log as they are. -/
theorem scan_still (is : List Nat) : ∀ (f f' : frame), scan is f = .ok f' →
    f'.progress = false → f'.s = f.s ∧ f'.l = f.l := by
  induction is with
  | nil => intro f f' h _; rw [scan_nil] at h; cases h; exact ⟨rfl, rfl⟩
  | cons i r ih =>
    intro f f' h hp
    by_cases hn : cell.hasNum f.s i = true
    · rw [scan_cons_has i r f hn] at h; exact ih f f' h hp
    · have hn : cell.hasNum f.s i = false := by simpa using hn
      by_cases hc : f.s.cand i = 0
      · rw [scan_cons_fail i r f hn hc] at h; cases h
      · by_cases h1 : onesCount (f.s.cand i) = 1
        · rw [scan_cons_single i r f hn hc h1] at h
          have := scan_progress_sticky r _ f' rfl h
          rw [hp] at this; exact Bool.noConfusion this
        · rw [scan_cons_try i r f hn hc h1] at h
          have := ih ⟨f.s, f.l, f.s.cand i, i, f.progress, false⟩ f' h hp
          exact this

/-- After a pass without progress over ascending indices, `tryCell` is the last
visited cell without a number. -/
theorem scan_last (is : List Nat) (hs : List.Pairwise (fun a b => a < b) is) :
    ∀ (f f' : frame), scan is f = .ok f' → f'.progress = false →
    (f'.tryCell = f.tryCell ∨ f'.tryCell ∈ is) ∧
    ∀ j ∈ is, cell.hasNum f.s j = false → j ≤ f'.tryCell := by
  induction is with
  | nil =>
    intro f f' h _
    rw [scan_nil] at h; cases h
    exact ⟨Or.inl rfl, fun j hj => by simp at hj⟩
  | cons i r ih =>
    intro f f' h hp
    rw [List.pairwise_cons] at hs
    have ih' := ih hs.2
    by_cases hn : cell.hasNum f.s i = true
    · rw [scan_cons_has i r f hn] at h
      obtain ⟨h1, h2⟩ := ih' f f' h hp
      refine ⟨?_, ?_⟩
      · rcases h1 with h1 | h1
        · exact Or.inl h1
        · exact Or.inr (List.mem_cons_of_mem _ h1)
      · intro j hj hjn
        rcases List.mem_cons.1 hj with hji | hjr
        · rw [hji, hn] at hjn; exact Bool.noConfusion hjn
        · exact h2 j hjr hjn
    · have hn : cell.hasNum f.s i = false := by simpa using hn
      by_cases hc : f.s.cand i = 0
      · rw [scan_cons_fail i r f hn hc] at h; cases h
      · by_cases h1 : onesCount (f.s.cand i) = 1
        · rw [scan_cons_single i r f hn hc h1] at h
          have := scan_progress_sticky r _ f' rfl h
          rw [hp] at this; exact Bool.noConfusion this
        · rw [scan_cons_try i r f hn hc h1] at h
          obtain ⟨h2, h3⟩ := ih' _ f' h hp
          have hle : i ≤ f'.tryCell := by
            rcases h2 with h2 | h2
            · have h2 : f'.tryCell = i := h2
              omega
            · have := hs.1 _ h2; omega
          refine ⟨Or.inr ?_, ?_⟩
          · rcases h2 with h2 | h2
            · have h2 : f'.tryCell = i := h2
              rw [h2]; exact List.mem_cons_self _ _
            · exact List.mem_cons_of_mem _ h2
          · intro j hj hjn
            rcases List.mem_cons.1 hj with hji | hjr
            · rw [hji]; exact hle
            · exact h3 j hjr hjn

/-- When the propagation loop ends with candidates to try, `tryCell` is the cell
without a number that has the largest index. -/
theorem propagate_last (fuel : Nat) : ∀ (s : sudoku) (l : log) (tc : Nat) (f : frame),
    propagate fuel s l tc = some (.broke f) → f.tryCandidates ≠ 0 →
    ∀ j, j < 81 → cell.hasNum f.s j = false → j ≤ f.tryCell := by
  induction fuel with
  | zero => intro s l tc f h; simp [propagate] at h
  | succ n ih =>
    intro s l tc f h h0
    rw [propagate] at h
    cases hres : scan (List.range (9 * 9)) ⟨s, l.iterate, 0, tc, false, true⟩ with
    | error f' => rw [hres] at h; cases h
    | ok f' =>
      rw [hres] at h
      simp only at h
      by_cases ha : f'.allCellsHaveNumbers = true
      · rw [if_pos ha] at h
        simp only [Option.some.injEq, outcome.broke.injEq] at h
        exfalso
        apply h0
        rw [← h]
        obtain ⟨hff, _⟩ := scan_all _ _ _ hres ha
        show f'.tryCandidates = 0
        rw [hff]
      · rw [if_neg ha] at h
        by_cases hp : (!f'.progress) = true
        · rw [if_pos hp] at h
          simp only [Option.some.injEq, outcome.broke.injEq] at h
          subst h
          have hp' : f'.progress = false := by simpa using hp
          obtain ⟨hs, _⟩ := scan_still _ _ _ hres hp'
          have hl := (scan_last (List.range (9 * 9)) (List.pairwise_lt_range _) _ _ hres hp').2
          intro j hj hjn
          apply hl j (by simpa using hj)
          rw [hs] at hjn; exact hjn
        · rw [if_neg hp] at h
          exact ih _ _ _ f h h0

theorem scan_solve (is : List Nat) (f : frame) :
    match scan is f with
    | .ok f' => f'.l.solve = f.l.solve
    | .error f' => f'.l.solve = f.l.solve := by
  apply scan_rule (fun f' => f'.l.solve = f.l.solve) (fun f' => f'.l.solve = f.l.solve) is
  · intro f' i _ h _ _; exact h
  · intro f' i _ h _ _ _; exact h
  · intro f' i _ h _ _ _; exact h
  · rfl

theorem propagate_solve (fuel : Nat) : ∀ (s : sudoku) (l : log) (tc : Nat) (f : frame),
    propagate fuel s l tc = some (.returned f) → f.l.solve = l.solve := by
  induction fuel with
  | zero => intro s l tc f h; simp [propagate] at h
  | succ n ih =>
    intro s l tc f h
    have hsc := scan_solve (List.range (9 * 9)) ⟨s, l.iterate, 0, tc, false, true⟩
    rw [propagate] at h
    cases hres : scan (List.range (9 * 9)) ⟨s, l.iterate, 0, tc, false, true⟩ with
    | error f' =>
      rw [hres] at h hsc
      simp only [Option.some.injEq, outcome.returned.injEq] at h
      subst h
      exact hsc
    | ok f' =>
      rw [hres] at h hsc
      simp only at h hsc
      by_cases ha : f'.allCellsHaveNumbers = true
      · rw [if_pos ha] at h; cases h
      · rw [if_neg ha] at h
        by_cases hp : (!f'.progress) = true
        · rw [if_pos hp] at h; cases h
        · rw [if_neg hp] at h
          rw [ih _ _ _ f h, hsc]; rfl

/-- The candidate loop of `solve` recurses on an initial part of the list: it stops
right after the first call that leaves a solution recorded, and otherwise runs
through the whole list. -/
theorem branch_initial (rec : sudoku → log → Option (sudoku × log)) (s : sudoku) (tc : Nat) :
    ∀ (ds : List Nat) (l l' : log), branch rec s tc ds l = some l' →
    ∃ ds1 ds2, ds = ds1 ++ ds2 ∧ (ds ≠ [] → ds1 ≠ []) ∧
      recurseAll rec s tc ds1 l = some l' ∧ (ds2 = [] ∨ l'.isDone = true) ∧
      (∀ p q, ds1 = p ++ q → p ≠ [] → q ≠ [] →
        ∃ lp, recurseAll rec s tc p l = some lp ∧ lp.isDone = false) := by
  intro ds
  induction ds with
  | nil =>
    intro l l' h
    refine ⟨[], [], rfl, fun h => absurd rfl h, h, Or.inl rfl, ?_⟩
    intro p q hpq hp _
    exfalso
    apply hp
    cases p with
    | nil => rfl
    | cons a t => simp at hpq
  | cons d rest ih =>
    intro l l' h
    rw [branch] at h
    cases hr : rec (cell.assign s.copy tc d) (l.noteAssign s.copy tc d) with
    | none => rw [hr] at h; exact Option.noConfusion h
    | some r =>
      rw [hr] at h
      simp only at h
      by_cases hd : r.2.isDone = true
      · rw [if_pos hd] at h
        simp only [Option.some.injEq] at h
        refine ⟨[d], rest, rfl, fun _ => by simp, ?_, Or.inr (by rw [← h]; exact hd), ?_⟩
        · rw [recurseAll, hr]
          simp only [recurseAll]
          rw [h]
        · intro p q hpq hp hq
          exfalso
          have hlen := congrArg List.length hpq
          rw [List.length_append] at hlen
          have h1 : 0 < p.length := List.length_pos.2 hp
          have h2 : 0 < q.length := List.length_pos.2 hq
          simp at hlen
          omega
      · rw [if_neg hd] at h
        obtain ⟨ds1, ds2, h1, _, h3, h4, h5⟩ := ih r.2 l' h
        refine ⟨d :: ds1, ds2, by rw [h1]; rfl, fun _ => by simp, ?_, h4, ?_⟩
        · rw [recurseAll, hr]
          exact h3
        · intro p q hpq hp hq
          cases p with
          | nil => exact absurd rfl hp
          | cons a p' =>
            rw [List.cons_append] at hpq
            injection hpq with ha hrest
            subst ha
            by_cases hp' : p' = []
            · subst hp'
              refine ⟨r.2, ?_, by simpa using hd⟩
              rw [recurseAll, hr]
              rfl
            · obtain ⟨lp, hlp, hnd⟩ := h5 p' q hrest hp' hq
              refine ⟨lp, ?_, hnd⟩
              rw [recurseAll, hr]
              exact hlp

/-! ## Claim C18 -/

set_option maxRecDepth 1000000 in
/-- Claim C18, refuted as stated: on the puzzle `twoWay` propagation ends without a
dead end on a grid that is not full, the branch cell is 28 and its candidates are 6
and 9, yet `solve` makes two invocations in all and assigns 6 but never 9 to cell 28
of a copy: the copy with 6 yields the solution and the loop stops. -/
theorem branch_stops_counterexample :
    goodClues twoWay ∧
    (propagate 5 (seeded twoWay) NewLog.solveEnter 0).map (fun o =>
      match o with
      | .broke f => (f.tryCell, f.tryCandidates.asSlice, decide f.s.full)
      | .returned _ => (0, [], true)) = some (28, [6, 9], false) ∧
    (sudoku.solve 5 (seeded twoWay) NewLog).map (fun r =>
      (r.2.solve, decide (event.assign 28 6 false ∈ r.2.trace),
        decide (event.assign 28 9 false ∈ r.2.trace))) = some (2, true, false) := by
  decide!

/-- Claim C18 as amended: on every reachable grid, with enough fuel, a frame of
`solve` whose propagation loop met a failing cell returns the log of that loop with
`log.solve` one more than on entry, so without a recursive call; a frame whose
propagation loop ends on a grid that is not full branches on `tryCell`, the cell
without a number that has the largest index, with the candidate set that cell has
at that moment, a non-empty strictly ascending list of digits; it recurses on copies
in which that cell is assigned the digits of an initial part `ds1` of the list, in
list order; no call before the last one of `ds1` leaves a solution recorded, and the
rest `ds2` of the list is left out only when the last call of `ds1` has left a
solution recorded, so the loop stops right after the first call that records a
solution and not before. -/
theorem branch_choice (g : sudoku) (hg : reachable g) (fuel : Nat) (l : log)
    (hf : g.unassigned < fuel + 1) :
    ∃ o, propagate (fuel + 1) g l.solveEnter 0 = some o ∧
      match o with
      | .returned f =>
        sudoku.solve (fuel + 1) g l = some (f.s, f.l) ∧ f.l.solve = l.solve + 1
      | .broke f =>
        ¬ f.s.full →
          (f.tryCell < 81 ∧ cell.hasNum f.s f.tryCell = false ∧
           (∀ j, j < 81 → cell.hasNum f.s j = false → j ≤ f.tryCell) ∧
           f.tryCandidates = (cell.possibilities f.s f.tryCell).1 ∧
           f.tryCandidates.asSlice ≠ [] ∧
           List.Pairwise (fun a b => a < b) f.tryCandidates.asSlice ∧
           (∀ d ∈ f.tryCandidates.asSlice, set.has (f.s.cand f.tryCell) d)) ∧
          ∃ ds1 ds2 l', f.tryCandidates.asSlice = ds1 ++ ds2 ∧ ds1 ≠ [] ∧
            recurseAll (sudoku.solve fuel) f.s f.tryCell ds1 f.l = some l' ∧
            (ds2 = [] ∨ l'.isDone = true) ∧
            (∀ p q, ds1 = p ++ q → p ≠ [] → q ≠ [] →
              ∃ lp, recurseAll (sudoku.solve fuel) f.s f.tryCell p f.l = some lp ∧
                lp.isDone = false) ∧
            sudoku.solve (fuel + 1) g l = some (f.s, l'.solveExit) := by
  have ht := tracked_of_reachable g hg
  obtain ⟨o, ho, hpost⟩ := propagate_good (fuel + 1) g l.solveEnter 0 ht hf
  refine ⟨o, ho, ?_⟩
  cases o with
  | returned f =>
    refine ⟨by rw [sudoku.solve, ho], ?_⟩
    rw [propagate_solve _ _ _ _ f ho]; rfl
  | broke f =>
    intro hnf
    obtain ⟨p1, p2, _, _, _, p6⟩ := hpost
    rcases p6 with ⟨q1, _, _⟩ | ⟨_, q2, q3, q4, q5⟩
    · exact absurd q1 hnf
    · have hn0 : ¬ f.s.num f.tryCell ≠ 0 := by rw [hasNum_eq] at q3; simpa using q3
      have hne : f.tryCandidates.asSlice ≠ [] := by
        apply asSlice_ne_nil _ q5
        rw [q4]; exact cand_lt f.s p1 f.tryCell q2
      have hds : ∀ d ∈ f.tryCandidates.asSlice,
          1 ≤ d ∧ d ≤ 9 ∧ (f.s.cand f.tryCell).testBit (d - 1) = true := by
        intro d hd
        rw [q4, mem_asSlice] at hd
        exact hd
      refine ⟨⟨q2, q3, propagate_last _ _ _ _ f ho q5, ?_, hne, asSlice_sorted _, hds⟩, ?_⟩
      · rw [possibilities_eq, if_neg hn0]; exact q4
      · obtain ⟨l', hl', _, _⟩ := branch_good fuel f.s f.tryCell p1 q2 q3 (by omega)
          (fun g l hg hu => solve_good fuel g l hg hu) f.tryCandidates.asSlice hds f.l
        obtain ⟨ds1, ds2, h1, h2, h3, h4, h5⟩ := branch_initial _ _ _ _ _ _ hl'
        refine ⟨ds1, ds2, l', h1, h2 hne, h3, h4, h5, ?_⟩
        rw [sudoku.solve, ho]
        simp only
        rw [hl']

set_option maxRecDepth 1000000 in
/-- Instance of `branch_choice` on the puzzle `twoWay` with a fresh log. -/
theorem branch_choice_witness :
    reachable (seeded twoWay) ∧ (seeded twoWay).unassigned < 4 + 1 ∧
    ∃ o, propagate (4 + 1) (seeded twoWay) NewLog.solveEnter 0 = some o ∧
      match o with
      | .returned f =>
        sudoku.solve (4 + 1) (seeded twoWay) NewLog = some (f.s, f.l) ∧
          f.l.solve = NewLog.solve + 1
      | .broke f =>
        ¬ f.s.full →
          (f.tryCell < 81 ∧ cell.hasNum f.s f.tryCell = false ∧
           (∀ j, j < 81 → cell.hasNum f.s j = false → j ≤ f.tryCell) ∧
           f.tryCandidates = (cell.possibilities f.s f.tryCell).1 ∧
           f.tryCandidates.asSlice ≠ [] ∧
           List.Pairwise (fun a b => a < b) f.tryCandidates.asSlice ∧
           (∀ d ∈ f.tryCandidates.asSlice, set.has (f.s.cand f.tryCell) d)) ∧
          ∃ ds1 ds2 l', f.tryCandidates.asSlice = ds1 ++ ds2 ∧ ds1 ≠ [] ∧
            recurseAll (sudoku.solve 4) f.s f.tryCell ds1 f.l = some l' ∧
            (ds2 = [] ∨ l'.isDone = true) ∧
            (∀ p q, ds1 = p ++ q → p ≠ [] → q ≠ [] →
              ∃ lp, recurseAll (sudoku.solve 4) f.s f.tryCell p f.l = some lp ∧
                lp.isDone = false) ∧
            sudoku.solve (4 + 1) (seeded twoWay) NewLog = some (f.s, l'.solveExit) :=
  ⟨reachable_seeded twoWay (by decide!), by decide!,
    branch_choice (seeded twoWay) (reachable_seeded twoWay (by decide!)) 4 NewLog (by decide!)⟩

/-! ## Which solution is found -/

theorem lexLE_of_full (s t : sudoku) (hf : s.full) (hk : s.keeps t) : s.lexLE t := by
  left
  intro j hj
  have := hf j hj
  rw [hasNum_eq] at this
  exact (hk j hj (by simpa using this)).symm

theorem branch_least (n : Nat) (s : sudoku) (tc : Nat) (hs : tracked s) (htc : tc < 81)
    (hn : cell.hasNum s tc = false)
    (hlast : ∀ j, j < 81 → cell.hasNum s j = false → j ≤ tc)
    (ih : ∀ (g : sudoku) (l : log) (r : sudoku × log), tracked g → l.coherent → l.sol = none →
      sudoku.solve n g l = some r → ∀ t0, r.2.sol = some t0 →
      ∀ t, g.completes t → t0.lexLE t) :
    ∀ (ds : List Nat), List.Pairwise (fun a b => a < b) ds →
    (∀ d ∈ ds, 1 ≤ d ∧ d ≤ 9 ∧ (s.cand tc).testBit (d - 1) = true) →
    ∀ (l l' : log), l.coherent → l.sol = none → branch (sudoku.solve n) s tc ds l = some l' →
    ∀ t0, l'.sol = some t0 → ∀ t, s.completes t → t.num tc ∈ ds → t0.lexLE t := by
  intro ds
  induction ds with
  | nil => intro _ _ l l' _ _ _ t0 _ t _ h; simp at h
  | cons d rest ihl =>
    intro hsorted hds l l' hl hsol h t0 ht0 t ht hmem
    rw [List.pairwise_cons] at hsorted
    have hd := hds d (List.mem_cons_self _ _)
    have hn0 : s.num tc = 0 := by rw [hasNum_eq] at hn; simpa using hn
    have hs1 : tracked (cell.assign s tc d) :=
      tracked_assign s tc d hs htc hn0 (by
        have : (9 : Nat) < 2 ^ 64 := by norm_num
        omega)
    have hl1 : (l.noteAssign s tc d).coherent := coherent_noteAssign l s tc d hl hsol hn
    rw [branch, copy_eq_self s hs] at h
    cases hr : sudoku.solve n (cell.assign s tc d) (l.noteAssign s tc d) with
    | none => rw [hr] at h; exact Option.noConfusion h
    | some r =>
      rw [hr] at h
      simp only at h
      have hany := solve_any n _ _ r hr hl1 hsol
      have hpost := (solvePost_of_run n _ _ r hs1 hr).2 hsol
      by_cases hdone : r.2.isDone = true
      · rw [if_pos hdone] at h
        simp only [Option.some.injEq] at h
        rw [← h] at ht0
        rcases List.mem_cons.1 hmem with hm | hm
        · apply ih _ _ r hs1 hl1 hsol hr t0 ht0 t
          rw [← hm]
          exact completes_assign s t hs.len ht tc htc
        · right
          have hk := hany.2.2 t0 ht0
          have hself : (cell.assign s tc d).num tc = d :=
            num_assign_self s tc d (by rw [hs.len]; exact htc)
          refine ⟨tc, htc, ?_, ?_⟩
          · rw [hk tc htc (by rw [hself]; omega), hself]
            exact hsorted.1 _ hm
          · intro j hj hlt
            have hsj : s.num j ≠ 0 := by
              intro h0
              have : cell.hasNum s j = false := by rw [hasNum_eq]; simp [h0]
              have := hlast j hj this
              omega
            have hne : j ≠ tc := by omega
            have h1 : (cell.assign s tc d).num j = s.num j := num_assign_ne s tc d j hne
            rw [hk j hj (by rw [h1]; exact hsj), h1, ht.2 j hj hsj]
      · rw [if_neg hdone] at h
        have hsn := isDone_eq_false _ hdone
        rcases List.mem_cons.1 hmem with hm | hm
        · exfalso
          apply hpost.2.2 ⟨t, ?_⟩ hsn
          rw [← hm]
          exact completes_assign s t hs.len ht tc htc
        · exact ihl hsorted.2 (fun x hx => hds x (List.mem_cons_of_mem _ hx)) r.2 l'
            hany.2.1 hsn h t0 ht0 t ht hm

theorem solve_least_aux (n : Nat) : ∀ (g : sudoku) (l : log) (r : sudoku × log),
    tracked g → l.coherent → l.sol = none → sudoku.solve n g l = some r →
    ∀ t0, r.2.sol = some t0 → ∀ t, g.completes t → t0.lexLE t := by
  induction n with
  | zero => intro g l r _ _ _ h; simp [sudoku.solve] at h
  | succ n ih =>
    intro g l r hg hl hsol h t0 ht0 t ht
    rw [sudoku.solve] at h
    cases hp : propagate (n + 1) g l.solveEnter 0 with
    | none => rw [hp] at h; exact Option.noConfusion h
    | some o =>
      rw [hp] at h
      obtain ⟨o', ho', hpost⟩ := propagate_good (max (n + 1) (g.unassigned + 1)) g l.solveEnter 0
        hg (by have := le_max_right (n + 1) (g.unassigned + 1); omega)
      have hmono := propagate_mono (n + 1) (max (n + 1) (g.unassigned + 1)) _ _ _ o hp
        (le_max_left _ _)
      rw [hmono] at ho'
      cases ho'
      have hpa := propagate_any (n + 1) g l.solveEnter 0 o hp (coherent_solveEnter l hl hsol) hsol
      cases o with
      | returned f =>
        simp only [Option.some.injEq] at h
        rw [← h] at ht0
        have ht0 : f.l.sol = some t0 := ht0
        rw [hpa.2.2] at ht0
        exact Option.noConfusion ht0
      | broke f =>
        simp only at h
        obtain ⟨p1, _, _, p4, _, p6⟩ := hpost
        obtain ⟨_, hco, _⟩ := hpa
        cases hb : branch (sudoku.solve n) f.s f.tryCell f.tryCandidates.asSlice f.l with
        | none => rw [hb] at h; exact Option.noConfusion h
        | some l' =>
          rw [hb] at h
          simp only [Option.some.injEq] at h
          rw [← h] at ht0
          have ht0 : l'.sol = some t0 := ht0
          have hct := p4 t ht
          rcases p6 with ⟨q1, q2, q3⟩ | ⟨q1, q2, q3, q4, q5⟩
          · rw [q3] at hb
            have : set.asSlice 0 = [] := rfl
            rw [this] at hb
            simp only [branch, Option.some.injEq] at hb
            rw [← hb, q2] at ht0
            cases ht0
            exact lexLE_of_full f.s t q1 hct.2
          · have hds : ∀ d ∈ f.tryCandidates.asSlice,
                1 ≤ d ∧ d ≤ 9 ∧ (f.s.cand f.tryCell).testBit (d - 1) = true := by
              intro d hd
              rw [q4, mem_asSlice] at hd
              exact hd
            have hn0 : f.s.num f.tryCell = 0 := by rw [hasNum_eq] at q3; simpa using q3
            have hcand := completion_is_candidate f.s t p1 hct f.tryCell q2 hn0
            apply branch_least n f.s f.tryCell p1 q2 q3 (propagate_last _ _ _ _ f hp q5) ih
              f.tryCandidates.asSlice (asSlice_sorted _) hds f.l l' hco
              (by rw [q1]; exact hsol) hb t0 ht0 t hct
            rw [q4, mem_asSlice]
            exact hcand

/-- Claim C19 (which solution is found): for a grid built from a blank grid by
assigning digits 1..9 to distinct cells with no digit twice in a unit and with at
least one valid completion, `solve` with a fresh log records a valid completion that
is least among all valid completions in the lexicographic order comparing the cell
values from index 80 down to index 0; every run that returns records this grid. -/
theorem solve_least (clues : List (Nat × Nat)) (fuel : Nat)
    (hc : goodClues clues) (hn : (seeded clues).noRepeat)
    (hex : ∃ t, (seeded clues).completes t) (hf : (seeded clues).unassigned < fuel) :
    ∃ r t0, sudoku.solve fuel (seeded clues) NewLog = some r ∧ r.2.sol = some t0 ∧
      (seeded clues).completes t0 ∧
      (∀ t, (seeded clues).completes t → t0.lexLE t) ∧
      (∀ fuel2 r2, sudoku.solve fuel2 (seeded clues) NewLog = some r2 →
        r2.2.sol = some t0) := by
  have hg := tracked_seeded clues hc
  obtain ⟨r, hr, hp⟩ := solve_good fuel (seeded clues) NewLog hg hf
  have hsome := (hp.2 rfl).2.2 hex
  cases hs : r.2.sol with
  | none => exact absurd hs hsome
  | some t0 =>
    have h1 := (hp.2 rfl).2.1 t0 hs
    have h2 := (solve_any fuel _ _ r hr coherent_NewLog rfl).2.2 t0 hs
    refine ⟨r, t0, hr, hs,
      ⟨isSolved_of_consistent t0 (h1.2.2 (consistent_seeded clues hc hn)) h1.2.1, h2⟩,
      solve_least_aux fuel _ _ r hg coherent_NewLog rfl hr t0 hs, ?_⟩
    intro fuel2 r2 hr2
    have e1 := solve_mono fuel (max fuel fuel2) _ _ r hr (le_max_left _ _)
    have e2 := solve_mono fuel2 (max fuel fuel2) _ _ r2 hr2 (le_max_right _ _)
    rw [e1] at e2
    cases e2
    exact hs

/-- Instance of `solve_least` on puzzle 0 of `main.go`. -/
theorem solve_least_witness :
    goodClues puzzle0 ∧ (seeded puzzle0).noRepeat ∧
    (seeded puzzle0).completes (seeded solution0) ∧ (seeded puzzle0).unassigned < 82 ∧
    ∃ r t0, sudoku.solve 82 (seeded puzzle0) NewLog = some r ∧ r.2.sol = some t0 ∧
      (seeded puzzle0).completes t0 ∧
      (∀ t, (seeded puzzle0).completes t → t0.lexLE t) ∧
      (∀ fuel2 r2, sudoku.solve fuel2 (seeded puzzle0) NewLog = some r2 →
        r2.2.sol = some t0) :=
  ⟨puzzle0_good, puzzle0_noRepeat, puzzle0_completes, puzzle0_unassigned,
    solve_least puzzle0 82 puzzle0_good puzzle0_noRepeat ⟨_, puzzle0_completes⟩
      puzzle0_unassigned⟩

end Sudoku
